import Mathlib

/-!
goenums-gen: the scanner and extractor of `main.go`.

A shallow embedding of the scanning loop of `main` (main.go lines 117-209),
of the pattern `re` (line 24) and of the normalisation
`strcase.ToCamel(enCaser.String(strings.TrimSpace(..)))` (lines 53, 189).

Conventions.
* The input file is a list of bytes (`Nat`, each below 256).
* A rune is its code point (`Nat`).  A Go string that is known to be valid
  UTF-8 (the contents of `buffer`, which only `WriteRune` fills) is held as
  the list of its runes; its byte length is `byteLen`.
* The read error other than `io.EOF` (lines 124, 146, 171) and the failures of
  the template and of the output file are outside the model.
* The library calls are modelled from their sources: `bufio` and `utf8` of the
  Go standard library (reader buffer of 4096 bytes), `regexp` (RE2 syntax,
  leftmost match), `golang.org/x/text/cases` (title caser) and
  `github.com/iancoleman/strcase` v0.3.0 (`ToCamel`).
-/

namespace GoEnums

/-! ## Strings and runes -/

/-- The bytes of an ASCII literal (one byte per character). -/
def ascii (s : String) : List Nat := s.toList.map Char.toNat

/-- The rune `utf8.RuneError`, U+FFFD. -/
def RuneError : Nat := 0xFFFD

/-- The table `first` of package `utf8` for a lead byte of a multi-byte
sequence: the length of the sequence and the accepted range of the second
byte.  `none` is the entry `xx` (invalid lead byte). -/
def leadInfo (p0 : Nat) : Option (Nat × Nat × Nat) :=
  if 0xC2 ≤ p0 ∧ p0 ≤ 0xDF then some (2, 0x80, 0xBF)
  else if p0 = 0xE0 then some (3, 0xA0, 0xBF)
  else if 0xE1 ≤ p0 ∧ p0 ≤ 0xEC then some (3, 0x80, 0xBF)
  else if p0 = 0xED then some (3, 0x80, 0x9F)
  else if 0xEE ≤ p0 ∧ p0 ≤ 0xEF then some (3, 0x80, 0xBF)
  else if p0 = 0xF0 then some (4, 0x90, 0xBF)
  else if 0xF1 ≤ p0 ∧ p0 ≤ 0xF3 then some (4, 0x80, 0xBF)
  else if p0 = 0xF4 then some (4, 0x80, 0x8F)
  else none

/-- The function `utf8.DecodeRune`: the first rune of `p` and the number of
bytes it takes; an invalid or truncated sequence is `RuneError` of width 1. -/
def decodeRune (p : List Nat) : Nat × Nat :=
  match p with
  | [] => (RuneError, 0)
  | p0 :: t =>
    if p0 < 0x80 then (p0, 1)
    else
      match leadInfo p0 with
      | none => (RuneError, 1)
      | some (sz, lo, hi) =>
        if p.length < sz then (RuneError, 1)
        else
          match t with
          | [] => (RuneError, 1)
          | b1 :: t1 =>
            if b1 < lo ∨ hi < b1 then (RuneError, 1)
            else if sz ≤ 2 then ((p0 % 32) * 64 + b1 % 64, 2)
            else
              match t1 with
              | [] => (RuneError, 1)
              | b2 :: t2 =>
                if b2 < 0x80 ∨ 0xBF < b2 then (RuneError, 1)
                else if sz ≤ 3 then ((p0 % 16) * 4096 + (b1 % 64) * 64 + b2 % 64, 3)
                else
                  match t2 with
                  | [] => (RuneError, 1)
                  | b3 :: _ =>
                    if b3 < 0x80 ∨ 0xBF < b3 then (RuneError, 1)
                    else ((p0 % 8) * 262144 + (b1 % 64) * 4096 + (b2 % 64) * 64 + b3 % 64, 4)

/-- The call `reader.ReadRune()`: `none` is `io.EOF`, otherwise the rune read
and the input left. -/
def readRune (input : List Nat) : Option (Nat × List Nat) :=
  match input with
  | [] => none
  | _ :: _ => some ((decodeRune input).1, input.drop (decodeRune input).2)

/-- The size of the buffer of `bufio.NewReader` (`defaultBufSize`). -/
def readerSize : Nat := 4096

/-- The call `reader.ReadLine()` of line 134, whose three results are dropped:
the input left after it.  `ReadLine` looks for the first newline among the
next `readerSize` bytes and consumes the line with it.  When the input ends
first, the rest of the input is consumed.  When `readerSize` bytes hold no
newline the buffer is full: those bytes are returned as a prefix of the line
(`isPrefix`) and consumed, apart from a carriage return in last place, which
is put back. -/
def readLine (input : List Nat) : List Nat :=
  let window := input.take readerSize
  if 10 ∈ window then (input.dropWhile (fun b => b ≠ 10)).drop 1
  else if input.length < readerSize then []
  else if window.getLast? = some 13 then input.drop (readerSize - 1)
  else input.drop readerSize

/-- The number of bytes `WriteRune` appends for a rune: the length
of `encodeRune`. -/
def runeLen (r : Nat) : Nat :=
  if r < 0x80 then 1
  else if r < 0x800 then 2
  else if 0xD800 ≤ r ∧ r ≤ 0xDFFF then 3
  else if r < 0x10000 then 3
  else if r ≤ 0x10FFFF then 4
  else 3

/-- The bytes `WriteRune` appends for a rune (`utf8.AppendRune`): a surrogate
or a value above U+10FFFF is written as U+FFFD. -/
def encodeRune (r : Nat) : List Nat :=
  if r < 0x80 then [r]
  else if r < 0x800 then [0xC0 + r / 64, 0x80 + r % 64]
  else if (0xD800 ≤ r ∧ r ≤ 0xDFFF) ∨ 0x10FFFF < r then [0xEF, 0xBF, 0xBD]
  else if r < 0x10000 then [0xE0 + r / 4096, 0x80 + (r / 64) % 64, 0x80 + r % 64]
  else [0xF0 + r / 262144, 0x80 + (r / 4096) % 64, 0x80 + (r / 64) % 64, 0x80 + r % 64]

/-- The value of `buffer.Len()` for a buffer holding the runes `s`. -/
def byteLen (s : List Nat) : Nat := (s.map runeLen).sum

/-- The function `unicode.IsSpace`. -/
def isSpace (r : Nat) : Bool :=
  r = 9 || r = 10 || r = 11 || r = 12 || r = 13 || r = 32 || r = 0x85 || r = 0xA0
    || r = 0x1680 || (0x2000 ≤ r && r ≤ 0x200A) || r = 0x2028 || r = 0x2029
    || r = 0x202F || r = 0x205F || r = 0x3000

/-- The function `strings.TrimSpace` on a valid UTF-8 string. -/
def trimSpace (s : List Nat) : List Nat :=
  ((s.dropWhile isSpace).reverse.dropWhile isSpace).reverse

/-- Upper-case mapping of an ASCII rune, other runes unchanged. -/
def asciiUpper (r : Nat) : Nat := if 97 ≤ r ∧ r ≤ 122 then r - 32 else r

/-- Lower-case mapping of an ASCII rune, other runes unchanged. -/
def asciiLower (r : Nat) : Nat := if 65 ≤ r ∧ r ≤ 90 then r + 32 else r

/-- The test of line 163 on the trimmed buffer `t`, which holds at least 11
bytes: `strings.ToUpper(t[:11]) == "CREATE TYPE"`.  The 11 bytes compare equal
exactly when they are 11 ASCII runes that are the letters of `CREATE TYPE` in
either case: a slice that holds a byte of a multi-byte rune maps to a string
with a non-ASCII rune or with one of the letters `I` and `S` (the only ASCII
images of non-ASCII runes under `unicode.ToUpper`), which `CREATE TYPE` does
not have. -/
def startsCreateType (t : List Nat) : Bool :=
  (t.take 11).map asciiUpper = ascii "CREATE TYPE"

/-! ## The pattern `re` (line 24)

`(?i)CREATE TYPE (\w+) AS ENUM\s*\(([\w',\s]+)\);` -/

/-- A rune matches the literal rune `lit` of the pattern under the flag `(?i)`:
it is in the orbit of `lit` under `unicode.SimpleFold`.  For an ASCII letter
the orbit is its two cases, and U+017F joins `S`, U+212A joins `K`. -/
def foldMatches (lit r : Nat) : Bool :=
  r = lit || (asciiUpper r = asciiUpper lit && ((65 ≤ r && r ≤ 90) || (97 ≤ r && r ≤ 122)))
    || (asciiUpper lit = 83 && r = 0x17F) || (asciiUpper lit = 75 && r = 0x212A)

/-- Match the literal runes `lit` at the start of `s`: the runes after them. -/
def matchLit : List Nat → List Nat → Option (List Nat)
  | [], s => some s
  | _ :: _, [] => none
  | l :: ls, r :: rs => if foldMatches l r then matchLit ls rs else none

/-- The class `\w` under `(?i)`: `[0-9A-Za-z_]` and the two runes that fold
to an ASCII letter. -/
def isWordRune (r : Nat) : Bool :=
  (48 ≤ r && r ≤ 57) || (65 ≤ r && r ≤ 90) || (97 ≤ r && r ≤ 122) || r = 95
    || r = 0x17F || r = 0x212A

/-- The class `\s` of the pattern syntax: `[\t\n\f\r ]`. -/
def isPatternSpace (r : Nat) : Bool :=
  r = 9 || r = 10 || r = 12 || r = 13 || r = 32

/-- The class `[\w',\s]` of the second group. -/
def isValueRune (r : Nat) : Bool :=
  isWordRune r || r = 39 || r = 44 || isPatternSpace r

/-- A match of `re` that starts at the first rune of `s`: the two groups.
Each repetition is followed by a rune outside its class, so the greedy
choice is the only way to match and no backtracking is needed. -/
def matchHere (s : List Nat) : Option (List Nat × List Nat) :=
  match matchLit (ascii "CREATE TYPE ") s with
  | none => none
  | some s1 =>
    let name := s1.takeWhile isWordRune
    if name = [] then none
    else
      match matchLit (ascii " AS ENUM") (s1.dropWhile isWordRune) with
      | none => none
      | some s2 =>
        match matchLit (ascii "(") (s2.dropWhile isPatternSpace) with
        | none => none
        | some s3 =>
          let values := s3.takeWhile isValueRune
          if values = [] then none
          else
            match matchLit (ascii ");") (s3.dropWhile isValueRune) with
            | none => none
            | some _ => some (name, values)

/-- The call `re.FindStringSubmatch(s)` (line 181): the groups 1 and 2 of the
leftmost match, `none` when the result is `nil` (`len(matches) != 3`). -/
def findSubmatch : List Nat → Option (List Nat × List Nat)
  | [] => matchHere []
  | r :: rs =>
    match matchHere (r :: rs) with
    | some m => some m
    | none => findSubmatch rs

/-! ## Normalisation (lines 53 and 189) -/

/-- The call `strings.Split(s, ",")`. -/
def splitComma : List Nat → List (List Nat)
  | [] => [[]]
  | c :: t =>
    if c = 44 then [] :: splitComma t
    else
      match splitComma t with
      | [] => [[c]]
      | p :: ps => (c :: p) :: ps

/-- A cased rune, for the title caser.  The caser is modelled on the runes
that the pattern can capture (ASCII, U+017F, U+212A), which are the only ones
the program gives it; any other rune is taken here as an uncased break rune
and copied. -/
def isCased (r : Nat) : Bool :=
  (65 ≤ r && r ≤ 90) || (97 ≤ r && r ≤ 122) || r = 0x17F || r = 0x212A

/-- Title-case mapping of a cased rune. -/
def titleMap (r : Nat) : Nat :=
  if 97 ≤ r ∧ r ≤ 122 then r - 32 else if r = 0x17F then 83 else r

/-- Lower-case mapping of a cased rune. -/
def lowerMap (r : Nat) : Nat :=
  if 65 ≤ r ∧ r ≤ 90 then r + 32 else if r = 0x212A then 107 else r

/-- The property `isMid` of the caser: word-break class MidLetter, MidNumLet
or Single_Quote (the ASCII ones are the apostrophe, the full stop and the
colon). -/
def isMid (r : Nat) : Bool := r = 39 || r = 46 || r = 58

/-- The property `isBreak` of the caser: a rune that is not a letter, a digit,
the underscore (classes ALetter, Numeric, ExtendNumLet) or a mid rune. -/
def isBreak (r : Nat) : Bool :=
  !(isCased r || (48 ≤ r && r ≤ 57) || r = 95 || isMid r)

/-- The loop of `titleCaser.Transform` (golang.org/x/text/cases): the first
cased rune of a word takes its title case and the cased runes after it their
lower case; a break rune, or two mid runes in a row, end the word. -/
def titleLoop : List Nat → Bool → Bool → List Nat
  | [], _, _ => []
  | r :: rs, isMidWord, wasMid =>
    let midWord := if wasMid && isMid r then false else isMidWord
    if isCased r then
      (if midWord then lowerMap r else titleMap r) :: titleLoop rs true (isMid r)
    else
      r :: titleLoop rs (if isBreak r then false else midWord) (isMid r)

/-- The call `enCaser.String(s)`, with `enCaser = cases.Title(language.English)`. -/
def enCaser (s : List Nat) : List Nat := titleLoop s false false

/-- The loop of `toCamelInitCase` (strcase v0.3.0, no acronym configured) over
the bytes of the string.  The bytes of a non-ASCII rune are neither letters,
digits nor separators: they write nothing and clear `capNext`, so the loop is
run on the runes. -/
def toCamelLoop : List Nat → Bool → Bool → Bool → List Nat
  | [], _, _, _ => []
  | v :: t, capNext, prevIsCap, first =>
    let vIsCap : Bool := 65 ≤ v && v ≤ 90
    let vIsLow : Bool := 97 ≤ v && v ≤ 122
    let w :=
      if capNext then (if vIsLow then v - 32 else v)
      else if first then (if vIsCap then v + 32 else v)
      else if prevIsCap && vIsCap then v + 32 else v
    if vIsCap || vIsLow then w :: toCamelLoop t false vIsCap false
    else if 48 ≤ v && v ≤ 57 then w :: toCamelLoop t true vIsCap false
    else toCamelLoop t (v = 95 || v = 32 || v = 45 || v = 46) vIsCap false

/-- The function `strcase.ToCamel`. -/
def ToCamel (s : List Nat) : List Nat :=
  toCamelLoop (trimSpace s) true false true

/-- The normalisation of one value (line 53):
`strcase.ToCamel(enCaser.String(strings.TrimSpace(item)))`. -/
def normalize (item : List Nat) : List Nat :=
  ToCamel (enCaser (trimSpace item))

/-- The function `TransforEnums` (lines 51-56). -/
def TransforEnums (items : List (List Nat)) : List (List Nat) :=
  items.map normalize

/-- The type name of line 189: `strcase.ToCamel(enCaser.String(matches[1]))`. -/
def normalizeName (name : List Nat) : List Nat :=
  ToCamel (enCaser name)

/-! ## The scanning loop of `main` (lines 117-209) -/

/-- The record `TemplateData` handed to `ParseTemplate` (line 202): one
EnumDeclaration with the package name and the first-record flag. -/
structure TemplateData where
  PkgName : List Nat
  TypeName : List Nat
  Values : List (List Nat)
  FirstType : Bool
deriving DecidableEq

/-- How a run of the loop ends: at end of input, in a run-time panic (index
or slice bound out of range, lines 147 and 163), or, for the model only, with
its fuel used up. -/
inductive Status where
  | finished
  | panicked
  | outOfFuel
deriving DecidableEq

/-- The result of a run: the raw blocks (each string given to
`re.FindStringSubmatch` at line 181), the records handed to the emitter at
line 202, both in order, and how the run ended. -/
structure Outcome where
  blocks : List (List Nat)
  emitted : List TemplateData
  status : Status
deriving DecidableEq

/-- One more raw block in front of what the rest of the run produces. -/
def Outcome.block (b : List Nat) (o : Outcome) : Outcome :=
  { blocks := b :: o.blocks, emitted := o.emitted, status := o.status }

/-- One more record in front of what the rest of the run emits. -/
def Outcome.emit (d : TemplateData) (o : Outcome) : Outcome :=
  { blocks := o.blocks, emitted := d :: o.emitted, status := o.status }

/-- The comment loop of lines 141-152: the input left after it, `none` when
line 147 indexes an empty buffer.  The last byte of the buffer is `*` exactly
when its last rune is.  One unit of fuel per rune read. -/
def skipComment : Nat → List Nat → List Nat → Option (List Nat)
  | 0, _, input => some input
  | fuel + 1, buffer, input =>
    match readRune input with
    | none => some input
    | some (char, rest) =>
      match buffer.getLast? with
      | none => none
      | some last =>
        if last = 42 ∧ char = 47 then some rest
        else skipComment fuel (buffer ++ [char]) rest

/-- The statement loop of lines 165-178: the buffer and the input left once a
semicolon has been written or the input has ended.  One unit of fuel per rune
read. -/
def readStatement : Nat → List Nat → List Nat → List Nat × List Nat
  | 0, buffer, input => (buffer, input)
  | fuel + 1, buffer, input =>
    match readRune input with
    | none => (buffer, input)
    | some (char, rest) =>
      if char = 59 then (buffer ++ [char], rest)
      else readStatement fuel (buffer ++ [char]) rest

/-- The loop of lines 117-209 from the state `buffer`, `count`, on the input
left to read.  One unit of fuel per iteration; each iteration reads at least
one byte, so `input.length + 1` units are enough (`mainLoop_fuel`). -/
def mainLoop (pkgName : List Nat) : Nat → List Nat → Nat → List Nat → Outcome
  | 0, _, _, _ => { blocks := [], emitted := [], status := Status.outOfFuel }
  | fuel + 1, buffer, count, input =>
    match readRune input with
    | none => { blocks := [], emitted := [], status := Status.finished }
    | some (char, rest) =>
      if byteLen buffer = 0 ∧ isSpace char = true then
        mainLoop pkgName fuel buffer count rest
      else if byteLen buffer = 0 ∧ char = 45 then
        mainLoop pkgName fuel buffer count (readLine rest)
      else if trimSpace buffer = [47] ∧ char = 42 then
        match skipComment rest.length buffer rest with
        | none => { blocks := [], emitted := [], status := Status.panicked }
        | some rest1 => mainLoop pkgName fuel [] count rest1
      else if 11 ≤ byteLen (buffer ++ [char]) then
        if byteLen (trimSpace (buffer ++ [char])) < 11 then
          { blocks := [], emitted := [], status := Status.panicked }
        else if startsCreateType (trimSpace (buffer ++ [char])) = true then
          match findSubmatch (readStatement rest.length (buffer ++ [char]) rest).1 with
          | none =>
            Outcome.block (readStatement rest.length (buffer ++ [char]) rest).1
              (mainLoop pkgName fuel (readStatement rest.length (buffer ++ [char]) rest).1 count
                (readStatement rest.length (buffer ++ [char]) rest).2)
          | some (name, values) =>
            Outcome.block (readStatement rest.length (buffer ++ [char]) rest).1
              (Outcome.emit
                { PkgName := pkgName
                  TypeName := normalizeName name
                  Values := TransforEnums (splitComma values)
                  FirstType := decide (count + 1 = 1) }
                (mainLoop pkgName fuel [] (count + 1)
                  (readStatement rest.length (buffer ++ [char]) rest).2))
        else mainLoop pkgName fuel (buffer ++ [char]) count rest
      else mainLoop pkgName fuel (buffer ++ [char]) count rest

/-- The loop from a given state with the fuel that is always enough. -/
def scan (pkgName : List Nat) (buffer : List Nat) (count : Nat) (input : List Nat) : Outcome :=
  mainLoop pkgName (input.length + 1) buffer count input

/-- A run of the program on the bytes of the input file: the loop from the
empty buffer and `count = 0`. -/
def run (pkgName : List Nat) (input : List Nat) : Outcome :=
  scan pkgName [] 0 input

/-! ## The inputs the properties are stated on -/

/-- The UTF-8 bytes of a list of runes. -/
def utf8 (rs : List Nat) : List Nat := rs.flatMap encodeRune

/-- A statement `CREATE TYPE <name> AS ENUM<gap>(<values>);` given by its
parts. -/
structure EnumStmt where
  name : List Nat
  gap : List Nat
  values : List Nat
deriving DecidableEq

/-- The bytes of a statement. -/
def EnumStmt.text (s : EnumStmt) : List Nat :=
  ascii "CREATE TYPE " ++ (s.name ++ (ascii " AS ENUM" ++ (s.gap ++ (40 :: (s.values ++ ascii ");")))))

/-- A statement is well formed when its name is a non-empty run of ASCII word
characters, its gap is white space of the pattern, and its value list is a
non-empty run of ASCII word characters, apostrophes, commas and white space. -/
def EnumStmt.wellFormed (s : EnumStmt) : Bool :=
  !s.name.isEmpty && s.name.all (fun b => decide (b < 128) && isWordRune b)
    && s.gap.all isPatternSpace
    && !s.values.isEmpty && s.values.all (fun b => decide (b < 128) && isValueRune b)

/-- The record the program is expected to hand over for a statement. -/
def EnumStmt.decl (pkgName : List Nat) (first : Bool) (s : EnumStmt) : TemplateData :=
  { PkgName := pkgName
    TypeName := normalizeName s.name
    Values := TransforEnums (splitComma s.values)
    FirstType := first }

/-- The records expected for a list of statements when `count` records were
emitted before them. -/
def declsFrom (pkgName : List Nat) : Nat → List EnumStmt → List TemplateData
  | _, [] => []
  | count, s :: rest =>
    s.decl pkgName (decide (count + 1 = 1)) :: declsFrom pkgName (count + 1) rest

/-- The text `*/` occurs in a list of bytes. -/
def hasClose : List Nat → Bool
  | [] => false
  | [_] => false
  | a :: b :: t => (a = 42 && b = 47) || hasClose (b :: t)

/-- A piece of input between which the buffer is empty: a white-space rune,
a line comment `--c` with its newline, a block comment `/*c*/`, or an enum
statement. -/
inductive Item where
  | space (r : Nat)
  | lineComment (c : List Nat)
  | blockComment (c : List Nat)
  | statement (s : EnumStmt)
deriving DecidableEq

/-- The bytes of an item. -/
def Item.text : Item → List Nat
  | Item.space r => encodeRune r
  | Item.lineComment c => 45 :: 45 :: (c ++ [10])
  | Item.blockComment c => 47 :: 42 :: (c ++ [42, 47])
  | Item.statement s => s.text

/-- An item is well formed when the rune is white space; when the line
comment holds no newline and fits, with its newline, the buffer of the reader;
when the body of the block comment does not hold `*/`; when the statement is
well formed. -/
def Item.wellFormed : Item → Bool
  | Item.space r => isSpace r
  | Item.lineComment c => !c.contains 10 && decide (c.length + 2 ≤ readerSize)
  | Item.blockComment c => !hasClose c
  | Item.statement s => s.wellFormed

/-- The statements among a list of items, in order. -/
def statementsOf : List Item → List EnumStmt
  | [] => []
  | Item.statement s :: rest => s :: statementsOf rest
  | _ :: rest => statementsOf rest

/-- The bytes of a list of items. -/
def itemsText (items : List Item) : List Nat := items.flatMap Item.text

/-- Blocks and records put in front of an outcome. -/
def Outcome.prepend (bs : List (List Nat)) (ds : List TemplateData) (o : Outcome) : Outcome :=
  { blocks := bs ++ o.blocks, emitted := ds ++ o.emitted, status := o.status }

/-- First letter in upper case: the expected normal form of a word of
lower-case ASCII letters. -/
def capitalize : List Nat → List Nat
  | [] => []
  | c :: t => asciiUpper c :: t

/-- A word of lower-case ASCII letters. -/
def isLowerWord (w : List Nat) : Bool := w.all (fun c => decide (97 ≤ c) && decide (c ≤ 122))

/-- A value of the statement text: the word between apostrophes. -/
def quoted (w : List Nat) : List Nat := 39 :: (w ++ [39])

/-- The input made of statements, each after a run of white-space runes, and
of a last run of white-space runes. -/
def separated (segs : List (List Nat × EnumStmt)) (trail : List Nat) : List Nat :=
  segs.flatMap (fun p => utf8 p.1 ++ p.2.text) ++ utf8 trail

/-- The words `ws` joined by the separator `sep`. -/
def joinWith (sep : List Nat) : List (List Nat) → List Nat
  | [] => []
  | [w] => w
  | w :: w2 :: rest => w ++ (sep ++ joinWith sep (w2 :: rest))

/-- The words of lower-case letters joined by underscores, as the title caser
leaves them: the first word that has a letter is capitalised. -/
def titleWords : Bool → List (List Nat) → List (List Nat)
  | _, [] => []
  | isMidWord, w :: rest =>
    (if isMidWord then w else capitalize w) :: titleWords (isMidWord || !w.isEmpty) rest

/-- A string of ASCII letters. -/
def isLetters (s : List Nat) : Bool :=
  s.all (fun c => (decide (65 ≤ c) && decide (c ≤ 90)) || (decide (97 ≤ c) && decide (c ≤ 122)))

/-- The text `CREATE TYPE`, in any letter case, occurs in a list of bytes or
of runes. -/
def mentionsCreateType : List Nat → Bool
  | [] => false
  | b :: t => startsCreateType (b :: t) || mentionsCreateType t

/-- The bytes of a statement whose keywords are written `kw1` (for
`CREATE TYPE ` with its space) and `kw2` (for ` AS ENUM`). -/
def EnumStmt.textWith (kw1 kw2 : List Nat) (s : EnumStmt) : List Nat :=
  kw1 ++ (s.name ++ (kw2 ++ (s.gap ++ (40 :: (s.values ++ ascii ");")))))

/-- The bytes of a composite-type statement `CREATE TYPE <name> AS (<body>);`. -/
def compositeText (name body : List Nat) : List Nat :=
  ascii "CREATE TYPE " ++ (name ++ (ascii " AS (" ++ (body ++ ascii ");")))

/-- The position of the first `*/` in a list of bytes, if there is one. -/
def firstClose : List Nat → Option Nat
  | [] => none
  | [_] => none
  | a :: b :: t => if a = 42 ∧ b = 47 then some 0 else (firstClose (b :: t)).map (fun i => i + 1)

/-- Every `(` of a list of bytes is followed, somewhere after it, by a `)`. -/
def parensClosed : List Nat → Bool
  | [] => true
  | c :: t => (c != 40 || t.contains 41) && parensClosed t

/-- An ASCII letter or digit. -/
def isAlnum (r : Nat) : Bool :=
  (48 ≤ r && r ≤ 57) || (65 ≤ r && r ≤ 90) || (97 ≤ r && r ≤ 122)

/-- A string of ASCII letters and digits with each letter that follows a
letter in lower case and every other letter in upper case; `afterLetter` says
whether a letter comes right before the string. -/
def camelWord : List Nat → Bool → List Nat
  | [], _ => []
  | r :: rs, afterLetter =>
    if (65 ≤ r ∧ r ≤ 90) ∨ (97 ≤ r ∧ r ≤ 122) then
      (if afterLetter then asciiLower r else asciiUpper r) :: camelWord rs true
    else r :: camelWord rs false

/-- A Unicode scalar value: a rune that `WriteRune` and `ReadRune` keep. -/
def isValidRune (r : Nat) : Bool :=
  decide (r < 0x110000) && !(decide (0xD800 ≤ r) && decide (r ≤ 0xDFFF))

/-! # Proofs -/

/-! ## Facts about the reader -/

theorem readRune_nil : readRune [] = none := rfl

theorem readRune_ascii (b : Nat) (t : List Nat) (h : b < 128) :
    readRune (b :: t) = some (b, t) := by
  simp [readRune, decodeRune, h]

theorem leadInfo_spec (b sz lo hi : Nat) (h : leadInfo b = some (sz, lo, hi)) :
    128 ≤ lo ∧ hi ≤ 191 ∧
      ((sz = 2 ∧ 2 ≤ b % 32) ∨ (sz = 3 ∧ (1 ≤ b % 16 ∨ 160 ≤ lo)) ∨
        (sz = 4 ∧ (1 ≤ b % 8 ∨ 144 ≤ lo))) := by
  unfold leadInfo at h
  split_ifs at h <;> simp only [Option.some.injEq, Prod.mk.injEq] at h <;>
    obtain ⟨rfl, rfl, rfl⟩ := h <;> omega

theorem decodeRune_cons (b : Nat) (t : List Nat) :
    1 ≤ (decodeRune (b :: t)).2 ∧ (decodeRune (b :: t)).2 ≤ t.length + 1 ∧
      (128 ≤ b → 128 ≤ (decodeRune (b :: t)).1) ∧
      ∀ x ∈ t.take ((decodeRune (b :: t)).2 - 1), 128 ≤ x := by
  by_cases hb : b < 128
  · simp [decodeRune, hb]
  · rcases hl : leadInfo b with _ | ⟨sz, lo, hi⟩
    · unfold decodeRune
      simp [hb, hl, RuneError]
    · obtain ⟨hlo, hhi, hsz⟩ := leadInfo_spec _ _ _ _ hl
      unfold decodeRune
      rcases hsz with ⟨rfl, h2⟩ | ⟨rfl, h3⟩ | ⟨rfl, h4⟩
      · rcases t with _ | ⟨b1, t1⟩ <;>
          simp only [hb, hl, if_false, List.length_cons, List.length_nil, RuneError] <;>
          split_ifs <;> (try simp) <;> (try omega)
      · rcases t with _ | ⟨b1, _ | ⟨b2, t2⟩⟩ <;>
          simp only [hb, hl, if_false, List.length_cons, List.length_nil, RuneError] <;>
          split_ifs <;> (try simp) <;> (try omega)
      · rcases t with _ | ⟨b1, _ | ⟨b2, _ | ⟨b3, t3⟩⟩⟩ <;>
          simp only [hb, hl, if_false, List.length_cons, List.length_nil, RuneError] <;>
          split_ifs <;> (try simp) <;> (try omega)

/-- What one `ReadRune` does to a non-empty input: an ASCII byte is read as
itself; any other byte gives a rune of at least 128 and takes with it at most
three following bytes, none of them ASCII. -/
theorem readRune_cons (b : Nat) (t : List Nat) :
    ∃ r k, readRune (b :: t) = some (r, t.drop k) ∧ k ≤ t.length ∧
      (b < 128 → r = b ∧ k = 0) ∧ (128 ≤ b → 128 ≤ r) ∧ ∀ x ∈ t.take k, 128 ≤ x := by
  obtain ⟨h1, h2, h3, h4⟩ := decodeRune_cons b t
  refine ⟨(decodeRune (b :: t)).1, (decodeRune (b :: t)).2 - 1, ?_, by omega, ?_, h3, h4⟩
  · simp only [readRune]
    obtain ⟨k, hk⟩ : ∃ k, (decodeRune (b :: t)).2 = k + 1 := ⟨(decodeRune (b :: t)).2 - 1, by omega⟩
    rw [hk]; simp
  · intro hb
    simp [decodeRune, hb]

theorem readRune_length {input rest : List Nat} {c : Nat}
    (h : readRune input = some (c, rest)) : rest.length < input.length := by
  rcases input with _ | ⟨b, t⟩
  · simp [readRune] at h
  · obtain ⟨r, k, hr, -, -, -, -⟩ := readRune_cons b t
    rw [hr] at h
    simp only [Option.some.injEq, Prod.mk.injEq] at h
    rw [← h.2]
    simp only [List.length_drop, List.length_cons]
    omega

theorem readLine_length (input : List Nat) : (readLine input).length ≤ input.length := by
  unfold readLine
  simp only
  split_ifs
  · simp only [List.length_drop]
    have := (List.dropWhile_sublist (fun b => decide (b ≠ 10)) (l := input)).length_le
    omega
  · simp
  · simp
  · simp

/-! ## Fuel

Each loop of the model is given one unit of fuel per rune it reads, and is
always started with as much fuel as there are bytes left.  The lemmas of this
section show that more fuel changes nothing, and give each loop the equation
of the source loop. -/

theorem skipComment_fuel (f1 f2 : Nat) (buffer input : List Nat)
    (h1 : input.length ≤ f1) (h2 : input.length ≤ f2) :
    skipComment f1 buffer input = skipComment f2 buffer input := by
  induction f1 generalizing f2 buffer input with
  | zero =>
    have : input = [] := List.length_eq_zero.mp (by omega)
    subst this
    cases f2 <;> simp [skipComment, readRune]
  | succ n ih =>
    cases f2 with
    | zero =>
      have : input = [] := List.length_eq_zero.mp (by omega)
      subst this
      simp [skipComment, readRune]
    | succ m =>
      simp only [skipComment]
      rcases hr : readRune input with _ | ⟨c, rest⟩
      · rfl
      · have hl := readRune_length hr
        simp only
        rcases buffer.getLast? with _ | last
        · rfl
        · simp only
          split_ifs
          · rfl
          · exact ih m _ _ (by omega) (by omega)

theorem readStatement_fuel (f1 f2 : Nat) (buffer input : List Nat)
    (h1 : input.length ≤ f1) (h2 : input.length ≤ f2) :
    readStatement f1 buffer input = readStatement f2 buffer input := by
  induction f1 generalizing f2 buffer input with
  | zero =>
    have : input = [] := List.length_eq_zero.mp (by omega)
    subst this
    cases f2 <;> simp [readStatement, readRune]
  | succ n ih =>
    cases f2 with
    | zero =>
      have : input = [] := List.length_eq_zero.mp (by omega)
      subst this
      simp [readStatement, readRune]
    | succ m =>
      simp only [readStatement]
      rcases hr : readRune input with _ | ⟨c, rest⟩
      · rfl
      · have hl := readRune_length hr
        simp only
        split_ifs
        · rfl
        · exact ih m _ _ (by omega) (by omega)

theorem skipComment_length (fuel : Nat) (buffer input rest : List Nat)
    (h : skipComment fuel buffer input = some rest) : rest.length ≤ input.length := by
  induction fuel generalizing buffer input with
  | zero => simp [skipComment] at h; subst h; exact le_refl _
  | succ n ih =>
    simp only [skipComment] at h
    rcases hr : readRune input with _ | ⟨c, r⟩
    · simp [hr] at h; subst h; exact le_refl _
    · have hl := readRune_length hr
      simp only [hr] at h
      rcases hg : buffer.getLast? with _ | last
      · simp [hg] at h
      · simp only [hg] at h
        split_ifs at h
        · simp at h; subst h; omega
        · have := ih _ _ h; omega

theorem readStatement_length (fuel : Nat) (buffer input : List Nat) :
    (readStatement fuel buffer input).2.length ≤ input.length := by
  induction fuel generalizing buffer input with
  | zero => simp [readStatement]
  | succ n ih =>
    simp only [readStatement]
    rcases hr : readRune input with _ | ⟨c, r⟩
    · simp
    · have hl := readRune_length hr
      simp only
      split_ifs
      · simp; omega
      · have := ih (buffer ++ [c]) r; omega

theorem mainLoop_fuel (pkg : List Nat) (f1 f2 : Nat) (buffer : List Nat) (count : Nat)
    (input : List Nat) (h1 : input.length < f1) (h2 : input.length < f2) :
    mainLoop pkg f1 buffer count input = mainLoop pkg f2 buffer count input := by
  induction f1 generalizing f2 buffer count input with
  | zero => omega
  | succ n ih =>
    cases f2 with
    | zero => omega
    | succ m =>
      simp only [mainLoop]
      rcases hr : readRune input with _ | ⟨c, rest⟩
      · rfl
      · have hl := readRune_length hr
        have hline := readLine_length rest
        have hstmt := readStatement_length rest.length (buffer ++ [c]) rest
        simp only
        split_ifs
        · exact ih m _ _ _ (by omega) (by omega)
        · exact ih m _ _ _ (by omega) (by omega)
        · rcases hs : skipComment rest.length buffer rest with _ | rest1
          · rfl
          · have := skipComment_length _ _ _ _ hs
            exact ih m _ _ _ (by omega) (by omega)
        · rfl
        · rcases findSubmatch (readStatement rest.length (buffer ++ [c]) rest).1 with _ | ⟨name, values⟩
          · simp only
            rw [ih m _ _ _ (by omega) (by omega)]
          · simp only
            rw [ih m _ _ _ (by omega) (by omega)]
        · exact ih m _ _ _ (by omega) (by omega)
        · exact ih m _ _ _ (by omega) (by omega)

/-- The loop is total: with `input.length + 1` units of fuel it never runs
out of fuel. -/
theorem mainLoop_terminates (pkg : List Nat) (fuel : Nat) (buffer : List Nat) (count : Nat)
    (input : List Nat) (h : input.length < fuel) :
    (mainLoop pkg fuel buffer count input).status ≠ Status.outOfFuel := by
  induction fuel generalizing buffer count input with
  | zero => omega
  | succ n ih =>
    simp only [mainLoop]
    rcases hr : readRune input with _ | ⟨c, rest⟩
    · simp
    · have hl := readRune_length hr
      have hline := readLine_length rest
      have hstmt := readStatement_length rest.length (buffer ++ [c]) rest
      simp only
      split_ifs
      · exact ih _ _ _ (by omega)
      · exact ih _ _ _ (by omega)
      · rcases hs : skipComment rest.length buffer rest with _ | rest1
        · simp
        · have := skipComment_length _ _ _ _ hs
          exact ih _ _ _ (by omega)
      · simp
      · rcases findSubmatch (readStatement rest.length (buffer ++ [c]) rest).1 with _ | ⟨name, values⟩
        · exact ih _ _ _ (by omega)
        · exact ih _ _ _ (by omega)
      · exact ih _ _ _ (by omega)
      · exact ih _ _ _ (by omega)

/-- The equation of the loop of lines 117-209. -/
theorem scan_eq (pkg : List Nat) (buffer : List Nat) (count : Nat) (input : List Nat) :
    scan pkg buffer count input =
      match readRune input with
      | none => { blocks := [], emitted := [], status := Status.finished }
      | some (char, rest) =>
        if byteLen buffer = 0 ∧ isSpace char = true then scan pkg buffer count rest
        else if byteLen buffer = 0 ∧ char = 45 then scan pkg buffer count (readLine rest)
        else if trimSpace buffer = [47] ∧ char = 42 then
          match skipComment rest.length buffer rest with
          | none => { blocks := [], emitted := [], status := Status.panicked }
          | some rest1 => scan pkg [] count rest1
        else if 11 ≤ byteLen (buffer ++ [char]) then
          if byteLen (trimSpace (buffer ++ [char])) < 11 then
            { blocks := [], emitted := [], status := Status.panicked }
          else if startsCreateType (trimSpace (buffer ++ [char])) = true then
            match findSubmatch (readStatement rest.length (buffer ++ [char]) rest).1 with
            | none =>
              Outcome.block (readStatement rest.length (buffer ++ [char]) rest).1
                (scan pkg (readStatement rest.length (buffer ++ [char]) rest).1 count
                  (readStatement rest.length (buffer ++ [char]) rest).2)
            | some (name, values) =>
              Outcome.block (readStatement rest.length (buffer ++ [char]) rest).1
                (Outcome.emit
                  { PkgName := pkg
                    TypeName := normalizeName name
                    Values := TransforEnums (splitComma values)
                    FirstType := decide (count + 1 = 1) }
                  (scan pkg [] (count + 1)
                    (readStatement rest.length (buffer ++ [char]) rest).2))
          else scan pkg (buffer ++ [char]) count rest
        else scan pkg (buffer ++ [char]) count rest := by
  rw [scan, mainLoop]
  rcases hr : readRune input with _ | ⟨c, rest⟩
  · rfl
  · have hl := readRune_length hr
    have hline := readLine_length rest
    have hstmt := readStatement_length rest.length (buffer ++ [c]) rest
    simp only [scan]
    split_ifs
    · exact mainLoop_fuel _ _ _ _ _ _ (by omega) (by omega)
    · exact mainLoop_fuel _ _ _ _ _ _ (by omega) (by omega)
    · rcases hs : skipComment rest.length buffer rest with _ | rest1
      · rfl
      · have := skipComment_length _ _ _ _ hs
        exact mainLoop_fuel _ _ _ _ _ _ (by omega) (by omega)
    · rfl
    · rcases findSubmatch (readStatement rest.length (buffer ++ [c]) rest).1 with _ | ⟨name, values⟩
      · simp only
        congr 1
        exact mainLoop_fuel _ _ _ _ _ _ (by omega) (by omega)
      · simp only
        congr 2
        exact mainLoop_fuel _ _ _ _ _ _ (by omega) (by omega)
    · exact mainLoop_fuel _ _ _ _ _ _ (by omega) (by omega)
    · exact mainLoop_fuel _ _ _ _ _ _ (by omega) (by omega)

/-! ## Single steps of the loop -/

theorem scan_nil (pkg buffer : List Nat) (count : Nat) :
    scan pkg buffer count [] = { blocks := [], emitted := [], status := Status.finished } := by
  rw [scan_eq]; rfl

theorem byteLen_eq_zero (s : List Nat) : byteLen s = 0 ↔ s = [] := by
  cases s with
  | nil => simp [byteLen]
  | cons a t =>
    have : 1 ≤ runeLen a := by unfold runeLen; split_ifs <;> omega
    simp [byteLen]; omega

/-- Line 128: a white-space rune read with an empty buffer is skipped. -/
theorem scan_space (pkg : List Nat) (count : Nat) (input rest : List Nat) (c : Nat)
    (hr : readRune input = some (c, rest)) (hc : isSpace c = true) :
    scan pkg [] count input = scan pkg [] count rest := by
  rw [scan_eq, hr]; simp [byteLen, hc]

/-- Line 133: a `-` read with an empty buffer discards a line. -/
theorem scan_dash (pkg : List Nat) (count : Nat) (rest : List Nat) :
    scan pkg [] count (45 :: rest) = scan pkg [] count (readLine rest) := by
  rw [scan_eq, readRune_ascii 45 rest (by norm_num)]; simp [byteLen, isSpace]

/-- Lines 139-156: a `*` read when the buffer holds `/` starts the comment
loop, and the buffer is reset after it. -/
theorem scan_star (pkg buffer : List Nat) (count : Nat) (rest : List Nat)
    (hb : trimSpace buffer = [47]) :
    scan pkg buffer count (42 :: rest) =
      match skipComment rest.length buffer rest with
      | none => { blocks := [], emitted := [], status := Status.panicked }
      | some rest1 => scan pkg [] count rest1 := by
  have hne : buffer ≠ [] := by rintro rfl; simp [trimSpace] at hb
  rw [scan_eq, readRune_ascii 42 rest (by norm_num)]
  simp [byteLen_eq_zero, hne, hb]

/-- Line 159 below 11 bytes: an ASCII byte that is not skipped is written to
the buffer and the loop goes on. -/
theorem scan_push (pkg buffer : List Nat) (count : Nat) (rest : List Nat) (b : Nat)
    (hb : b < 128) (h1 : buffer = [] → isSpace b = false ∧ b ≠ 45)
    (h2 : ¬(trimSpace buffer = [47] ∧ b = 42)) (h3 : byteLen (buffer ++ [b]) < 11) :
    scan pkg buffer count (b :: rest) = scan pkg (buffer ++ [b]) count rest := by
  rw [scan_eq, readRune_ascii b rest hb]
  simp only [byteLen_eq_zero]
  rw [if_neg, if_neg, if_neg h2, if_neg (by omega)]
  · rintro ⟨h, h'⟩; exact (h1 h).2 h'
  · rintro ⟨h, h'⟩; rw [(h1 h).1] at h'; cases h'

theorem skipComment_eq (buffer input : List Nat) :
    skipComment input.length buffer input =
      match readRune input with
      | none => some input
      | some (char, rest) =>
        match buffer.getLast? with
        | none => none
        | some last =>
          if last = 42 ∧ char = 47 then some rest
          else skipComment rest.length (buffer ++ [char]) rest := by
  rcases input with _ | ⟨b, t⟩
  · rfl
  · rw [List.length_cons, skipComment]
    rcases hr : readRune (b :: t) with _ | ⟨c, rest⟩
    · rfl
    · have hl := readRune_length hr
      simp only [List.length_cons] at hl
      rcases buffer.getLast? with _ | last
      · rfl
      · simp only
        split_ifs
        · rfl
        · exact skipComment_fuel _ _ _ _ (by omega) (le_refl _)

theorem readStatement_eq (buffer input : List Nat) :
    readStatement input.length buffer input =
      match readRune input with
      | none => (buffer, input)
      | some (char, rest) =>
        if char = 59 then (buffer ++ [char], rest)
        else readStatement rest.length (buffer ++ [char]) rest := by
  rcases input with _ | ⟨b, t⟩
  · rfl
  · rw [List.length_cons, readStatement]
    rcases hr : readRune (b :: t) with _ | ⟨c, rest⟩
    · rfl
    · have hl := readRune_length hr
      simp only [List.length_cons] at hl
      simp only
      split_ifs
      · rfl
      · exact readStatement_fuel _ _ _ _ (by omega) (le_refl _)

/-! ## White space, comments and statements read with an empty buffer -/

theorem readRune_encode_space (r : Nat) (rest : List Nat) (h : isSpace r = true) :
    readRune (encodeRune r ++ rest) = some (r, rest) := by
  simp only [isSpace, Bool.or_eq_true, decide_eq_true_eq, Bool.and_eq_true] at h
  have key : ∀ q : Nat, (q = 9 ∨ q = 10 ∨ q = 11 ∨ q = 12 ∨ q = 13 ∨ q = 32 ∨ q = 0x85 ∨ q = 0xA0
      ∨ q = 0x1680 ∨ q = 0x2000 ∨ q = 0x2001 ∨ q = 0x2002 ∨ q = 0x2003 ∨ q = 0x2004 ∨ q = 0x2005
      ∨ q = 0x2006 ∨ q = 0x2007 ∨ q = 0x2008 ∨ q = 0x2009 ∨ q = 0x200A ∨ q = 0x2028 ∨ q = 0x2029
      ∨ q = 0x202F ∨ q = 0x205F ∨ q = 0x3000) →
      readRune (encodeRune q ++ rest) = some (q, rest) := by
    intro q hq
    rcases hq with h | h | h | h | h | h | h | h | h | h | h | h | h | h | h | h | h | h | h | h
      | h | h | h | h | h <;> subst h <;>
      simp [encodeRune, readRune, decodeRune, leadInfo] <;>
      (split_ifs <;> first | omega | simp)
  apply key
  omega

/-- White-space runes in front of the input are skipped while the buffer is
empty. -/
theorem scan_spaces (pkg : List Nat) (count : Nat) (rs rest : List Nat)
    (h : ∀ r ∈ rs, isSpace r = true) :
    scan pkg [] count (utf8 rs ++ rest) = scan pkg [] count rest := by
  induction rs with
  | nil => simp [utf8]
  | cons r rs ih =>
    have hr := readRune_encode_space r (utf8 rs ++ rest) (h r (by simp))
    simp only [utf8, List.flatMap_cons, List.append_assoc] at hr ⊢
    rw [scan_space pkg count _ _ r hr (h r (by simp))]
    exact ih (fun x hx => h x (by simp [hx]))

theorem readLine_line (c rest : List Nat) (h10 : 10 ∉ c) (hlen : c.length < readerSize) :
    readLine (c ++ 10 :: rest) = rest := by
  unfold readLine
  have hmem : 10 ∈ (c ++ 10 :: rest).take readerSize := by
    rw [List.take_append_eq_append_take]
    obtain ⟨k, hk⟩ : ∃ k, readerSize - c.length = k + 1 := ⟨readerSize - c.length - 1, by omega⟩
    rw [hk]; simp
  have hdrop : (c ++ 10 :: rest).dropWhile (fun b => decide (b ≠ 10)) = 10 :: rest := by
    clear hmem hlen
    induction c with
    | nil => simp
    | cons a t ih =>
      have ha : a ≠ 10 := fun h => h10 (by simp [h])
      have ht : 10 ∉ t := fun h => h10 (by simp [h])
      rw [List.cons_append, List.dropWhile_cons_of_pos (by simpa using ha)]
      exact ih ht
  simp only [hmem, if_true, hdrop]
  rfl

/-- Lines 133-136: with an empty buffer, a `-` and the rest of its line are
discarded when the newline is among the `readerSize` bytes after the `-`. -/
theorem scan_line_comment (pkg : List Nat) (count : Nat) (c rest : List Nat)
    (h10 : 10 ∉ c) (hlen : c.length < readerSize) :
    scan pkg [] count (45 :: (c ++ 10 :: rest)) = scan pkg [] count rest := by
  rw [scan_dash, readLine_line c rest h10 hlen]

theorem hasClose_cons_cons (a b : Nat) (t : List Nat) :
    hasClose (a :: b :: t) = false ↔ ¬(a = 42 ∧ b = 47) ∧ hasClose (b :: t) = false := by
  simp [hasClose]

theorem hasClose_tail (a : Nat) (t : List Nat) (h : hasClose (a :: t) = false) :
    hasClose t = false := by
  cases t with
  | nil => rfl
  | cons b t => exact ((hasClose_cons_cons a b t).mp h).2

theorem hasClose_drop (k : Nat) (c : List Nat) (h : hasClose c = false) :
    hasClose (c.drop k) = false := by
  induction k generalizing c with
  | zero => simpa using h
  | succ n ih =>
    cases c with
    | nil => rfl
    | cons a t => simpa using ih t (hasClose_tail a t h)

/-- The comment loop reads up to the first `*/`: with `l` the last rune of the
buffer and no `*/` in `l` followed by the body `c`, the loop stops right after
the `*/` that follows `c`. -/
theorem skipComment_close (n : Nat) (c rest buffer : List Nat) (l : Nat)
    (hn : c.length ≤ n) (hl : buffer.getLast? = some l) (hc : hasClose (l :: c) = false) :
    skipComment (c ++ 42 :: 47 :: rest).length buffer (c ++ 42 :: 47 :: rest) = some rest := by
  induction n generalizing c buffer l with
  | zero =>
    have : c = [] := List.length_eq_zero.mp (by omega)
    subst this
    rw [List.nil_append, skipComment_eq, readRune_ascii 42 _ (by norm_num), hl]
    simp only
    rw [if_neg (by norm_num), skipComment_eq, readRune_ascii 47 _ (by norm_num)]
    simp
  | succ n ih =>
    rcases c with _ | ⟨b, c⟩
    · rw [List.nil_append, skipComment_eq, readRune_ascii 42 _ (by norm_num), hl]
      simp only
      rw [if_neg (by norm_num), skipComment_eq, readRune_ascii 47 _ (by norm_num)]
      simp
    · obtain ⟨r, k, hr, hk, hlt, hge, htake⟩ := readRune_cons b (c ++ 42 :: 47 :: rest)
      have hkc : k ≤ c.length := by
        by_contra hcon
        have : 42 ∈ (c ++ 42 :: 47 :: rest).take k := by
          rw [List.take_append_eq_append_take]
          obtain ⟨j, hj⟩ : ∃ j, k - c.length = j + 1 := ⟨k - c.length - 1, by omega⟩
          rw [hj]; simp
        have := htake 42 this
        omega
      rw [List.drop_append_of_le_length hkc] at hr
      rw [List.cons_append, skipComment_eq, hr, hl]
      simp only
      have hcc := (hasClose_cons_cons l b c).mp hc
      have hnot : ¬(l = 42 ∧ r = 47) := by
        rintro ⟨h1, h2⟩
        have hb : b < 128 := by by_contra hb; have := hge (by omega); omega
        have := (hlt hb).1
        exact hcc.1 ⟨h1, by omega⟩
      rw [if_neg hnot]
      apply ih (c.drop k) (buffer ++ [r]) r
      · simp only [List.length_drop, List.length_cons] at hn ⊢; omega
      · simp
      · by_cases hb : b < 128
        · obtain ⟨rfl, rfl⟩ := hlt hb
          simpa using hcc.2
        · have hr128 := hge (by omega)
          have hd := hasClose_drop k c (hasClose_tail b c hcc.2)
          rcases hdk : c.drop k with _ | ⟨x, t⟩
          · rfl
          · rw [hdk] at hd
            rw [hasClose_cons_cons]
            exact ⟨fun h => by omega, hd⟩

/-- Lines 139-156: with an empty buffer, a block comment whose body does not
hold `*/` is discarded, whatever else it holds, and the buffer is empty after
it. -/
theorem scan_block_comment (pkg : List Nat) (count : Nat) (c rest : List Nat)
    (hc : hasClose c = false) :
    scan pkg [] count (47 :: 42 :: (c ++ 42 :: 47 :: rest)) = scan pkg [] count rest := by
  rw [scan_push pkg [] count _ 47 (by norm_num) (fun _ => by simp [isSpace])
    (by simp [trimSpace]) (by simp [byteLen, runeLen])]
  rw [scan_star pkg _ count _ (by simp [trimSpace, isSpace])]
  rw [skipComment_close c.length c rest ([] ++ [47]) 47 (le_refl _) (by simp)]
  cases c with
  | nil => rfl
  | cons b t => rw [hasClose_cons_cons]; exact ⟨by norm_num, hc⟩

/-! ## A well-formed statement read with an empty buffer -/

/-- The statement loop writes ASCII bytes up to the first semicolon. -/
theorem readStatement_upto (xs buffer rest : List Nat) (h : ∀ x ∈ xs, x < 128 ∧ x ≠ 59) :
    readStatement (xs ++ 59 :: rest).length buffer (xs ++ 59 :: rest)
      = (buffer ++ xs ++ [59], rest) := by
  induction xs generalizing buffer with
  | nil =>
    rw [List.nil_append, readStatement_eq, readRune_ascii 59 _ (by norm_num)]
    simp
  | cons x xs ih =>
    have hx := h x (by simp)
    rw [List.cons_append, readStatement_eq, readRune_ascii x _ hx.1]
    simp only
    rw [if_neg hx.2, ih (buffer ++ [x]) (fun y hy => h y (by simp [hy]))]
    simp

theorem foldMatches_self (l : Nat) : foldMatches l l = true := by
  simp [foldMatches]

theorem matchLit_append (lit s : List Nat) : matchLit lit (lit ++ s) = some s := by
  induction lit with
  | nil => cases s <;> rfl
  | cons l ls ih => simp [matchLit, foldMatches_self, ih]

theorem takeWhile_append_stop (p : Nat → Bool) (l r : List Nat) (a : Nat)
    (hl : ∀ x ∈ l, p x = true) (ha : p a = false) :
    (l ++ a :: r).takeWhile p = l ∧ (l ++ a :: r).dropWhile p = a :: r := by
  induction l with
  | nil => simp [List.takeWhile_cons, List.dropWhile_cons, ha]
  | cons x xs ih =>
    have hx := hl x (by simp)
    have := ih (fun y hy => hl y (by simp [hy]))
    simp [List.takeWhile_cons, List.dropWhile_cons, hx, this]

theorem findSubmatch_of_matchHere (t : List Nat) (m : List Nat × List Nat)
    (h : matchHere t = some m) : findSubmatch t = some m := by
  cases t with
  | nil => simpa [findSubmatch] using h
  | cons a t => simp [findSubmatch, h]

theorem wellFormed_iff (s : EnumStmt) :
    s.wellFormed = true ↔
      s.name ≠ [] ∧ (∀ b ∈ s.name, b < 128 ∧ isWordRune b = true) ∧
      (∀ b ∈ s.gap, isPatternSpace b = true) ∧
      s.values ≠ [] ∧ (∀ b ∈ s.values, b < 128 ∧ isValueRune b = true) := by
  simp [EnumStmt.wellFormed, List.all_eq_true, and_assoc, List.isEmpty_iff]

theorem ascii_create_type_sp :
    ascii "CREATE TYPE " = [67, 82, 69, 65, 84, 69, 32, 84, 89, 80, 69, 32] := by decide

theorem ascii_create_type :
    ascii "CREATE TYPE" = [67, 82, 69, 65, 84, 69, 32, 84, 89, 80, 69] := by decide

theorem ascii_as_enum : ascii " AS ENUM" = [32, 65, 83, 32, 69, 78, 85, 77] := by decide

theorem ascii_close : ascii ");" = [41, 59] := by decide

/-- The pattern matches the whole of a well-formed statement and captures its
name and its value list. -/
theorem matchHere_text (s : EnumStmt) (h : s.wellFormed = true) :
    matchHere s.text = some (s.name, s.values) := by
  obtain ⟨hn, hnw, hg, hv, hvw⟩ := (wellFormed_iff s).mp h
  have h1 := takeWhile_append_stop isWordRune s.name
    ([65, 83, 32, 69, 78, 85, 77] ++ (s.gap ++ (40 :: (s.values ++ [41, 59])))) 32
    (fun x hx => (hnw x hx).2) (by decide)
  have h2 := takeWhile_append_stop isPatternSpace s.gap (s.values ++ [41, 59]) 40 hg (by decide)
  have h3 := takeWhile_append_stop isValueRune s.values [59] 41 (fun x hx => (hvw x hx).2)
    (by decide)
  unfold matchHere EnumStmt.text
  rw [matchLit_append]
  simp only [ascii_as_enum, ascii_close, List.cons_append, List.nil_append] at h1 h2 h3 ⊢
  rw [h1.1, h1.2, if_neg hn]
  have e : (32 :: 65 :: 83 :: 32 :: 69 :: 78 :: 85 :: 77 :: (s.gap ++ 40 :: (s.values ++ [41, 59])))
      = [32, 65, 83, 32, 69, 78, 85, 77] ++ (s.gap ++ 40 :: (s.values ++ [41, 59])) := rfl
  rw [e, matchLit_append]
  simp only
  rw [h2.2]
  have e2 : (40 :: (s.values ++ [41, 59])) = ascii "(" ++ (s.values ++ [41, 59]) := rfl
  rw [e2, matchLit_append]
  simp only
  rw [h3.1, h3.2, if_neg hv]
  rfl

/-- The bytes of a well-formed statement after `CREATE TYPE` and before the
semicolon are ASCII and none is a semicolon. -/
theorem text_tail_ascii (s : EnumStmt) (h : s.wellFormed = true) :
    ∀ x ∈ 32 :: (s.name ++ ([32, 65, 83, 32, 69, 78, 85, 77] ++ (s.gap ++ (40 :: (s.values ++ [41]))))),
      x < 128 ∧ x ≠ 59 := by
  obtain ⟨-, hnw, hg, -, hvw⟩ := (wellFormed_iff s).mp h
  intro x hx
  simp only [List.mem_cons, List.mem_append, List.mem_singleton] at hx
  have hw : ∀ y, isWordRune y = true → y ≠ 59 := by
    intro y hy h59; subst h59; revert hy; decide
  have hvv : ∀ y, isValueRune y = true → y ≠ 59 := by
    intro y hy h59; subst h59; revert hy; decide
  have hsp : ∀ y, isPatternSpace y = true → y < 128 ∧ y ≠ 59 := by
    intro y hy
    simp only [isPatternSpace, Bool.or_eq_true, decide_eq_true_eq] at hy
    omega
  rcases hx with rfl | hx | hx | hx | hx | hx
  · decide
  · exact ⟨(hnw x hx).1, hw x (hnw x hx).2⟩
  · simp only [List.mem_nil_iff, or_false] at hx
    omega
  · exact hsp x (hg x hx)
  · omega
  · rcases hx with hx | hx
    · exact ⟨(hvw x hx).1, hvv x (hvw x hx).2⟩
    · simp only [List.mem_nil_iff, or_false] at hx; omega

theorem text_split (s : EnumStmt) (rest : List Nat) :
    s.text ++ rest = 67 :: 82 :: 69 :: 65 :: 84 :: 69 :: 32 :: 84 :: 89 :: 80 :: 69 ::
      ((32 :: (s.name ++ ([32, 65, 83, 32, 69, 78, 85, 77] ++ (s.gap ++ (40 :: (s.values ++ [41]))))))
        ++ 59 :: rest) := by
  simp [EnumStmt.text, ascii_create_type_sp, ascii_as_enum, ascii_close]

theorem text_eq (s : EnumStmt) :
    s.text = [67, 82, 69, 65, 84, 69, 32, 84, 89, 80, 69] ++
      (32 :: (s.name ++ ([32, 65, 83, 32, 69, 78, 85, 77] ++ (s.gap ++ (40 :: (s.values ++ [41])))))) ++ [59] := by
  simp [EnumStmt.text, ascii_create_type_sp, ascii_as_enum, ascii_close]

/-- Lines 159-178: the bytes `CREATE TYPE` read with an empty buffer start the
statement loop. -/
theorem scan_create_type (pkg : List Nat) (count : Nat) (t : List Nat) :
    scan pkg [] count (67 :: 82 :: 69 :: 65 :: 84 :: 69 :: 32 :: 84 :: 89 :: 80 :: 69 :: t) =
      match findSubmatch (readStatement t.length [67, 82, 69, 65, 84, 69, 32, 84, 89, 80, 69] t).1 with
      | none =>
        Outcome.block (readStatement t.length [67, 82, 69, 65, 84, 69, 32, 84, 89, 80, 69] t).1
          (scan pkg (readStatement t.length [67, 82, 69, 65, 84, 69, 32, 84, 89, 80, 69] t).1 count
            (readStatement t.length [67, 82, 69, 65, 84, 69, 32, 84, 89, 80, 69] t).2)
      | some (name, values) =>
        Outcome.block (readStatement t.length [67, 82, 69, 65, 84, 69, 32, 84, 89, 80, 69] t).1
          (Outcome.emit
            { PkgName := pkg
              TypeName := normalizeName name
              Values := TransforEnums (splitComma values)
              FirstType := decide (count + 1 = 1) }
            (scan pkg [] (count + 1)
              (readStatement t.length [67, 82, 69, 65, 84, 69, 32, 84, 89, 80, 69] t).2)) := by
  rw [scan_push pkg _ count _ 67 (by norm_num) (by decide) (by decide) (by decide)]
  rw [scan_push pkg _ count _ 82 (by norm_num) (by decide) (by decide) (by decide)]
  rw [scan_push pkg _ count _ 69 (by norm_num) (by decide) (by decide) (by decide)]
  rw [scan_push pkg _ count _ 65 (by norm_num) (by decide) (by decide) (by decide)]
  rw [scan_push pkg _ count _ 84 (by norm_num) (by decide) (by decide) (by decide)]
  rw [scan_push pkg _ count _ 69 (by norm_num) (by decide) (by decide) (by decide)]
  rw [scan_push pkg _ count _ 32 (by norm_num) (by decide) (by decide) (by decide)]
  rw [scan_push pkg _ count _ 84 (by norm_num) (by decide) (by decide) (by decide)]
  rw [scan_push pkg _ count _ 89 (by norm_num) (by decide) (by decide) (by decide)]
  rw [scan_push pkg _ count _ 80 (by norm_num) (by decide) (by decide) (by decide)]
  rw [scan_eq, readRune_ascii 69 t (by norm_num)]
  simp only
  rw [if_neg (by decide), if_neg (by decide), if_neg (by decide), if_pos (by decide),
    if_neg (by decide), if_pos (by decide)]
  rfl

/-- A well-formed statement read with an empty buffer is one raw block, is
handed to the emitter with its normalised name and values, and leaves the
buffer empty. -/
theorem scan_statement (pkg : List Nat) (count : Nat) (s : EnumStmt) (rest : List Nat)
    (h : s.wellFormed = true) :
    scan pkg [] count (s.text ++ rest) =
      Outcome.block s.text
        (Outcome.emit (s.decl pkg (decide (count + 1 = 1))) (scan pkg [] (count + 1) rest)) := by
  rw [text_split, scan_create_type, readStatement_upto _ _ _ (text_tail_ascii s h), ← text_eq]
  simp only
  rw [findSubmatch_of_matchHere _ _ (matchHere_text s h)]
  rfl

/-! ## Sequences of items -/

theorem prepend_nil (o : Outcome) : Outcome.prepend [] [] o = o := rfl

theorem block_emit_prepend (b : List Nat) (d : TemplateData) (bs : List (List Nat))
    (ds : List TemplateData) (o : Outcome) :
    Outcome.block b (Outcome.emit d (Outcome.prepend bs ds o)) =
      Outcome.prepend (b :: bs) (d :: ds) o := rfl

theorem scan_item (pkg : List Nat) (count : Nat) (it : Item) (rest : List Nat)
    (h : it.wellFormed = true) :
    scan pkg [] count (it.text ++ rest) =
      Outcome.prepend ((statementsOf [it]).map EnumStmt.text) (declsFrom pkg count (statementsOf [it]))
        (scan pkg [] (count + (statementsOf [it]).length) rest) := by
  cases it with
  | space r =>
    have := scan_spaces pkg count [r] rest (by simpa [Item.wellFormed] using h)
    simpa [utf8, Item.text, statementsOf, declsFrom, prepend_nil] using this
  | lineComment c =>
    simp only [Item.wellFormed, Bool.and_eq_true, Bool.not_eq_true', decide_eq_true_eq] at h
    have h10 : 10 ∉ 45 :: c := by
      have := h.1
      simp only [List.contains_eq_any_beq, List.any_eq_false, beq_iff_eq] at this
      simp only [List.mem_cons, not_or]
      exact ⟨by norm_num, fun hm => this 10 hm rfl⟩
    have := scan_line_comment pkg count (45 :: c) rest h10 (by simp only [List.length_cons]; omega)
    simpa [Item.text, statementsOf, declsFrom, prepend_nil] using this
  | blockComment c =>
    have := scan_block_comment pkg count c rest (by simpa [Item.wellFormed] using h)
    simpa [Item.text, statementsOf, declsFrom, prepend_nil] using this
  | statement s =>
    have := scan_statement pkg count s rest (by simpa [Item.wellFormed] using h)
    simpa [Item.text, statementsOf, declsFrom, Outcome.prepend, Outcome.block, Outcome.emit]
      using this

theorem statementsOf_cons (it : Item) (items : List Item) :
    statementsOf (it :: items) = statementsOf [it] ++ statementsOf items := by
  cases it <;> simp [statementsOf]

theorem declsFrom_append (pkg : List Nat) (count : Nat) (xs ys : List EnumStmt) :
    declsFrom pkg count (xs ++ ys) = declsFrom pkg count xs ++ declsFrom pkg (count + xs.length) ys := by
  induction xs generalizing count with
  | nil => simp [declsFrom]
  | cons x xs ih => simp [declsFrom, ih, Nat.add_assoc, Nat.add_comm 1]

theorem declsFrom_length (pkg : List Nat) (count : Nat) (xs : List EnumStmt) :
    (declsFrom pkg count xs).length = xs.length := by
  induction xs generalizing count with
  | nil => rfl
  | cons x xs ih => simp [declsFrom, ih]

/-- The loop over a sequence of well-formed items: one raw block and one
record for each statement, in order, and an empty buffer afterwards. -/
theorem scan_items (pkg : List Nat) (count : Nat) (items : List Item) (rest : List Nat)
    (h : ∀ it ∈ items, it.wellFormed = true) :
    scan pkg [] count (itemsText items ++ rest) =
      Outcome.prepend ((statementsOf items).map EnumStmt.text)
        (declsFrom pkg count (statementsOf items))
        (scan pkg [] (count + (statementsOf items).length) rest) := by
  induction items generalizing count with
  | nil => simp [itemsText, statementsOf, declsFrom, prepend_nil]
  | cons it items ih =>
    have h1 := scan_item pkg count it (itemsText items ++ rest) (h it (by simp))
    have h2 := ih (count + (statementsOf [it]).length) (fun x hx => h x (by simp [hx]))
    simp only [itemsText, List.flatMap_cons, List.append_assoc] at h1 h2 ⊢
    rw [h1, h2]
    conv_rhs => rw [statementsOf_cons]
    simp [Outcome.prepend, Nat.add_assoc, declsFrom_append]

theorem declsFrom_fields (pkg : List Nat) (count : Nat) (xs : List EnumStmt) :
    (declsFrom pkg count xs).map (fun d => (d.TypeName, d.Values)) =
      xs.map (fun s => (normalizeName s.name, TransforEnums (splitComma s.values))) := by
  induction xs generalizing count with
  | nil => rfl
  | cons x xs ih => simp [declsFrom, EnumStmt.decl, ih]

theorem scan_separated (pkg : List Nat) (count : Nat) (segs : List (List Nat × EnumStmt))
    (trail : List Nat)
    (h : ∀ p ∈ segs, (∀ r ∈ p.1, isSpace r = true) ∧ p.2.wellFormed = true)
    (ht : ∀ r ∈ trail, isSpace r = true) :
    scan pkg [] count (separated segs trail) =
      { blocks := segs.map (fun p => p.2.text)
        emitted := declsFrom pkg count (segs.map (fun p => p.2))
        status := Status.finished } := by
  induction segs generalizing count with
  | nil =>
    have := scan_spaces pkg count trail [] ht
    simp only [List.append_nil] at this
    simp [separated, this, scan_nil, declsFrom]
  | cons p segs ih =>
    have hp := h p (by simp)
    have e : separated (p :: segs) trail = utf8 p.1 ++ (p.2.text ++ separated segs trail) := by
      simp [separated]
    rw [e, scan_spaces pkg count p.1 _ hp.1, scan_statement pkg count p.2 _ hp.2,
      ih (count + 1) (fun q hq => h q (by simp [hq]))]
    simp [Outcome.block, Outcome.emit, declsFrom]

set_option maxRecDepth 100000 in
/-- C1 (counterexample): the input `CREATE TABLE foo (id int);` followed by a
newline and one well-formed enum statement holds N = 1 well-formed statement,
and the run produces no raw block and no record. -/
theorem unrelated_statement_absorbs_enum :
    (EnumStmt.mk (ascii "a") [32] (ascii "'x'")).wellFormed = true ∧
      (run [] (ascii "CREATE TABLE foo (id int);\n"
        ++ (EnumStmt.mk (ascii "a") [32] (ascii "'x'")).text)).blocks.length ≠ 1 ∧
      (run [] (ascii "CREATE TABLE foo (id int);\n"
        ++ (EnumStmt.mk (ascii "a") [32] (ascii "'x'")).text)).emitted.length ≠ 1 := by
  decide

/-- C1 (as amended): for every input made of white space, line comments and
block comments that start where the buffer is empty, and N well-formed enum
statements, the run produces exactly N raw blocks, which are the statements in
order, and exactly N records, and it ends at end of input. -/
theorem items_one_block_and_record_per_statement (pkg : List Nat) (items : List Item)
    (h : ∀ it ∈ items, it.wellFormed = true) :
    (run pkg (itemsText items)).blocks = (statementsOf items).map EnumStmt.text ∧
      (run pkg (itemsText items)).blocks.length = (statementsOf items).length ∧
      (run pkg (itemsText items)).emitted.length = (statementsOf items).length ∧
      (run pkg (itemsText items)).status = Status.finished := by
  have := scan_items pkg 0 items [] h
  simp only [List.append_nil, scan_nil] at this
  simp [run, this, Outcome.prepend, declsFrom_length]

/-- An instance of `items_one_block_and_record_per_statement`: a newline, a line
comment, a statement, a block comment with a semicolon and parentheses, a
second statement. -/
theorem items_one_block_and_record_per_statement_witness :
    (run [] (itemsText
        [Item.space 10, Item.lineComment (ascii " colours"),
          Item.statement (EnumStmt.mk (ascii "color") [32] (ascii "'red','green'")),
          Item.blockComment (ascii " old; (unused) "),
          Item.statement (EnumStmt.mk (ascii "status") [] (ascii "'on'"))])).blocks
      = [ascii "CREATE TYPE color AS ENUM ('red','green');",
          ascii "CREATE TYPE status AS ENUM('on');"] ∧
    (run [] (itemsText
        [Item.space 10, Item.lineComment (ascii " colours"),
          Item.statement (EnumStmt.mk (ascii "color") [32] (ascii "'red','green'")),
          Item.blockComment (ascii " old; (unused) "),
          Item.statement (EnumStmt.mk (ascii "status") [] (ascii "'on'"))])).blocks.length = 2 ∧
    (run [] (itemsText
        [Item.space 10, Item.lineComment (ascii " colours"),
          Item.statement (EnumStmt.mk (ascii "color") [32] (ascii "'red','green'")),
          Item.blockComment (ascii " old; (unused) "),
          Item.statement (EnumStmt.mk (ascii "status") [] (ascii "'on'"))])).emitted.length = 2 ∧
    (run [] (itemsText
        [Item.space 10, Item.lineComment (ascii " colours"),
          Item.statement (EnumStmt.mk (ascii "color") [32] (ascii "'red','green'")),
          Item.blockComment (ascii " old; (unused) "),
          Item.statement (EnumStmt.mk (ascii "status") [] (ascii "'on'"))])).status
      = Status.finished :=
  items_one_block_and_record_per_statement []
    [Item.space 10, Item.lineComment (ascii " colours"),
      Item.statement (EnumStmt.mk (ascii "color") [32] (ascii "'red','green'")),
      Item.blockComment (ascii " old; (unused) "),
      Item.statement (EnumStmt.mk (ascii "status") [] (ascii "'on'"))]
    (by decide)

/-- C2: for every input that is a sequence of well-formed enum statements
separated only by white space, the run hands over exactly one record per
statement, and the records are, in the order of the statements, the normalised
name and the normalised values of each statement. -/
theorem statements_emitted_in_order (pkg : List Nat) (segs : List (List Nat × EnumStmt))
    (trail : List Nat)
    (h : ∀ p ∈ segs, (∀ r ∈ p.1, isSpace r = true) ∧ p.2.wellFormed = true)
    (ht : ∀ r ∈ trail, isSpace r = true) :
    (run pkg (separated segs trail)).emitted.length = segs.length ∧
      (run pkg (separated segs trail)).emitted.map (fun d => (d.TypeName, d.Values))
        = segs.map (fun p => (normalizeName p.2.name, TransforEnums (splitComma p.2.values))) ∧
      (run pkg (separated segs trail)).blocks = segs.map (fun p => p.2.text) ∧
      (run pkg (separated segs trail)).status = Status.finished := by
  have := scan_separated pkg 0 segs trail h ht
  simp [run, this, declsFrom_length, declsFrom_fields]

/-- An instance of `statements_emitted_in_order`: two statements separated by
newlines. -/
theorem statements_emitted_in_order_witness :
    (run [] (ascii "CREATE TYPE b AS ENUM ('x');\n\nCREATE TYPE a AS ENUM ('z', 'y'); ")).emitted.map
        (fun d => (d.TypeName, d.Values))
      = [(ascii "B", [ascii "X"]), (ascii "A", [ascii "Z", ascii "Y"])] :=
  (statements_emitted_in_order []
    [([], EnumStmt.mk (ascii "b") [32] (ascii "'x'")),
      ([10, 10], EnumStmt.mk (ascii "a") [32] (ascii "'z', 'y'"))] [32]
    (by decide) (by decide)).2.1

/-! ## Normalisation of lower-case words -/

theorem trimSpace_ends (a b : Nat) (m : List Nat) (ha : isSpace a = false)
    (hb : isSpace b = false) : trimSpace (a :: (m ++ [b])) = a :: (m ++ [b]) := by
  unfold trimSpace
  rw [List.dropWhile_cons_of_neg (by simp [ha])]
  have : (a :: (m ++ [b])).reverse = b :: (m.reverse ++ [a]) := by simp
  rw [this, List.dropWhile_cons_of_neg (by simp [hb])]
  simp

theorem trimSpace_nil : trimSpace [] = [] := rfl

theorem trimSpace_cons_space (a : Nat) (s : List Nat) (ha : isSpace a = true) :
    trimSpace (a :: s) = trimSpace s := by
  unfold trimSpace
  rw [List.dropWhile_cons_of_pos ha]

theorem trimSpace_of_no_space (s : List Nat) (h : ∀ x ∈ s, isSpace x = false) :
    trimSpace s = s := by
  rcases List.eq_nil_or_concat s with rfl | ⟨m, b, rfl⟩
  · rfl
  · rw [List.concat_eq_append] at h ⊢
    cases m with
    | nil =>
      have hb := h b (by simp)
      simp [trimSpace, List.dropWhile_cons, hb]
    | cons a m =>
      exact trimSpace_ends a b m (h a (by simp)) (h b (by simp))

theorem lower_facts (c : Nat) (h : 97 ≤ c ∧ c ≤ 122) :
    isCased c = true ∧ isMid c = false ∧ titleMap c = asciiUpper c ∧ lowerMap c = c ∧
      isSpace c = false ∧ asciiUpper c = c - 32 := by
  obtain ⟨h1, h2⟩ := h
  refine ⟨?_, ?_, ?_, ?_, ?_, ?_⟩
  · simp [isCased, h1, h2]
  · simp only [isMid, Bool.or_eq_false_iff, decide_eq_false_iff_not]; omega
  · simp [titleMap, asciiUpper, h1, h2]
  · unfold lowerMap; rw [if_neg (by omega), if_neg (by omega)]
  · simp only [isSpace, Bool.or_eq_false_iff, decide_eq_false_iff_not, Bool.and_eq_false_imp,
      decide_eq_true_eq]; omega
  · simp [asciiUpper, h1, h2]

theorem isLowerWord_iff (w : List Nat) :
    isLowerWord w = true ↔ ∀ c ∈ w, 97 ≤ c ∧ c ≤ 122 := by
  simp [isLowerWord, List.all_eq_true]

/-- Inside a word the title caser leaves lower-case letters as they are. -/
theorem titleLoop_lower_mid (w r : List Nat) (wm : Bool) (h : ∀ c ∈ w, 97 ≤ c ∧ c ≤ 122)
    (hne : w ≠ []) :
    titleLoop (w ++ r) true wm = w ++ titleLoop r true false := by
  induction w generalizing wm with
  | nil => exact absurd rfl hne
  | cons c t ih =>
    obtain ⟨h1, h2, -, h4, -, -⟩ := lower_facts c (h c (by simp))
    rw [List.cons_append, titleLoop]
    simp only [h1, h2, Bool.and_false, if_true, h4, Bool.false_eq_true, if_false]
    cases t with
    | nil => simp
    | cons d t =>
      rw [ih false (fun x hx => h x (by simp [hx])) (by simp)]
      simp

/-- At the start of a word the title caser puts the first letter of a
lower-case word in upper case. -/
theorem titleLoop_lower_start (w r : List Nat) (wm : Bool) (h : ∀ c ∈ w, 97 ≤ c ∧ c ≤ 122)
    (hne : w ≠ []) :
    titleLoop (w ++ r) false wm = capitalize w ++ titleLoop r true false := by
  cases w with
  | nil => exact absurd rfl hne
  | cons c t =>
    obtain ⟨h1, h2, h3, -, -, -⟩ := lower_facts c (h c (by simp))
    rw [List.cons_append, titleLoop]
    simp only [h1, h2, Bool.and_false, if_true, h3, Bool.false_eq_true, if_false, capitalize]
    cases t with
    | nil => simp
    | cons d t =>
      rw [titleLoop_lower_mid (d :: t) r false (fun x hx => h x (by simp [hx])) (by simp)]
      simp

/-- A rune that is no letter and no digit writes nothing in `toCamelLoop`, and
what follows it does not depend on the state before it. -/
theorem toCamelLoop_sep (r : List Nat) (a b c a2 b2 c2 : Bool)
    (hr : ∀ v ∈ r.head?, v = 95 ∨ v = 32 ∨ v = 39) :
    toCamelLoop r a b c = toCamelLoop r a2 b2 c2 := by
  cases r with
  | nil => rfl
  | cons v t =>
    have hv := hr v (by simp)
    rcases hv with rfl | rfl | rfl <;> simp [toCamelLoop]

theorem toCamelLoop_lower (t r : List Nat) (p : Bool) (h : ∀ c ∈ t, 97 ≤ c ∧ c ≤ 122)
    (hr : ∀ v ∈ r.head?, v = 95 ∨ v = 32 ∨ v = 39) :
    toCamelLoop (t ++ r) false p false = t ++ toCamelLoop r false false false := by
  induction t generalizing p with
  | nil => exact toCamelLoop_sep r _ _ _ _ _ _ hr
  | cons c t ih =>
    obtain ⟨h1, h2⟩ := h c (by simp)
    rw [List.cons_append, toCamelLoop]
    have hcap : (decide (65 ≤ c) && decide (c ≤ 90)) = false := by
      simp only [Bool.and_eq_false_imp, decide_eq_true_eq, decide_eq_false_iff_not]; omega
    have hlow : (decide (97 ≤ c) && decide (c ≤ 122)) = true := by simp [h1, h2]
    simp only [hcap, hlow, Bool.false_eq_true, if_false, Bool.and_false, Bool.or_true, if_true]
    rw [ih false (fun x hx => h x (by simp [hx]))]
    simp

/-- A lower-case word, with or without its first letter already in upper case,
comes out of `toCamelLoop` capitalised, when the loop is to capitalise or the
word is already capitalised. -/
theorem toCamelLoop_word (w w2 r : List Nat) (cap p f : Bool) (h : ∀ c ∈ w, 97 ≤ c ∧ c ≤ 122)
    (hw : w2 = w ∨ w2 = capitalize w)
    (hcap : cap = true ∨ (w2 = capitalize w ∧ p = false ∧ f = false))
    (hr : ∀ v ∈ r.head?, v = 95 ∨ v = 32 ∨ v = 39) :
    toCamelLoop (w2 ++ r) cap p f = capitalize w ++ toCamelLoop r false false false := by
  cases w with
  | nil =>
    have : w2 = [] := by rcases hw with h | h <;> simpa [capitalize] using h
    subst this
    simpa [capitalize] using toCamelLoop_sep r _ _ _ _ _ _ hr
  | cons c t =>
    obtain ⟨h1, h2⟩ := h c (by simp)
    have ht : ∀ x ∈ t, 97 ≤ x ∧ x ≤ 122 := fun x hx => h x (by simp [hx])
    have hup : asciiUpper c = c - 32 := by simp [asciiUpper, h1, h2]
    rcases hw with rfl | rfl
    · have hcap2 : cap = true := by
        rcases hcap with h | ⟨h, -, -⟩
        · exact h
        · simp only [capitalize, List.cons.injEq, and_true] at h; omega
      subst hcap2
      rw [List.cons_append, toCamelLoop]
      have hc1 : (decide (65 ≤ c) && decide (c ≤ 90)) = false := by
        simp only [Bool.and_eq_false_imp, decide_eq_true_eq, decide_eq_false_iff_not]; omega
      have hc2 : (decide (97 ≤ c) && decide (c ≤ 122)) = true := by simp [h1, h2]
      simp only [hc1, hc2, if_true, Bool.or_true]
      rw [toCamelLoop_lower t r false ht hr]
      simp [capitalize, hup]
    · rw [capitalize, List.cons_append, toCamelLoop, hup]
      have hc1 : (decide (65 ≤ c - 32) && decide (c - 32 ≤ 90)) = true := by
        simp only [Bool.and_eq_true, decide_eq_true_eq]; omega
      have hc2 : (decide (97 ≤ c - 32) && decide (c - 32 ≤ 122)) = false := by
        simp only [Bool.and_eq_false_imp, decide_eq_true_eq, decide_eq_false_iff_not]; omega
      simp only [hc1, hc2, Bool.false_eq_true, if_false, Bool.or_false, if_true, Bool.and_true]
      rw [toCamelLoop_lower t r true ht hr]
      rcases hcap with rfl | ⟨-, rfl, rfl⟩ <;> simp

theorem titleLoop_quote_end (mw wm : Bool) : titleLoop [39] mw wm = [39] := by
  simp [titleLoop, isCased]

/-- The title caser on words of lower-case letters separated by single spaces
and closed by an apostrophe: every word is capitalised. -/
theorem titleLoop_spaced (ws : List (List Nat)) (wm : Bool)
    (h : ∀ w ∈ ws, ∀ c ∈ w, 97 ≤ c ∧ c ≤ 122) :
    titleLoop (joinWith [32] ws ++ [39]) false wm
      = joinWith [32] (ws.map capitalize) ++ [39] := by
  induction ws generalizing wm with
  | nil => simp [joinWith, titleLoop_quote_end]
  | cons w rest ih =>
    have hw := h w (by simp)
    cases rest with
    | nil =>
      rcases w with _ | ⟨c, t⟩
      · simp [joinWith, capitalize, titleLoop_quote_end]
      · simp only [joinWith, List.map_cons, List.map_nil]
        rw [titleLoop_lower_start (c :: t) [39] wm hw (by simp), titleLoop_quote_end]
    | cons w2 rest =>
      have hrest := ih false (fun x hx => h x (by simp [hx]))
      have step : ∀ (mw wm2 : Bool) (X : List Nat),
          titleLoop (32 :: X) mw wm2 = 32 :: titleLoop X false false := by
        intro mw wm2 X
        simp [titleLoop, isCased, isBreak, isMid]
      rcases w with _ | ⟨c, t⟩
      · simp only [joinWith, List.map_cons, capitalize, List.nil_append, List.cons_append,
          List.singleton_append] at hrest ⊢
        rw [step, hrest]
      · simp only [joinWith, List.map_cons, List.append_assoc, List.singleton_append,
          List.cons_append, List.nil_append] at hrest ⊢
        have := titleLoop_lower_start (c :: t) (32 :: (joinWith [32] (w2 :: rest) ++ [39])) wm hw
          (by simp)
        simp only [List.cons_append] at this
        rw [this, step, hrest]

/-- The title caser on words of lower-case letters joined by underscores: the
underscore does not end the word, so only the first letter met is capitalised. -/
theorem titleLoop_underscored (ws : List (List Nat)) (mw wm : Bool)
    (h : ∀ w ∈ ws, ∀ c ∈ w, 97 ≤ c ∧ c ≤ 122) :
    titleLoop (joinWith [95] ws) mw wm = joinWith [95] (titleWords mw ws) := by
  induction ws generalizing mw wm with
  | nil => simp [joinWith, titleWords, titleLoop]
  | cons w rest ih =>
    have hw := h w (by simp)
    cases rest with
    | nil =>
      rcases w with _ | ⟨c, t⟩
      · cases mw <;> simp [joinWith, titleWords, titleLoop, capitalize]
      · cases mw
        · have := titleLoop_lower_start (c :: t) [] wm hw (by simp)
          simpa [joinWith, titleWords, titleLoop] using this
        · have := titleLoop_lower_mid (c :: t) [] wm hw (by simp)
          simpa [joinWith, titleWords, titleLoop] using this
    | cons w2 rest =>
      have step : ∀ (m wm2 : Bool) (X : List Nat),
          titleLoop (95 :: X) m wm2 = 95 :: titleLoop X m false := by
        intro m wm2 X
        cases m <;> simp [titleLoop, isCased, isBreak, isMid]
      rcases w with _ | ⟨c, t⟩
      · have hrest := ih mw false (fun x hx => h x (by simp [hx]))
        cases mw <;>
          simp only [joinWith, titleWords, capitalize, List.nil_append, List.cons_append,
            List.singleton_append, List.isEmpty_nil, Bool.not_true, Bool.or_false,
            Bool.false_eq_true, if_false, if_true] at hrest ⊢ <;>
          rw [step, hrest]
      · have hrest := ih true false (fun x hx => h x (by simp [hx]))
        cases mw
        · have := titleLoop_lower_start (c :: t) (95 :: joinWith [95] (w2 :: rest)) wm hw (by simp)
          simp only [joinWith, titleWords, List.singleton_append, List.isEmpty_cons, Bool.not_false,
            Bool.or_true, Bool.false_eq_true, if_false] at hrest ⊢
          rw [this, step, hrest]
        · have := titleLoop_lower_mid (c :: t) (95 :: joinWith [95] (w2 :: rest)) wm hw (by simp)
          simp only [joinWith, titleWords, List.singleton_append, List.isEmpty_cons, Bool.not_false,
            Bool.or_true, if_true] at hrest ⊢
          rw [this, step, hrest]

theorem toCamelLoop_skip (v : Nat) (X : List Nat) (a b c : Bool)
    (hv : v = 95 ∨ v = 32) : toCamelLoop (v :: X) a b c = toCamelLoop X true false false := by
  rcases hv with rfl | rfl <;> simp [toCamelLoop]

/-- The camel-case loop on capitalised words separated by single spaces and
closed by an apostrophe: the words are concatenated. -/
theorem toCamelLoop_spaced (ws : List (List Nat)) (cap : Bool)
    (h : ∀ w ∈ ws, ∀ c ∈ w, 97 ≤ c ∧ c ≤ 122) :
    toCamelLoop (joinWith [32] (ws.map capitalize) ++ [39]) cap false false
      = (ws.map capitalize).flatten := by
  induction ws generalizing cap with
  | nil => simp [joinWith, toCamelLoop]
  | cons w rest ih =>
    have hw := h w (by simp)
    cases rest with
    | nil =>
      have := toCamelLoop_word w (capitalize w) [39] cap false false hw (Or.inr rfl)
        (Or.inr ⟨rfl, rfl, rfl⟩) (by simp)
      simpa [joinWith, toCamelLoop] using this
    | cons w2 rest =>
      have hrest := ih true (fun x hx => h x (by simp [hx]))
      have := toCamelLoop_word w (capitalize w)
        (32 :: (joinWith [32] ((w2 :: rest).map capitalize) ++ [39])) cap false false hw
        (Or.inr rfl) (Or.inr ⟨rfl, rfl, rfl⟩) (by simp)
      simp only [joinWith, List.map_cons, List.append_assoc, List.singleton_append,
        List.flatten_cons, List.cons_append, List.nil_append] at hrest this ⊢
      rw [this, toCamelLoop_skip 32 _ _ _ _ (Or.inr rfl), hrest]

/-- The camel-case loop on the words the title caser leaves joined by
underscores: every word is capitalised and the underscores are dropped. -/
theorem toCamelLoop_underscored (ws : List (List Nat)) (mw p f : Bool)
    (h : ∀ w ∈ ws, ∀ c ∈ w, 97 ≤ c ∧ c ≤ 122) :
    toCamelLoop (joinWith [95] (titleWords mw ws)) true p f = (ws.map capitalize).flatten := by
  induction ws generalizing mw p f with
  | nil => simp [joinWith, titleWords, toCamelLoop]
  | cons w rest ih =>
    have hw := h w (by simp)
    have hw2 : (if mw = true then w else capitalize w) = w ∨
        (if mw = true then w else capitalize w) = capitalize w := by
      cases mw <;> simp
    cases rest with
    | nil =>
      have := toCamelLoop_word w (if mw = true then w else capitalize w) [] true p f hw hw2
        (Or.inl rfl) (by simp)
      simpa [joinWith, titleWords, toCamelLoop] using this
    | cons w2 rest =>
      have hrest := ih (mw || !w.isEmpty) false false (fun x hx => h x (by simp [hx]))
      have := toCamelLoop_word w (if mw = true then w else capitalize w)
        (95 :: joinWith [95] (titleWords (mw || !w.isEmpty) (w2 :: rest))) true p f hw hw2
        (Or.inl rfl) (by simp)
      simp only [joinWith, titleWords, List.map_cons, List.append_assoc, List.singleton_append,
        List.flatten_cons, List.cons_append, List.nil_append] at hrest this ⊢
      rw [this, toCamelLoop_skip 95 _ _ _ _ (Or.inl rfl), hrest]

theorem mem_joinWith (sep : List Nat) (ws : List (List Nat)) (x : Nat)
    (hx : x ∈ joinWith sep ws) : x ∈ sep ∨ ∃ w ∈ ws, x ∈ w := by
  induction ws with
  | nil => simp [joinWith] at hx
  | cons w rest ih =>
    cases rest with
    | nil => exact Or.inr ⟨w, by simp, by simpa [joinWith] using hx⟩
    | cons w2 rest =>
      simp only [joinWith, List.mem_append] at hx
      rcases hx with hx | hx | hx
      · exact Or.inr ⟨w, by simp, hx⟩
      · exact Or.inl hx
      · rcases ih hx with h | ⟨y, hy, hxy⟩
        · exact Or.inl h
        · exact Or.inr ⟨y, by simp [hy], hxy⟩

theorem mem_titleWords (mw : Bool) (ws : List (List Nat)) (w2 : List Nat)
    (h : w2 ∈ titleWords mw ws) : ∃ w ∈ ws, w2 = w ∨ w2 = capitalize w := by
  induction ws generalizing mw with
  | nil => simp [titleWords] at h
  | cons w rest ih =>
    simp only [titleWords, List.mem_cons] at h
    rcases h with h | h
    · refine ⟨w, by simp, ?_⟩
      cases mw <;> simp [h]
    · obtain ⟨y, hy, hyy⟩ := ih _ h
      exact ⟨y, by simp [hy], hyy⟩

theorem mem_capitalize (w : List Nat) (x : Nat) (h : ∀ c ∈ w, 97 ≤ c ∧ c ≤ 122)
    (hx : x ∈ capitalize w) : 65 ≤ x ∧ x ≤ 122 := by
  cases w with
  | nil => simp [capitalize] at hx
  | cons c t =>
    simp only [capitalize, List.mem_cons] at hx
    rcases hx with rfl | hx
    · have := h c (by simp)
      simp only [asciiUpper, this.1, this.2, and_self, if_true]; omega
    · have := h x (by simp [hx]); omega

theorem isSpace_of_letterish (x : Nat) (h : 65 ≤ x ∧ x ≤ 122) : isSpace x = false := by
  simp only [isSpace, Bool.or_eq_false_iff, decide_eq_false_iff_not, Bool.and_eq_false_imp,
    decide_eq_true_eq]
  omega

/-- Normal form of a type name made of lower-case words joined by
underscores: the capitalised words, concatenated. -/
theorem normalizeName_underscored (ws : List (List Nat))
    (h : ∀ w ∈ ws, ∀ c ∈ w, 97 ≤ c ∧ c ≤ 122) :
    normalizeName (joinWith [95] ws) = (ws.map capitalize).flatten := by
  unfold normalizeName ToCamel enCaser
  rw [titleLoop_underscored ws false false h, trimSpace_of_no_space,
    toCamelLoop_underscored ws false false true h]
  intro x hx
  rcases mem_joinWith _ _ _ hx with hx | ⟨w2, hw2, hxw⟩
  · simp only [List.mem_singleton] at hx; subst hx; decide
  · obtain ⟨w, hw, hww⟩ := mem_titleWords _ _ _ hw2
    apply isSpace_of_letterish
    rcases hww with rfl | rfl
    · have := h w2 hw x hxw; omega
    · exact mem_capitalize w x (h w hw) hxw

/-- Normal form of a value made of lower-case words separated by single
spaces, between apostrophes: the capitalised words, concatenated. -/
theorem normalize_quoted (ws : List (List Nat))
    (h : ∀ w ∈ ws, ∀ c ∈ w, 97 ≤ c ∧ c ≤ 122) :
    normalize (quoted (joinWith [32] ws)) = (ws.map capitalize).flatten := by
  unfold normalize ToCamel enCaser quoted
  rw [trimSpace_ends 39 39 _ (by decide) (by decide)]
  have e1 : titleLoop (39 :: (joinWith [32] ws ++ [39])) false false
      = 39 :: (joinWith [32] (ws.map capitalize) ++ [39]) := by
    rw [titleLoop]
    simp only [show isCased 39 = false by decide, show isBreak 39 = false by decide,
      show isMid 39 = true by decide, Bool.false_eq_true, if_false, Bool.and_true]
    rw [titleLoop_spaced ws true h]
  rw [e1, trimSpace_ends 39 39 _ (by decide) (by decide)]
  have e2 : ∀ X : List Nat, toCamelLoop (39 :: X) true false true = toCamelLoop X false false false := by
    intro X; simp [toCamelLoop]
  rw [e2, toCamelLoop_spaced ws false h]

theorem normalize_space (s : List Nat) : normalize (32 :: s) = normalize s := by
  unfold normalize
  rw [trimSpace_cons_space 32 s (by decide)]

/-! ## One statement as the whole input -/

theorem run_statement (pkg : List Nat) (s : EnumStmt) (h : s.wellFormed = true) :
    run pkg s.text =
      { blocks := [s.text], emitted := [s.decl pkg true], status := Status.finished } := by
  have := scan_statement pkg 0 s [] h
  simp only [List.append_nil, scan_nil] at this
  rw [run, this]
  rfl

theorem splitComma_no_comma (x : List Nat) (h : 44 ∉ x) : splitComma x = [x] := by
  induction x with
  | nil => rfl
  | cons c t ih =>
    have hc : c ≠ 44 := fun e => h (by simp [e])
    have ht : 44 ∉ t := fun e => h (by simp [e])
    simp [splitComma, hc, ih ht]

theorem splitComma_append_comma (x y : List Nat) (h : 44 ∉ x) :
    splitComma (x ++ 44 :: y) = x :: splitComma y := by
  induction x with
  | nil => simp [splitComma]
  | cons c t ih =>
    have hc : c ≠ 44 := fun e => h (by simp [e])
    have ht : 44 ∉ t := fun e => h (by simp [e])
    simp [splitComma, hc, ih ht]

theorem normalize_quoted_word (w : List Nat) (h : ∀ c ∈ w, 97 ≤ c ∧ c ≤ 122) :
    normalize (quoted w) = capitalize w := by
  have := normalize_quoted [w] (by simpa using h)
  simpa [joinWith] using this

theorem normalizeName_word (w : List Nat) (h : ∀ c ∈ w, 97 ≤ c ∧ c ≤ 122) :
    normalizeName w = capitalize w := by
  have := normalizeName_underscored [w] (by simpa using h)
  simpa [joinWith] using this

theorem comma_not_mem_quoted (pre w : List Nat) (hpre : pre = [] ∨ pre = [32])
    (h : ∀ c ∈ w, 97 ≤ c ∧ c ≤ 122) : 44 ∉ pre ++ quoted w := by
  intro hm
  simp only [quoted, List.mem_append, List.mem_cons, List.mem_singleton] at hm
  rcases hm with hm | hm | hm | hm
  · rcases hpre with rfl | rfl <;> simp at hm
  · omega
  · have := h 44 hm; omega
  · simp at hm

/-- The values of a list `'w1', 'w2', ...` of quoted lower-case words: split
on commas and normalised, they are the capitalised words. -/
theorem values_of_quoted_words (words : List (List Nat)) (pre : List Nat)
    (hpre : pre = [] ∨ pre = [32]) (hne : words ≠ [])
    (h : ∀ w ∈ words, ∀ c ∈ w, 97 ≤ c ∧ c ≤ 122) :
    TransforEnums (splitComma (pre ++ joinWith [44, 32] (words.map quoted)))
      = words.map capitalize := by
  induction words generalizing pre with
  | nil => exact absurd rfl hne
  | cons w rest ih =>
    have hw := h w (by simp)
    have hn : normalize (pre ++ quoted w) = capitalize w := by
      rcases hpre with rfl | rfl
      · simpa using normalize_quoted_word w hw
      · simpa [normalize_space] using normalize_quoted_word w hw
    cases rest with
    | nil =>
      simp only [List.map_cons, List.map_nil, joinWith]
      rw [splitComma_no_comma _ (comma_not_mem_quoted pre w hpre hw)]
      simp [TransforEnums, hn]
    | cons w2 rest =>
      have hrest := ih [32] (Or.inr rfl) (by simp) (fun x hx => h x (by simp [hx]))
      have e : pre ++ joinWith [44, 32] ((w :: w2 :: rest).map quoted)
          = (pre ++ quoted w) ++ 44 :: ([32] ++ joinWith [44, 32] ((w2 :: rest).map quoted)) := by
        simp [joinWith]
      rw [e, splitComma_append_comma _ _ (comma_not_mem_quoted pre w hpre hw)]
      simp only [TransforEnums, List.map_cons] at hrest ⊢
      rw [hn, hrest]

theorem joinWith_ne_nil (sep w : List Nat) (ws : List (List Nat)) (hw : w ≠ []) :
    joinWith sep (w :: ws) ≠ [] := by
  cases ws with
  | nil => simpa [joinWith] using hw
  | cons w2 rest => simp [joinWith, hw]

theorem lowercase_statement_wellFormed (name : List Nat) (words : List (List Nat))
    (hn : name ≠ []) (hname : ∀ c ∈ name, 97 ≤ c ∧ c ≤ 122) (hw : words ≠ [])
    (hwords : ∀ w ∈ words, ∀ c ∈ w, 97 ≤ c ∧ c ≤ 122) :
    (EnumStmt.mk name [32] (joinWith [44, 32] (words.map quoted))).wellFormed = true := by
  rw [wellFormed_iff]
  refine ⟨hn, ?_, ?_, ?_, ?_⟩
  · intro b hb
    have := hname b hb
    refine ⟨by omega, ?_⟩
    simp only [isWordRune, Bool.or_eq_true, Bool.and_eq_true, decide_eq_true_eq]
    omega
  · intro b hb
    simp only [List.mem_singleton] at hb
    subst hb
    decide
  · cases words with
    | nil => exact absurd rfl hw
    | cons w rest => exact joinWith_ne_nil _ _ _ (by simp [quoted])
  · intro b hb
    have hb2 : b = 44 ∨ b = 32 ∨ b = 39 ∨ (97 ≤ b ∧ b ≤ 122) := by
      rcases mem_joinWith _ _ _ hb with hb | ⟨q, hq, hbq⟩
      · simp only [List.mem_cons, List.mem_singleton, List.mem_nil_iff, or_false] at hb
        omega
      · simp only [List.mem_map] at hq
        obtain ⟨w, hw2, rfl⟩ := hq
        simp only [quoted, List.mem_cons, List.mem_append, List.mem_singleton, List.mem_nil_iff,
          or_false] at hbq
        rcases hbq with rfl | hbq | rfl
        · omega
        · have := hwords w hw2 b hbq; omega
        · omega
    refine ⟨by omega, ?_⟩
    simp only [isValueRune, isWordRune, isPatternSpace, Bool.or_eq_true, Bool.and_eq_true,
      decide_eq_true_eq]
    omega

theorem lowercase_statement (pkg name : List Nat) (words : List (List Nat))
    (hn : name ≠ []) (hname : isLowerWord name = true) (hw : words ≠ [])
    (hwords : ∀ w ∈ words, isLowerWord w = true) :
    run pkg (ascii "CREATE TYPE " ++ name ++ ascii " AS ENUM (" ++
        joinWith (ascii ", ") (words.map quoted) ++ ascii ");")
      = { blocks := [ascii "CREATE TYPE " ++ name ++ ascii " AS ENUM (" ++
            joinWith (ascii ", ") (words.map quoted) ++ ascii ");"]
          emitted := [{ PkgName := pkg, TypeName := capitalize name,
                        Values := words.map capitalize, FirstType := true }]
          status := Status.finished } := by
  have hname2 := (isLowerWord_iff name).mp hname
  have hwords2 : ∀ w ∈ words, ∀ c ∈ w, 97 ≤ c ∧ c ≤ 122 :=
    fun w hw2 => (isLowerWord_iff w).mp (hwords w hw2)
  have hwf := lowercase_statement_wellFormed name words hn hname2 hw hwords2
  have e : ascii "CREATE TYPE " ++ name ++ ascii " AS ENUM (" ++
        joinWith (ascii ", ") (words.map quoted) ++ ascii ");"
      = (EnumStmt.mk name [32] (joinWith [44, 32] (words.map quoted))).text := by
    have e1 : ascii " AS ENUM (" = ascii " AS ENUM" ++ [32, 40] := by decide
    have e2 : ascii ", " = [44, 32] := by decide
    simp [EnumStmt.text, e1, e2]
  rw [e, run_statement pkg _ hwf]
  have hv := values_of_quoted_words words [] (Or.inl rfl) hw hwords2
  simp only [List.nil_append] at hv
  simp [EnumStmt.decl, normalizeName_word name hname2, hv]

/-- C3: for every non-empty type name of lower-case ASCII letters and every
non-empty list of single-quoted words of lower-case ASCII letters, the
statement `CREATE TYPE <name> AS ENUM ('v1', 'v2', ...);` is one raw block and
yields one record whose TypeName is the name with its first letter in upper
case and whose Values are the words, without the apostrophes and with their
first letter in upper case, in source order; the statement
`CREATE TYPE status AS ENUM ('active', 'inactive');` yields TypeName `Status`
and Values `Active`, `Inactive`. -/
theorem lowercase_statement_record (pkg name : List Nat) (words : List (List Nat))
    (hn : name ≠ []) (hname : isLowerWord name = true) (hw : words ≠ [])
    (hwords : ∀ w ∈ words, isLowerWord w = true) :
    run pkg (ascii "CREATE TYPE " ++ name ++ ascii " AS ENUM (" ++
        joinWith (ascii ", ") (words.map quoted) ++ ascii ");")
      = { blocks := [ascii "CREATE TYPE " ++ name ++ ascii " AS ENUM (" ++
            joinWith (ascii ", ") (words.map quoted) ++ ascii ");"]
          emitted := [{ PkgName := pkg, TypeName := capitalize name,
                        Values := words.map capitalize, FirstType := true }]
          status := Status.finished } ∧
    run pkg (ascii "CREATE TYPE status AS ENUM ('active', 'inactive');")
      = { blocks := [ascii "CREATE TYPE status AS ENUM ('active', 'inactive');"]
          emitted := [{ PkgName := pkg, TypeName := ascii "Status",
                        Values := [ascii "Active", ascii "Inactive"], FirstType := true }]
          status := Status.finished } := by
  refine ⟨lowercase_statement pkg name words hn hname hw hwords, ?_⟩
  have := lowercase_statement pkg (ascii "status") [ascii "active", ascii "inactive"]
    (by decide) (by decide) (by decide) (by decide)
  have e : ascii "CREATE TYPE " ++ ascii "status" ++ ascii " AS ENUM (" ++
      joinWith (ascii ", ") ([ascii "active", ascii "inactive"].map quoted) ++ ascii ");"
      = ascii "CREATE TYPE status AS ENUM ('active', 'inactive');" := by decide
  have e1 : capitalize (ascii "status") = ascii "Status" := by decide
  have e2 : [ascii "active", ascii "inactive"].map capitalize = [ascii "Active", ascii "Inactive"] := by
    decide
  rw [e, e1, e2] at this
  exact this

/-- An instance of `lowercase_statement_record`: the type `color` with three
values. -/
theorem lowercase_statement_record_witness :
    run [] (ascii "CREATE TYPE " ++ ascii "color" ++ ascii " AS ENUM (" ++
        joinWith (ascii ", ") ([ascii "red", ascii "green", ascii "blue"].map quoted) ++ ascii ");")
      = { blocks := [ascii "CREATE TYPE " ++ ascii "color" ++ ascii " AS ENUM (" ++
            joinWith (ascii ", ") ([ascii "red", ascii "green", ascii "blue"].map quoted)
            ++ ascii ");"]
          emitted := [{ PkgName := [], TypeName := capitalize (ascii "color"),
                        Values := [ascii "red", ascii "green", ascii "blue"].map capitalize,
                        FirstType := true }]
          status := Status.finished } :=
  (lowercase_statement_record [] (ascii "color") [ascii "red", ascii "green", ascii "blue"]
    (by decide) (by decide) (by decide) (by decide)).1

/-- C4: an underscore in a type name and a space inside a value are
camel-case word boundaries.  For lower-case ASCII words w1..wk the name
`w1_w2_..._wk` normalises to the concatenation of the capitalised words, and
so does the value `'w1 w2 ... wk'`; the statement
`CREATE TYPE order_status AS ENUM ('on hold', 'done');` yields TypeName
`OrderStatus` and Values `OnHold`, `Done`. -/
theorem underscore_and_space_are_word_boundaries (pkg : List Nat) (ws : List (List Nat))
    (h : ∀ w ∈ ws, isLowerWord w = true) :
    normalizeName (joinWith (ascii "_") ws) = (ws.map capitalize).flatten ∧
    normalize (quoted (joinWith (ascii " ") ws)) = (ws.map capitalize).flatten ∧
    run pkg (ascii "CREATE TYPE order_status AS ENUM ('on hold', 'done');")
      = { blocks := [ascii "CREATE TYPE order_status AS ENUM ('on hold', 'done');"]
          emitted := [{ PkgName := pkg, TypeName := ascii "OrderStatus",
                        Values := [ascii "OnHold", ascii "Done"], FirstType := true }]
          status := Status.finished } := by
  have h2 : ∀ w ∈ ws, ∀ c ∈ w, 97 ≤ c ∧ c ≤ 122 := fun w hw => (isLowerWord_iff w).mp (h w hw)
  have e1 : ascii "_" = [95] := by decide
  have e2 : ascii " " = [32] := by decide
  refine ⟨by rw [e1]; exact normalizeName_underscored ws h2,
    by rw [e2]; exact normalize_quoted ws h2, ?_⟩
  have hs := run_statement pkg (EnumStmt.mk (ascii "order_status") [32] (ascii "'on hold', 'done'"))
    (by decide)
  have e3 : (EnumStmt.mk (ascii "order_status") [32] (ascii "'on hold', 'done'")).text
      = ascii "CREATE TYPE order_status AS ENUM ('on hold', 'done');" := by decide
  have e4 : normalizeName (ascii "order_status") = ascii "OrderStatus" := by decide
  have e5 : TransforEnums (splitComma (ascii "'on hold', 'done'"))
      = [ascii "OnHold", ascii "Done"] := by decide
  rw [e3] at hs
  rw [hs]
  simp only [EnumStmt.decl, e4, e5]

/-- An instance of `underscore_and_space_are_word_boundaries`: the words `order`
and `status`. -/
theorem underscore_and_space_are_word_boundaries_witness :
    normalizeName (joinWith (ascii "_") [ascii "order", ascii "status"])
      = ([ascii "order", ascii "status"].map capitalize).flatten ∧
    normalize (quoted (joinWith (ascii " ") [ascii "order", ascii "status"]))
      = ([ascii "order", ascii "status"].map capitalize).flatten :=
  ⟨(underscore_and_space_are_word_boundaries [] [ascii "order", ascii "status"] (by decide)).1,
    (underscore_and_space_are_word_boundaries [] [ascii "order", ascii "status"] (by decide)).2.1⟩

/-! ## Normalisation of a single word of letters -/

theorem isLetters_iff (s : List Nat) :
    isLetters s = true ↔ ∀ c ∈ s, (65 ≤ c ∧ c ≤ 90) ∨ (97 ≤ c ∧ c ≤ 122) := by
  simp [isLetters, List.all_eq_true]

theorem letter_facts (c : Nat) (h : (65 ≤ c ∧ c ≤ 90) ∨ (97 ≤ c ∧ c ≤ 122)) :
    isCased c = true ∧ isMid c = false ∧ titleMap c = asciiUpper c ∧ lowerMap c = asciiLower c ∧
      (97 ≤ asciiLower c ∧ asciiLower c ≤ 122) ∧ asciiUpper (asciiLower c) = asciiUpper c := by
  refine ⟨?_, ?_, ?_, ?_, ?_, ?_⟩
  · simp only [isCased, Bool.or_eq_true, Bool.and_eq_true, decide_eq_true_eq]; omega
  · simp only [isMid, Bool.or_eq_false_iff, decide_eq_false_iff_not]; omega
  · unfold titleMap asciiUpper
    split_ifs <;> omega
  · unfold lowerMap asciiLower
    split_ifs <;> omega
  · unfold asciiLower
    split_ifs <;> omega
  · unfold asciiUpper asciiLower
    split_ifs <;> omega

theorem titleLoop_letters_mid (t : List Nat) (wm : Bool)
    (h : ∀ c ∈ t, (65 ≤ c ∧ c ≤ 90) ∨ (97 ≤ c ∧ c ≤ 122)) :
    titleLoop t true wm = t.map asciiLower := by
  induction t generalizing wm with
  | nil => rfl
  | cons c t ih =>
    obtain ⟨h1, h2, -, h4, -, -⟩ := letter_facts c (h c (by simp))
    rw [titleLoop]
    simp only [h1, h2, Bool.and_false, if_true, h4, Bool.false_eq_true, if_false, List.map_cons]
    rw [ih false (fun x hx => h x (by simp [hx]))]

/-- The title caser on a word of ASCII letters: first letter in upper case,
the other letters in lower case. -/
theorem enCaser_letters (s : List Nat)
    (h : ∀ c ∈ s, (65 ≤ c ∧ c ≤ 90) ∨ (97 ≤ c ∧ c ≤ 122)) :
    enCaser s = capitalize (s.map asciiLower) := by
  cases s with
  | nil => rfl
  | cons c t =>
    obtain ⟨h1, h2, h3, -, -, h6⟩ := letter_facts c (h c (by simp))
    rw [enCaser, titleLoop]
    simp only [h1, h2, Bool.and_false, if_true, h3, Bool.false_eq_true, if_false, List.map_cons,
      capitalize, h6]
    rw [titleLoop_letters_mid t false (fun x hx => h x (by simp [hx]))]

theorem ToCamel_capitalize (w : List Nat) (h : ∀ c ∈ w, 97 ≤ c ∧ c ≤ 122) :
    ToCamel (capitalize w) = capitalize w := by
  unfold ToCamel
  rw [trimSpace_of_no_space]
  · have := toCamelLoop_word w (capitalize w) [] true false true h (Or.inr rfl) (Or.inl rfl)
      (by simp)
    simpa [toCamelLoop] using this
  · intro x hx
    exact isSpace_of_letterish x (mem_capitalize w x h hx)

theorem map_asciiLower_lower (s : List Nat)
    (h : ∀ c ∈ s, (65 ≤ c ∧ c ≤ 90) ∨ (97 ≤ c ∧ c ≤ 122)) :
    ∀ c ∈ s.map asciiLower, 97 ≤ c ∧ c ≤ 122 := by
  intro c hc
  simp only [List.mem_map] at hc
  obtain ⟨a, ha, rfl⟩ := hc
  exact (letter_facts a (h a ha)).2.2.2.2.1

/-- The normal form of a word of ASCII letters, as a type name and as a
value: first letter in upper case, the other letters in lower case. -/
theorem normalize_letters (s : List Nat)
    (h : ∀ c ∈ s, (65 ≤ c ∧ c ≤ 90) ∨ (97 ≤ c ∧ c ≤ 122)) :
    normalizeName s = capitalize (s.map asciiLower) ∧
      normalize s = capitalize (s.map asciiLower) := by
  have hsp : trimSpace s = s := by
    apply trimSpace_of_no_space
    intro x hx
    apply isSpace_of_letterish
    have := h x hx
    omega
  unfold normalizeName normalize
  rw [hsp, enCaser_letters s h, ToCamel_capitalize _ (map_asciiLower_lower s h)]
  exact ⟨rfl, rfl⟩

theorem capitalize_letters (w : List Nat) (h : ∀ c ∈ w, 97 ≤ c ∧ c ≤ 122) :
    (∀ c ∈ capitalize w, (65 ≤ c ∧ c ≤ 90) ∨ (97 ≤ c ∧ c ≤ 122)) ∧
      (capitalize w).map asciiLower = w := by
  cases w with
  | nil => simp [capitalize]
  | cons a t =>
    have ha := h a (by simp)
    have hup : asciiUpper a = a - 32 := by simp [asciiUpper, ha.1, ha.2]
    constructor
    · intro c hc
      simp only [capitalize, List.mem_cons] at hc
      rcases hc with rfl | hc
      · rw [hup]; omega
      · exact Or.inr (h c (by simp [hc]))
    · simp only [capitalize, List.map_cons, hup]
      have e1 : asciiLower (a - 32) = a := by
        unfold asciiLower
        rw [if_pos (by omega)]; omega
      have e2 : t.map asciiLower = t := by
        have : ∀ x ∈ t, asciiLower x = x := by
          intro x hx
          have := h x (by simp [hx])
          unfold asciiLower
          rw [if_neg (by omega)]
        calc t.map asciiLower = t.map id := List.map_congr_left this
          _ = t := List.map_id t
      rw [e1, e2]

/-- C5 (counterexample): normalisation is not idempotent on multi-word
results.  `order_status` normalises to `OrderStatus`, which normalises to
`Orderstatus`; `'on hold'` normalises to `OnHold`, which normalises to
`Onhold`. -/
theorem normalize_twice_differs :
    normalizeName (ascii "order_status") = ascii "OrderStatus" ∧
    normalizeName (normalizeName (ascii "order_status")) ≠ normalizeName (ascii "order_status") ∧
    normalize (ascii "'on hold'") = ascii "OnHold" ∧
    normalize (normalize (ascii "'on hold'")) ≠ normalize (ascii "'on hold'") := by
  decide

/-! ## Every record has a value -/

theorem splitComma_ne_nil (s : List Nat) : splitComma s ≠ [] := by
  cases s with
  | nil => simp [splitComma]
  | cons c t =>
    unfold splitComma
    split_ifs
    · simp
    · split <;> simp

theorem mainLoop_values_ne_nil (pkg : List Nat) (fuel : Nat) (buffer : List Nat) (count : Nat)
    (input : List Nat) (d : TemplateData)
    (hd : d ∈ (mainLoop pkg fuel buffer count input).emitted) : d.Values ≠ [] := by
  induction fuel generalizing buffer count input with
  | zero => simp [mainLoop] at hd
  | succ n ih =>
    simp only [mainLoop] at hd
    rcases hr : readRune input with _ | ⟨c, rest⟩
    · simp [hr] at hd
    · simp only [hr] at hd
      split_ifs at hd
      · exact ih _ _ _ hd
      · exact ih _ _ _ hd
      · rcases hs : skipComment rest.length buffer rest with _ | rest1
        · simp [hs] at hd
        · simp only [hs] at hd
          exact ih _ _ _ hd
      · simp at hd
      · rcases hf : findSubmatch (readStatement rest.length (buffer ++ [c]) rest).1
          with _ | ⟨name, values⟩
        · simp only [hf, Outcome.block] at hd
          exact ih _ _ _ hd
        · simp only [hf, Outcome.block, Outcome.emit, List.mem_cons] at hd
          rcases hd with rfl | hd
          · simp [TransforEnums, splitComma_ne_nil]
          · exact ih _ _ _ hd
      · exact ih _ _ _ hd
      · exact ih _ _ _ hd

/-- C6: for every input, every record handed to the emitter has at least one
element in Values. -/
theorem emitted_values_nonempty (pkg input : List Nat) (d : TemplateData)
    (hd : d ∈ (run pkg input).emitted) : d.Values ≠ [] :=
  mainLoop_values_ne_nil pkg _ _ _ _ d hd

/-- An instance of `emitted_values_nonempty`: the record of a statement whose
value list is a single space has the one value `""`. -/
theorem emitted_values_nonempty_witness :
    (TemplateData.mk [] (ascii "A") [ascii ""] true).Values ≠ [] :=
  emitted_values_nonempty [] (ascii "CREATE TYPE a AS ENUM ( );")
    (TemplateData.mk [] (ascii "A") [ascii ""] true) (by decide)

/-! ## Comments where the buffer is empty, and comments elsewhere -/

set_option maxRecDepth 100000 in
/-- C7 (counterexample): a line comment that follows the text of a statement
on the same line is not discarded.  In
`CREATE TYPE a AS ENUM ('x') -- CREATE TYPE b AS ENUM ('y');` the comment is
part of the raw block and the record `B` comes out of the comment; without the
comment the same input yields no record. -/
theorem line_comment_after_statement_text_is_scanned :
    (run [] (ascii "CREATE TYPE a AS ENUM ('x') -- CREATE TYPE b AS ENUM ('y');\n")).blocks
      = [ascii "CREATE TYPE a AS ENUM ('x') -- CREATE TYPE b AS ENUM ('y');"] ∧
    (run [] (ascii "CREATE TYPE a AS ENUM ('x') -- CREATE TYPE b AS ENUM ('y');\n")).emitted
      = [{ PkgName := [], TypeName := ascii "B", Values := [ascii "Y"], FirstType := true }] ∧
    (run [] (ascii "CREATE TYPE a AS ENUM ('x') \n")).emitted = [] := by
  decide

/-- C7 (as amended): a line comment that starts where the buffer is empty, that
is at the start of the input or after any sequence of white space, comments
and well-formed enum statements, and whose newline is within the bytes the
reader holds, contributes nothing, whatever it contains: the run on the input
with the comment is the run on the input without it, raw blocks, records and
end status. -/
theorem idle_line_comment_ignored (pkg : List Nat) (items : List Item) (c rest : List Nat)
    (hitems : ∀ it ∈ items, it.wellFormed = true)
    (h10 : 10 ∉ c) (hlen : c.length + 2 ≤ readerSize) :
    run pkg (itemsText items ++ (45 :: 45 :: (c ++ 10 :: rest)))
      = run pkg (itemsText items ++ rest) := by
  unfold run
  rw [scan_items pkg 0 items _ hitems, scan_items pkg 0 items rest hitems]
  have h10b : 10 ∉ 45 :: c := by
    simp only [List.mem_cons, not_or]
    exact ⟨by norm_num, h10⟩
  have := scan_line_comment pkg (0 + (statementsOf items).length) (45 :: c) rest h10b
    (by simp only [List.length_cons]; omega)
  rw [List.cons_append] at this
  rw [this]

set_option maxRecDepth 100000 in
/-- An instance of `idle_line_comment_ignored`: a comment that holds a whole
statement, after a statement and a space. -/
theorem idle_line_comment_ignored_witness :
    run [] (itemsText [Item.statement (EnumStmt.mk (ascii "a") [32] (ascii "'x'")), Item.space 32]
        ++ (45 :: 45 :: (ascii " CREATE TYPE b AS ENUM ('y');" ++ 10 :: ascii "CREATE TYPE c AS ENUM ('z');")))
      = run [] (itemsText [Item.statement (EnumStmt.mk (ascii "a") [32] (ascii "'x'")), Item.space 32]
        ++ ascii "CREATE TYPE c AS ENUM ('z');") :=
  idle_line_comment_ignored []
    [Item.statement (EnumStmt.mk (ascii "a") [32] (ascii "'x'")), Item.space 32]
    (ascii " CREATE TYPE b AS ENUM ('y');") (ascii "CREATE TYPE c AS ENUM ('z');")
    (by decide) (by decide) (by decide)

set_option maxRecDepth 100000 in
/-- C8 (counterexample): a block comment inside a CREATE TYPE statement is not
elided.  `CREATE TYPE a AS ENUM ('x' /* c */);` is one raw block that holds the
comment and yields no record, while the same statement without the comment
yields the record `A`; and a semicolon inside such a comment ends the raw
block. -/
theorem block_comment_inside_statement_is_kept :
    (run [] (ascii "CREATE TYPE a AS ENUM ('x' /* c */);")).blocks
      = [ascii "CREATE TYPE a AS ENUM ('x' /* c */);"] ∧
    (run [] (ascii "CREATE TYPE a AS ENUM ('x' /* c */);")).emitted = [] ∧
    (run [] (ascii "CREATE TYPE a AS ENUM ('x' );")).emitted
      = [{ PkgName := [], TypeName := ascii "A", Values := [ascii "X"], FirstType := true }] ∧
    (run [] (ascii "CREATE TYPE a AS ENUM ('x' /* ; */);")).blocks
      = [ascii "CREATE TYPE a AS ENUM ('x' /* ;", ascii "CREATE TYPE a AS ENUM ('x' /* ; */);"] := by
  decide

/-! ## A comment line longer than the buffer of the reader -/

/-- `ReadLine` on a line that does not end within the buffer of the reader:
only the `readerSize` bytes of the buffer are consumed. -/
theorem readLine_long (w r : List Nat) (hw : w.length = readerSize) (h10 : 10 ∉ w)
    (h13 : 13 ∉ w) : readLine (w ++ r) = r := by
  unfold readLine
  have htake : (w ++ r).take readerSize = w := by
    rw [← hw, List.take_left']
    rfl
  have hlast : w.getLast? ≠ some 13 := fun h => h13 (List.mem_of_getLast?_eq_some h)
  simp only [htake]
  rw [if_neg h10, if_neg (by simp only [List.length_append]; omega), if_neg hlast, ← hw,
    List.drop_left']
  rfl

/-- With an empty buffer, `--` and a comment of fewer than `readerSize - 1`
bytes with its newline are discarded (the part of C9 that holds). -/
theorem short_line_comment_ignored (pkg : List Nat) (c rest : List Nat) (h10 : 10 ∉ c)
    (hlen : c.length + 2 ≤ readerSize) :
    run pkg (45 :: 45 :: (c ++ 10 :: rest)) = run pkg rest := by
  have h10b : 10 ∉ 45 :: c := by
    simp only [List.mem_cons, not_or]
    exact ⟨by norm_num, h10⟩
  have := scan_line_comment pkg 0 (45 :: c) rest h10b (by simp only [List.length_cons]; omega)
  rw [List.cons_append] at this
  exact this

/-- An instance of `short_line_comment_ignored`: the example of the claim. -/
theorem short_line_comment_ignored_witness :
    run [] (45 :: 45 :: (ascii " comment" ++ 10 :: ascii "CREATE TYPE color AS ENUM ('red','green','blue');"))
      = run [] (ascii "CREATE TYPE color AS ENUM ('red','green','blue');") :=
  short_line_comment_ignored [] (ascii " comment")
    (ascii "CREATE TYPE color AS ENUM ('red','green','blue');") (by decide) (by decide)

set_option maxRecDepth 100000 in
/-- C9 (the code at the failing input): a comment line `--`, 4100 spaces and
the text `CREATE TYPE b AS ENUM ('y');`, closed by a newline, with nothing
after it.  `ReadLine` consumes 4096 bytes of the line only; the rest of the
comment is scanned and yields the record `B`, while the run on what follows
the comment line (nothing) yields no record.  The example of the claim
holds. -/
theorem long_comment_line_is_scanned :
    (run [] (45 :: 45 :: (List.replicate 4100 32
        ++ (ascii "CREATE TYPE b AS ENUM ('y');" ++ 10 :: [])))).emitted
      = [{ PkgName := [], TypeName := ascii "B", Values := [ascii "Y"], FirstType := true }] ∧
    (run [] []).emitted = [] ∧
    (run [] (ascii "-- comment\nCREATE TYPE color AS ENUM ('red','green','blue');")).emitted
      = [{ PkgName := [], TypeName := ascii "Color",
           Values := [ascii "Red", ascii "Green", ascii "Blue"], FirstType := true }] := by
  refine ⟨?_, by decide, by decide⟩
  have e : (45 :: 45 :: (List.replicate 4100 32
        ++ (ascii "CREATE TYPE b AS ENUM ('y');" ++ 10 :: [])))
      = 45 :: ((45 :: List.replicate 4095 32)
        ++ (List.replicate 5 32 ++ (ascii "CREATE TYPE b AS ENUM ('y');" ++ 10 :: []))) := by
    have h4100 : (4100 : Nat) = 4095 + 5 := by norm_num
    rw [h4100, List.replicate_add]
    simp only [List.cons_append, List.append_assoc]
  have hmem : ∀ x ∈ (45 :: List.replicate 4095 32), x = 45 ∨ x = 32 := by
    intro x hx
    simp only [List.mem_cons, List.mem_replicate] at hx
    omega
  rw [run, e, scan_dash, readLine_long _ _
    (by simp only [List.length_cons, List.length_replicate, readerSize])
    (fun h => by have := hmem 10 h; omega) (fun h => by have := hmem 13 h; omega)]
  decide

/-! ## A statement that is not terminated -/

theorem matchLit_suffix (lit s s2 : List Nat) (h : matchLit lit s = some s2) :
    s2 <:+ s := by
  induction lit generalizing s with
  | nil =>
    cases s <;> simp [matchLit] at h <;> subst h <;> exact List.suffix_refl _
  | cons l ls ih =>
    cases s with
    | nil => simp [matchLit] at h
    | cons r rs =>
      simp only [matchLit] at h
      split_ifs at h
      exact (ih rs h).trans (List.suffix_cons r rs)

theorem matchLit_close (x s2 : List Nat) (h : matchLit [41, 59] x = some s2) : 59 ∈ x := by
  rcases x with _ | ⟨a, _ | ⟨b, t⟩⟩
  · simp [matchLit] at h
  · simp only [matchLit] at h
    split_ifs at h
  · simp only [matchLit] at h
    split_ifs at h with h1 h2
    have hb : b = 59 := by
      simp only [foldMatches, asciiUpper, Bool.or_eq_true, decide_eq_true_eq, Bool.and_eq_true] at h2
      split_ifs at h2 <;> omega
    simp [hb]

/-- A match of the pattern ends with a semicolon. -/
theorem matchHere_none (s : List Nat) (h : 59 ∉ s) : matchHere s = none := by
  by_contra hne
  obtain ⟨m, hm⟩ := Option.ne_none_iff_exists'.mp hne
  unfold matchHere at hm
  rcases h1 : matchLit (ascii "CREATE TYPE ") s with _ | s1
  · simp [h1] at hm
  · simp only [h1] at hm
    split_ifs at hm
    rcases h2 : matchLit (ascii " AS ENUM") (s1.dropWhile isWordRune) with _ | s2
    · simp [h2] at hm
    · simp only [h2] at hm
      rcases h3 : matchLit (ascii "(") (s2.dropWhile isPatternSpace) with _ | s3
      · simp [h3] at hm
      · simp only [h3] at hm
        split_ifs at hm
        rcases h4 : matchLit (ascii ");") (s3.dropWhile isValueRune) with _ | s4
        · simp [h4] at hm
        · rw [ascii_close] at h4
          have m4 := matchLit_close _ _ h4
          have suf : s3.dropWhile isValueRune <:+ s :=
            (List.dropWhile_suffix _).trans
              ((matchLit_suffix _ _ _ h3).trans
                ((List.dropWhile_suffix _).trans
                  ((matchLit_suffix _ _ _ h2).trans
                    ((List.dropWhile_suffix _).trans (matchLit_suffix _ _ _ h1)))))
          exact h (suf.subset m4)

theorem findSubmatch_none (s : List Nat) (h : 59 ∉ s) : findSubmatch s = none := by
  induction s with
  | nil => simpa [findSubmatch] using matchHere_none [] h
  | cons r rs ih =>
    simp only [findSubmatch, matchHere_none _ h]
    exact ih (fun hm => h (by simp [hm]))

/-- The statement loop on an input without a semicolon reads all of it and
writes no semicolon. -/
theorem readStatement_no_semicolon (n : Nat) (tail buffer : List Nat) (hn : tail.length ≤ n)
    (h : 59 ∉ tail) (hb : 59 ∉ buffer) :
    (readStatement tail.length buffer tail).2 = [] ∧
      59 ∉ (readStatement tail.length buffer tail).1 := by
  induction n generalizing tail buffer with
  | zero =>
    have : tail = [] := List.length_eq_zero.mp (by omega)
    subst this
    simpa [readStatement] using hb
  | succ n ih =>
    rcases tail with _ | ⟨b, t⟩
    · simpa [readStatement] using hb
    · obtain ⟨r, k, hr, hk, hlt, hge, -⟩ := readRune_cons b t
      rw [readStatement_eq, hr]
      have hb59 : b ≠ 59 := fun e => h (by simp [e])
      have hr59 : r ≠ 59 := by
        intro e
        by_cases hb128 : b < 128
        · have := (hlt hb128).1; omega
        · have := hge (by omega); omega
      simp only
      rw [if_neg hr59]
      apply ih
      · simp only [List.length_drop, List.length_cons] at hn ⊢; omega
      · intro hm
        exact h (List.mem_cons_of_mem _ (List.mem_of_mem_drop hm))
      · simp only [List.mem_append, List.mem_singleton, not_or]
        exact ⟨hb, fun e => hr59 e.symm⟩

/-- C10: for every input that, after leading white space, begins with
`CREATE TYPE` and holds no semicolon, the run reaches the end of the input
without a panic and hands no record to the emitter. -/
theorem unterminated_statement_yields_nothing (pkg ws tail : List Nat)
    (hws : ∀ r ∈ ws, isSpace r = true) (h : 59 ∉ tail) :
    (run pkg (utf8 ws ++ (ascii "CREATE TYPE" ++ tail))).emitted = [] ∧
      (run pkg (utf8 ws ++ (ascii "CREATE TYPE" ++ tail))).status = Status.finished := by
  obtain ⟨h1, h2⟩ := readStatement_no_semicolon tail.length tail
    [67, 82, 69, 65, 84, 69, 32, 84, 89, 80, 69] (le_refl _) h (by decide)
  rw [run, scan_spaces pkg 0 ws _ hws, ascii_create_type]
  simp only [List.cons_append, List.nil_append]
  rw [scan_create_type, findSubmatch_none _ h2]
  simp only [h1, scan_nil]
  exact ⟨rfl, rfl⟩

set_option maxRecDepth 100000 in
/-- An instance of `unterminated_statement_yields_nothing`: a statement cut
before its closing parenthesis. -/
theorem unterminated_statement_yields_nothing_witness :
    (run [] (utf8 [10, 32] ++ (ascii "CREATE TYPE" ++ ascii " mood AS ENUM ('sad', 'ok')"))).emitted = [] ∧
      (run [] (utf8 [10, 32] ++ (ascii "CREATE TYPE" ++ ascii " mood AS ENUM ('sad', 'ok')"))).status
        = Status.finished :=
  unterminated_statement_yields_nothing [] [10, 32] (ascii " mood AS ENUM ('sad', 'ok')")
    (by decide) (by decide)

/-- An instance of `mainLoop_terminates`: a run on a short input. -/
theorem mainLoop_terminates_witness :
    (mainLoop [] 4 [] 0 (ascii "a b")).status ≠ Status.outOfFuel :=
  mainLoop_terminates [] 4 [] 0 (ascii "a b") (by decide)

/-! ## The generated file of the repository -/

set_option maxRecDepth 100000 in
/-- The identifiers of `types.go`, the generated file kept in the repository
(type `OperationStatus`, constants `OperationStatusPending`,
`OperationStatusOnGoing`, ...), are the normal forms the model gives for the
enum `operation_status` with the values `PENDING`, `ON GOING`, `COMPLETED`,
`POSTPONED`, `CANCELLED`. -/
theorem operation_status_record :
    (run [] (ascii ("CREATE TYPE operation_status AS ENUM " ++
        "('PENDING', 'ON GOING', 'COMPLETED', 'POSTPONED', 'CANCELLED');"))).emitted
      = [{ PkgName := [], TypeName := ascii "OperationStatus",
           Values := [ascii "Pending", ascii "OnGoing", ascii "Completed", ascii "Postponed",
             ascii "Cancelled"],
           FirstType := true }] := by
  decide

/-! ## Inputs without `CREATE TYPE` -/

theorem startsCreateType_facts (s : List Nat) (h : startsCreateType s = true) :
    11 ≤ s.length ∧ ∀ x ∈ s.take 11, x < 128 := by
  simp only [startsCreateType, decide_eq_true_eq] at h
  constructor
  · have := congrArg List.length h
    simp only [List.length_map, List.length_take, ascii_create_type, List.length_cons,
      List.length_nil] at this
    omega
  · intro x hx
    have hm : asciiUpper x ∈ (s.take 11).map asciiUpper := List.mem_map_of_mem _ hx
    rw [h, ascii_create_type] at hm
    simp only [List.mem_cons, List.mem_singleton, List.mem_nil_iff, or_false] at hm
    unfold asciiUpper at hm
    split_ifs at hm <;> omega

theorem startsCreateType_append (s c : List Nat) (h : startsCreateType s = true) :
    startsCreateType (s ++ c) = true := by
  have hl := (startsCreateType_facts s h).1
  simp only [startsCreateType, decide_eq_true_eq] at h ⊢
  rw [List.take_append_of_le_length hl]
  exact h

theorem mentions_append_right (l c : List Nat) (h : mentionsCreateType l = true) :
    mentionsCreateType (l ++ c) = true := by
  induction l with
  | nil => simp [mentionsCreateType] at h
  | cons b t ih =>
    simp only [mentionsCreateType, Bool.or_eq_true, List.cons_append] at h ⊢
    rcases h with h | h
    · exact Or.inl (startsCreateType_append (b :: t) c h)
    · exact Or.inr (ih h)

theorem mentions_append_left (a l : List Nat) (h : mentionsCreateType l = true) :
    mentionsCreateType (a ++ l) = true := by
  induction a with
  | nil => exact h
  | cons b t ih => simp [mentionsCreateType, ih]

theorem mentions_of_suffix {t l : List Nat} (hs : t <:+ l) (h : mentionsCreateType t = true) :
    mentionsCreateType l = true := by
  obtain ⟨a, rfl⟩ := hs
  exact mentions_append_left a t h

/-- The text `CREATE TYPE` occurs in a list exactly when a sublist of
consecutive elements is `CREATE TYPE` up to the case of its letters. -/
theorem mentionsCreateType_iff (l : List Nat) :
    mentionsCreateType l = true ↔ ∃ p, p <:+: l ∧ p.map asciiUpper = ascii "CREATE TYPE" := by
  constructor
  · intro h
    induction l with
    | nil => simp [mentionsCreateType] at h
    | cons b t ih =>
      simp only [mentionsCreateType, Bool.or_eq_true] at h
      rcases h with h | h
      · refine ⟨(b :: t).take 11, (List.take_prefix _ _).isInfix, ?_⟩
        simpa [startsCreateType] using h
      · obtain ⟨p, hp, hm⟩ := ih h
        exact ⟨p, hp.trans (List.suffix_cons b t).isInfix, hm⟩
  · rintro ⟨p, ⟨a, c, rfl⟩, hm⟩
    have hl : p.length = 11 := by
      have := congrArg List.length hm
      simpa [ascii_create_type] using this
    have hs : startsCreateType p = true := by
      simp only [startsCreateType, decide_eq_true_eq]
      rw [List.take_of_length_le (by omega)]
      exact hm
    have hp : mentionsCreateType p = true := by
      cases p with
      | nil => simp at hl
      | cons x t => simp [mentionsCreateType, hs]
    rw [List.append_assoc]
    exact mentions_append_left a _ (mentions_append_right p c hp)

/-- A rune that is not ASCII cuts every occurrence of `CREATE TYPE`. -/
theorem mentions_split (buf t : List Nat) (r : Nat) (hr : 128 ≤ r)
    (h : mentionsCreateType (buf ++ r :: t) = true) :
    mentionsCreateType buf = true ∨ mentionsCreateType t = true := by
  induction buf with
  | nil =>
    simp only [List.nil_append, mentionsCreateType, Bool.or_eq_true] at h
    rcases h with h | h
    · have := (startsCreateType_facts _ h).2 r (by simp)
      omega
    · exact Or.inr h
  | cons x buf ih =>
    have e1 : mentionsCreateType (x :: buf ++ r :: t)
        = (startsCreateType ((x :: buf) ++ r :: t) || mentionsCreateType (buf ++ r :: t)) := rfl
    have e2 : mentionsCreateType (x :: buf)
        = (startsCreateType (x :: buf) || mentionsCreateType buf) := rfl
    rw [e1, Bool.or_eq_true] at h
    rw [e2, Bool.or_eq_true]
    rcases h with h | h
    · by_cases hlen : 11 ≤ (x :: buf).length
      · left; left
        simp only [startsCreateType, decide_eq_true_eq] at h ⊢
        rw [List.take_append_of_le_length hlen] at h
        exact h
      · exfalso
        have hmem : r ∈ ((x :: buf) ++ r :: t).take 11 := by
          rw [List.take_append_eq_append_take]
          obtain ⟨j, hj⟩ : ∃ j, 11 - (x :: buf).length = j + 1 :=
            ⟨11 - (x :: buf).length - 1, by omega⟩
          rw [hj]
          simp
        have := (startsCreateType_facts _ h).2 r hmem
        omega
    · rcases ih h with h2 | h2
      · exact Or.inl (Or.inr h2)
      · exact Or.inr h2

/-- Reading a rune keeps the buffer followed by the input free of
`CREATE TYPE`. -/
theorem mentions_read (buf input rest : List Nat) (c : Nat)
    (hr : readRune input = some (c, rest))
    (h : mentionsCreateType (buf ++ input) = false) :
    mentionsCreateType ((buf ++ [c]) ++ rest) = false ∧ mentionsCreateType rest = false := by
  rcases input with _ | ⟨b, t⟩
  · simp [readRune] at hr
  · obtain ⟨r, k, hrk, -, hlt, hge, -⟩ := readRune_cons b t
    rw [hrk] at hr
    simp only [Option.some.injEq, Prod.mk.injEq] at hr
    obtain ⟨rfl, rfl⟩ := hr
    have hsuf : List.drop k t <:+ buf ++ b :: t :=
      (List.drop_suffix k t).trans ((List.suffix_cons b t).trans (List.suffix_append buf _))
    have hrest : mentionsCreateType (List.drop k t) = false := by
      by_contra hc
      rw [Bool.not_eq_false] at hc
      rw [mentions_of_suffix hsuf hc] at h
      cases h
    refine ⟨?_, hrest⟩
    by_cases hb : b < 128
    · obtain ⟨rfl, rfl⟩ := hlt hb
      simpa using h
    · have hr128 := hge (by omega)
      by_contra hc
      rw [Bool.not_eq_false, List.append_assoc, List.singleton_append] at hc
      rcases mentions_split buf _ r hr128 hc with h2 | h2
      · rw [mentions_append_right buf _ h2] at h
        cases h
      · rw [h2] at hrest
        cases hrest

theorem readRune_suffix {input rest : List Nat} {c : Nat}
    (h : readRune input = some (c, rest)) : rest <:+ input := by
  rcases input with _ | ⟨b, t⟩
  · simp [readRune] at h
  · obtain ⟨r, k, hr, -, -, -, -⟩ := readRune_cons b t
    rw [hr] at h
    simp only [Option.some.injEq, Prod.mk.injEq] at h
    rw [← h.2]
    exact (List.drop_suffix k t).trans (List.suffix_cons b t)

theorem readLine_suffix (input : List Nat) : readLine input <:+ input := by
  unfold readLine
  simp only
  split_ifs
  · exact (List.drop_suffix _ _).trans (List.dropWhile_suffix _)
  · exact List.nil_suffix
  · exact List.drop_suffix _ _
  · exact List.drop_suffix _ _

theorem skipComment_suffix (fuel : Nat) (buffer input rest : List Nat)
    (h : skipComment fuel buffer input = some rest) : rest <:+ input := by
  induction fuel generalizing buffer input with
  | zero => simp [skipComment] at h; subst h; exact List.suffix_refl _
  | succ n ih =>
    simp only [skipComment] at h
    rcases hr : readRune input with _ | ⟨c, r⟩
    · simp [hr] at h; subst h; exact List.suffix_refl _
    · have hs := readRune_suffix hr
      simp only [hr] at h
      rcases hg : buffer.getLast? with _ | last
      · simp [hg] at h
      · simp only [hg] at h
        split_ifs at h
        · simp at h; subst h; exact hs
        · exact (ih _ _ h).trans hs

theorem trimSpace_infix (l : List Nat) : trimSpace l <+: l.dropWhile isSpace := by
  have : trimSpace l = (l.dropWhile isSpace).rdropWhile isSpace := rfl
  rw [this]
  exact List.rdropWhile_prefix _ _

theorem mentions_of_starts_trim (l : List Nat) (h : startsCreateType (trimSpace l) = true) :
    mentionsCreateType l = true := by
  obtain ⟨c, hc⟩ := trimSpace_infix l
  have h1 : startsCreateType (l.dropWhile isSpace) = true := by
    rw [← hc]; exact startsCreateType_append _ c h
  have h2 : mentionsCreateType (l.dropWhile isSpace) = true := by
    rcases hd : l.dropWhile isSpace with _ | ⟨x, t⟩
    · rw [hd] at h1; simp [startsCreateType, ascii_create_type] at h1
    · rw [hd] at h1; simp [mentionsCreateType, h1]
  exact mentions_of_suffix (List.dropWhile_suffix _) h2

/-- While the buffer followed by the input left holds no `CREATE TYPE`, the
loop hands nothing to the pattern and nothing to the emitter. -/
theorem mainLoop_no_create_type (pkg : List Nat) (fuel : Nat) (buffer : List Nat) (count : Nat)
    (input : List Nat) (h : mentionsCreateType (buffer ++ input) = false) :
    (mainLoop pkg fuel buffer count input).blocks = [] ∧
      (mainLoop pkg fuel buffer count input).emitted = [] := by
  induction fuel generalizing buffer count input with
  | zero => simp [mainLoop]
  | succ n ih =>
    simp only [mainLoop]
    rcases hr : readRune input with _ | ⟨c, rest⟩
    · simp
    · obtain ⟨h1, h2⟩ := mentions_read buffer input rest c hr h
      have hnil : ∀ r2, r2 <:+ rest → mentionsCreateType ([] ++ r2) = false := by
        intro r2 hs
        by_contra hc
        rw [Bool.not_eq_false, List.nil_append] at hc
        rw [mentions_of_suffix hs hc] at h2
        cases h2
      simp only
      split_ifs with c1 c2 c3 c4 c5 c6
      · rw [byteLen_eq_zero] at c1
        rw [c1.1]
        exact ih _ _ _ (hnil rest (List.suffix_refl _))
      · rw [byteLen_eq_zero] at c2
        rw [c2.1]
        exact ih _ _ _ (hnil _ (readLine_suffix rest))
      · rcases hs : skipComment rest.length buffer rest with _ | rest1
        · simp
        · exact ih _ _ _ (hnil _ (skipComment_suffix _ _ _ _ hs))
      · simp
      · exfalso
        have := mentions_append_right _ rest (mentions_of_starts_trim _ c6)
        rw [this] at h1
        cases h1
      · exact ih _ _ _ h1
      · exact ih _ _ _ h1

/-- C11: for every input that holds no occurrence of the text `CREATE TYPE`
in any letter case, no raw block is produced and no record is handed to the
emitter; so for the input `CREATE TABLE foo (id int);`. -/
theorem no_create_type_no_record (pkg input : List Nat)
    (h : ¬∃ p, p <:+: input ∧ p.map asciiUpper = ascii "CREATE TYPE") :
    (run pkg input).emitted = [] ∧ (run pkg input).blocks = [] ∧
      (run pkg (ascii "CREATE TABLE foo (id int);")).emitted = [] := by
  have key : ∀ inp : List Nat, mentionsCreateType inp = false →
      (run pkg inp).blocks = [] ∧ (run pkg inp).emitted = [] := by
    intro inp hm
    exact mainLoop_no_create_type pkg _ [] 0 inp (by simpa using hm)
  have hm : mentionsCreateType input = false := by
    by_contra hc
    rw [Bool.not_eq_false] at hc
    exact h ((mentionsCreateType_iff input).mp hc)
  exact ⟨(key input hm).2, (key input hm).1, (key _ (by decide)).2⟩

/-- An instance of `no_create_type_no_record`: a table, a comment and a
view. -/
theorem no_create_type_no_record_witness :
    (run [] (ascii "CREATE TABLE t (id int);\n-- types\nCREATE VIEW v AS SELECT 1;")).emitted = [] :=
  (no_create_type_no_record [] (ascii "CREATE TABLE t (id int);\n-- types\nCREATE VIEW v AS SELECT 1;")
    (fun hc => by
      have := (mentionsCreateType_iff _).mpr hc
      revert this
      decide)).1

/-! ## More on the buffer: its length and its trimmed form -/

theorem byteLen_append (a b : List Nat) : byteLen (a ++ b) = byteLen a + byteLen b := by
  simp [byteLen]

theorem byteLen_ascii (l : List Nat) (h : ∀ x ∈ l, x < 128) : byteLen l = l.length := by
  induction l with
  | nil => rfl
  | cons a t ih =>
    have ha : runeLen a = 1 := by simp [runeLen, h a (by simp)]
    have := ih (fun x hx => h x (by simp [hx]))
    simp only [byteLen, List.map_cons, List.sum_cons, List.length_cons] at this ⊢
    omega

theorem length_le_byteLen (l : List Nat) : l.length ≤ byteLen l := by
  induction l with
  | nil => simp [byteLen]
  | cons a t ih =>
    have : 1 ≤ runeLen a := by unfold runeLen; split_ifs <;> omega
    simp only [byteLen, List.map_cons, List.sum_cons, List.length_cons] at ih ⊢
    omega

/-- Trimming keeps the first rune of a buffer that does not start with white
space. -/
theorem trimSpace_cons_nonspace (a : Nat) (l : List Nat) (ha : isSpace a = false) :
    ∃ l2, trimSpace (a :: l) = a :: l2 := by
  have e : trimSpace (a :: l) = (a :: l).rdropWhile isSpace := by
    unfold trimSpace
    rw [List.dropWhile_cons_of_neg (by simp [ha])]
    rfl
  obtain ⟨c, hc⟩ := List.rdropWhile_prefix isSpace (a :: l)
  rcases hd : (a :: l).rdropWhile isSpace with _ | ⟨x, t⟩
  · rw [List.rdropWhile_eq_nil_iff] at hd
    have := hd a (by simp)
    rw [ha] at this
    cases this
  · rw [hd] at hc
    simp only [List.cons_append, List.cons.injEq] at hc
    rw [e, hd, hc.1]
    exact ⟨t, rfl⟩

/-- Trimming keeps a front part of the buffer that neither starts nor ends
with white space. -/
theorem trimSpace_keeps_front (a b : Nat) (m q : List Nat) (ha : isSpace a = false)
    (hb : isSpace b = false) : ∃ q2, trimSpace (a :: (m ++ [b]) ++ q) = a :: (m ++ [b]) ++ q2 := by
  have aux : ∀ q : List Nat, ∃ q2,
      (a :: (m ++ [b]) ++ q).rdropWhile isSpace = a :: (m ++ [b]) ++ q2 := by
    intro q
    induction q using List.reverseRecOn with
    | nil =>
      refine ⟨[], ?_⟩
      have : a :: (m ++ [b]) ++ [] = (a :: m) ++ [b] := by simp
      rw [this, List.rdropWhile_concat_neg _ _ _ (by simp [hb])]
    | append_singleton q x ih =>
      obtain ⟨q2, hq2⟩ := ih
      by_cases hx : isSpace x = true
      · refine ⟨q2, ?_⟩
        rw [← List.append_assoc, List.rdropWhile_concat_pos _ _ _ hx, hq2]
      · refine ⟨q ++ [x], ?_⟩
        rw [← List.append_assoc, List.rdropWhile_concat_neg _ _ _ hx]
  have e : trimSpace (a :: (m ++ [b]) ++ q) = (a :: (m ++ [b]) ++ q).rdropWhile isSpace := by
    unfold trimSpace
    rw [List.cons_append, List.dropWhile_cons_of_neg (by simp [ha])]
    rfl
  rw [e]
  exact aux q

/-- Line 159 below 11 bytes, several times: ASCII bytes read after a buffer
that starts with neither white space nor `/` are written to the buffer. -/
theorem scan_pushes (pkg : List Nat) (a : Nat) (l : List Nat) (count : Nat) (bs rest : List Nat)
    (ha : isSpace a = false) (ha2 : a ≠ 47) (hbs : ∀ b ∈ bs, b < 128)
    (hlen : byteLen ((a :: l) ++ bs) < 11) :
    scan pkg (a :: l) count (bs ++ rest) = scan pkg ((a :: l) ++ bs) count rest := by
  induction bs generalizing l with
  | nil => simp
  | cons b bs ih =>
    have hb := hbs b (by simp)
    have h47 : trimSpace (a :: l) ≠ [47] := by
      obtain ⟨l2, hl2⟩ := trimSpace_cons_nonspace a l ha
      rw [hl2]
      intro hc
      simp only [List.cons.injEq] at hc
      exact ha2 hc.1
    have hl1 : byteLen ((a :: l) ++ [b]) < 11 := by
      have e : (a :: l) ++ b :: bs = ((a :: l) ++ [b]) ++ bs := by simp
      rw [e, byteLen_append] at hlen
      omega
    rw [List.cons_append, scan_push pkg (a :: l) count _ b hb (by simp) (fun hc => h47 hc.1) hl1]
    have := ih (l ++ [b]) (fun x hx => hbs x (by simp [hx])) (by simpa using hlen)
    simpa using this

/-! ## Keywords in any letter case -/

theorem foldMatches_upper (x : Nat) : foldMatches (asciiUpper x) x = true := by
  unfold foldMatches
  simp only [Bool.or_eq_true, Bool.and_eq_true, decide_eq_true_eq]
  unfold asciiUpper
  split_ifs <;> omega

theorem matchLit_fold (kw s : List Nat) : matchLit (kw.map asciiUpper) (kw ++ s) = some s := by
  induction kw with
  | nil => cases s <;> rfl
  | cons x kw ih => simp [matchLit, foldMatches_upper, ih]

/-- A byte whose upper case is a letter of a keyword or a space is that
letter, in one of its two cases, or the space. -/
theorem keyword_byte (x y : Nat) (h : asciiUpper x = y) (hy : y = 32 ∨ (65 ≤ y ∧ y ≤ 90)) :
    x < 128 ∧ x ≠ 42 ∧ x ≠ 45 ∧ x ≠ 47 ∧ x ≠ 59 ∧ (y ≠ 32 → isSpace x = false) ∧
      (y = 32 → x = 32) ∧ isWordRune 32 = false := by
  unfold asciiUpper at h
  refine ⟨?_, ?_, ?_, ?_, ?_, ?_, ?_, by decide⟩
  · split_ifs at h <;> omega
  · split_ifs at h <;> omega
  · split_ifs at h <;> omega
  · split_ifs at h <;> omega
  · split_ifs at h <;> omega
  · intro hne
    simp only [isSpace, Bool.or_eq_false_iff, decide_eq_false_iff_not, Bool.and_eq_false_imp,
      decide_eq_true_eq]
    split_ifs at h <;> omega
  · intro he
    split_ifs at h <;> omega

theorem keyword_bytes (kw lit : List Nat) (h : kw.map asciiUpper = lit)
    (hl : ∀ y ∈ lit, y = 32 ∨ (65 ≤ y ∧ y ≤ 90)) :
    ∀ x ∈ kw, x < 128 ∧ x ≠ 42 ∧ x ≠ 59 := by
  intro x hx
  have hm : asciiUpper x ∈ lit := by rw [← h]; exact List.mem_map_of_mem _ hx
  obtain ⟨h1, h2, -, -, h5, -, -, -⟩ := keyword_byte x _ rfl (hl _ hm)
  exact ⟨h1, h2, h5⟩

theorem create_type_letters : ∀ y ∈ ascii "CREATE TYPE", y = 32 ∨ (65 ≤ y ∧ y ≤ 90) := by decide

theorem as_enum_letters : ∀ y ∈ ascii " AS ENUM", y = 32 ∨ (65 ≤ y ∧ y ≤ 90) := by decide

/-- Lines 159-178 for any letter case: eleven bytes that are `CREATE TYPE` up
to the case of the letters, read with an empty buffer, start the statement
loop. -/
theorem scan_create_type_any (pkg : List Nat) (count : Nat) (p t : List Nat)
    (hp : p.map asciiUpper = ascii "CREATE TYPE") :
    scan pkg [] count (p ++ t) =
      match findSubmatch (readStatement t.length p t).1 with
      | none =>
        Outcome.block (readStatement t.length p t).1
          (scan pkg (readStatement t.length p t).1 count (readStatement t.length p t).2)
      | some (name, values) =>
        Outcome.block (readStatement t.length p t).1
          (Outcome.emit
            { PkgName := pkg
              TypeName := normalizeName name
              Values := TransforEnums (splitComma values)
              FirstType := decide (count + 1 = 1) }
            (scan pkg [] (count + 1) (readStatement t.length p t).2)) := by
  have hbytes := keyword_bytes p _ hp create_type_letters
  have hlen : p.length = 11 := by
    have := congrArg List.length hp
    simpa [ascii_create_type] using this
  rcases p with _ | ⟨a, l⟩
  · simp at hlen
  rcases List.eq_nil_or_concat l with rfl | ⟨m, z, rfl⟩
  · simp at hlen
  rw [List.concat_eq_append] at hp hbytes hlen ⊢
  have hm : m.length = 9 := by simpa using hlen
  rw [ascii_create_type] at hp
  simp only [List.map_cons, List.map_append, List.map_nil, List.cons.injEq] at hp
  obtain ⟨ha, hrest⟩ := hp
  have hz : m.map asciiUpper = [82, 69, 65, 84, 69, 32, 84, 89, 80] ∧ [asciiUpper z] = [69] := by
    have e : ([82, 69, 65, 84, 69, 32, 84, 89, 80, 69] : List Nat)
        = [82, 69, 65, 84, 69, 32, 84, 89, 80] ++ [69] := rfl
    rw [e] at hrest
    exact List.append_inj' hrest rfl
  have hz2 : asciiUpper z = 69 := by simpa using hz.2
  obtain ⟨a1, -, a3, a4, -, a6, -, -⟩ := keyword_byte a 67 ha (Or.inr (by omega))
  obtain ⟨z1, z2, -, -, -, z6, -, -⟩ := keyword_byte z 69 hz2 (Or.inr (by omega))
  have ha6 := a6 (by omega)
  have hz6 := z6 (by omega)
  have hmb : ∀ x ∈ m, x < 128 := fun x hx => (hbytes x (by simp [hx])).1
  have hall : ∀ x ∈ a :: (m ++ [z]), x < 128 := fun x hx => (hbytes x hx).1
  have hbl : byteLen (a :: (m ++ [z])) = 11 := by
    rw [byteLen_ascii _ hall]; simpa using hm
  have hbl10 : byteLen ([a] ++ m) = 10 := by
    rw [byteLen_ascii _ (fun x hx => hall x (by
      simp only [List.singleton_append, List.mem_cons] at hx
      simp only [List.mem_cons, List.mem_append]
      tauto))]
    simpa using hm
  have e0 : (a :: (m ++ [z])) ++ t = a :: (m ++ (z :: t)) := by simp
  rw [e0, scan_push pkg [] count _ a a1 (fun _ => ⟨ha6, a3⟩) (by simp [trimSpace])
    (by simp only [List.nil_append]; rw [byteLen_ascii [a] (by simpa using a1)]; simp)]
  rw [List.nil_append, scan_pushes pkg a [] count m (z :: t) ha6 a4 hmb (by omega)]
  have h47 : trimSpace ([a] ++ m) ≠ [47] := by
    obtain ⟨l2, hl2⟩ := trimSpace_cons_nonspace a m ha6
    rw [List.singleton_append, hl2]
    intro hc
    simp only [List.cons.injEq] at hc
    exact a4 hc.1
  have hne : ¬byteLen ([a] ++ m) = 0 := by omega
  have e1 : ([a] ++ m) ++ [z] = a :: (m ++ [z]) := by simp
  rw [scan_eq, readRune_ascii z t z1]
  simp only
  rw [if_neg (fun hc => hne hc.1), if_neg (fun hc => hne hc.1), if_neg (fun hc => h47 hc.1), e1,
    trimSpace_ends a z m ha6 hz6, if_pos (by omega), if_neg (by omega), if_pos]
  simp only [startsCreateType, decide_eq_true_eq]
  have hlen2 : (a :: (m ++ [z])).length ≤ 11 := by omega
  rw [List.take_of_length_le hlen2, ascii_create_type]
  simp [ha, hz.1, hz2]

theorem kw2_head (kw2 : List Nat) (h : kw2.map asciiUpper = ascii " AS ENUM") :
    ∃ k, kw2 = 32 :: k := by
  rw [ascii_as_enum] at h
  rcases kw2 with _ | ⟨x, k⟩
  · simp at h
  · simp only [List.map_cons, List.cons.injEq] at h
    have := (keyword_byte x 32 h.1 (Or.inl rfl)).2.2.2.2.2.2.1 rfl
    exact ⟨k, by rw [this]⟩

theorem kw1_split (kw1 : List Nat) (h : kw1.map asciiUpper = ascii "CREATE TYPE ") :
    ∃ p, kw1 = p ++ [32] ∧ p.map asciiUpper = ascii "CREATE TYPE" := by
  rcases List.eq_nil_or_concat kw1 with rfl | ⟨p, z, rfl⟩
  · rw [ascii_create_type_sp] at h; simp at h
  · rw [List.concat_eq_append] at h ⊢
    have e : ascii "CREATE TYPE " = ascii "CREATE TYPE" ++ [32] := by decide
    rw [e, List.map_append] at h
    obtain ⟨h1, h2⟩ := List.append_inj' h rfl
    have hz : asciiUpper z = 32 := by simpa using h2
    have := (keyword_byte z 32 hz (Or.inl rfl)).2.2.2.2.2.2.1 rfl
    exact ⟨p, by rw [this], h1⟩

/-- The pattern matches a well-formed statement whatever the case of the
letters of its keywords, and captures its name and its value list. -/
theorem matchHere_textWith (s : EnumStmt) (kw1 kw2 : List Nat) (h : s.wellFormed = true)
    (h1 : kw1.map asciiUpper = ascii "CREATE TYPE ")
    (h2 : kw2.map asciiUpper = ascii " AS ENUM") :
    matchHere (s.textWith kw1 kw2) = some (s.name, s.values) := by
  obtain ⟨hn, hnw, hg, hv, hvw⟩ := (wellFormed_iff s).mp h
  obtain ⟨k, rfl⟩ := kw2_head kw2 h2
  have t1 := takeWhile_append_stop isWordRune s.name
    (k ++ (s.gap ++ (40 :: (s.values ++ [41, 59])))) 32
    (fun x hx => (hnw x hx).2) (by decide)
  have t2 := takeWhile_append_stop isPatternSpace s.gap (s.values ++ [41, 59]) 40 hg (by decide)
  have t3 := takeWhile_append_stop isValueRune s.values [59] 41 (fun x hx => (hvw x hx).2)
    (by decide)
  unfold matchHere EnumStmt.textWith
  rw [← h1, matchLit_fold]
  simp only [ascii_close, List.cons_append, List.nil_append] at t1 t2 t3 ⊢
  rw [t1.1, t1.2, if_neg hn]
  have e : (32 :: (k ++ (s.gap ++ 40 :: (s.values ++ [41, 59]))))
      = (32 :: k) ++ (s.gap ++ 40 :: (s.values ++ [41, 59])) := rfl
  rw [e, ← h2, matchLit_fold]
  simp only
  rw [t2.2]
  have e2 : (40 :: (s.values ++ [41, 59])) = ascii "(" ++ (s.values ++ [41, 59]) := rfl
  rw [e2, matchLit_append]
  simp only
  rw [t3.1, t3.2, if_neg hv]
  rfl

/-- C12: detection and matching do not depend on the case of the letters of
the keywords.  For every well-formed statement, writing `CREATE TYPE` and
`AS ENUM` with any mix of upper-case and lower-case ASCII letters gives one
raw block and the record of the statement as written in upper case. -/
theorem keywords_case_insensitive (pkg : List Nat) (s : EnumStmt) (kw1 kw2 : List Nat)
    (h : s.wellFormed = true)
    (h1 : kw1.map asciiUpper = ascii "CREATE TYPE ")
    (h2 : kw2.map asciiUpper = ascii " AS ENUM") :
    run pkg (s.textWith kw1 kw2)
      = { blocks := [s.textWith kw1 kw2], emitted := [s.decl pkg true],
          status := Status.finished } ∧
    (run pkg (s.textWith kw1 kw2)).emitted = (run pkg s.text).emitted := by
  have key : run pkg (s.textWith kw1 kw2)
      = { blocks := [s.textWith kw1 kw2], emitted := [s.decl pkg true],
          status := Status.finished } := by
    have hm := matchHere_textWith s kw1 kw2 h h1 h2
    obtain ⟨hn, hnw, hg, hv, hvw⟩ := (wellFormed_iff s).mp h
    obtain ⟨p, rfl, hp⟩ := kw1_split kw1 h1
    have hk2 := keyword_bytes kw2 _ h2 as_enum_letters
    have hsp : ∀ y, isPatternSpace y = true → y < 128 ∧ y ≠ 59 := by
      intro y hy
      simp only [isPatternSpace, Bool.or_eq_true, decide_eq_true_eq] at hy
      omega
    have htail : ∀ x ∈ 32 :: (s.name ++ (kw2 ++ (s.gap ++ (40 :: (s.values ++ [41]))))),
        x < 128 ∧ x ≠ 59 := by
      intro x hx
      simp only [List.mem_cons, List.mem_append, List.mem_singleton, List.mem_nil_iff,
        or_false] at hx
      rcases hx with rfl | hx | hx | hx | rfl | hx | rfl
      · decide
      · refine ⟨(hnw x hx).1, ?_⟩
        intro h59; subst h59
        have := (hnw 59 hx).2
        revert this; decide
      · exact ⟨(hk2 x hx).1, (hk2 x hx).2.2⟩
      · exact hsp x (hg x hx)
      · decide
      · refine ⟨(hvw x hx).1, ?_⟩
        intro h59; subst h59
        have := (hvw 59 hx).2
        revert this; decide
      · decide
    have e : s.textWith (p ++ [32]) kw2
        = p ++ ((32 :: (s.name ++ (kw2 ++ (s.gap ++ (40 :: (s.values ++ [41])))))) ++ 59 :: []) := by
      simp [EnumStmt.textWith, ascii_close]
    have e2 : p ++ (32 :: (s.name ++ (kw2 ++ (s.gap ++ (40 :: (s.values ++ [41])))))) ++ [59]
        = s.textWith (p ++ [32]) kw2 := by
      simp [EnumStmt.textWith, ascii_close]
    rw [run, e, scan_create_type_any pkg 0 p _ hp, readStatement_upto _ _ _ htail, e2]
    simp only
    rw [findSubmatch_of_matchHere _ _ hm]
    simp only [scan_nil]
    rw [← e]
    simp [Outcome.block, Outcome.emit, EnumStmt.decl]
  exact ⟨key, by rw [key, run_statement pkg s h]⟩

/-- An instance of `keywords_case_insensitive`: the statement
`Create Type mood as Enum ('sad', 'ok');`. -/
theorem keywords_case_insensitive_witness :
    run [] ((EnumStmt.mk (ascii "mood") [32] (ascii "'sad', 'ok'")).textWith
        (ascii "Create Type ") (ascii " as Enum"))
      = { blocks := [(EnumStmt.mk (ascii "mood") [32] (ascii "'sad', 'ok'")).textWith
            (ascii "Create Type ") (ascii " as Enum")],
          emitted := [(EnumStmt.mk (ascii "mood") [32] (ascii "'sad', 'ok'")).decl [] true],
          status := Status.finished } :=
  (keywords_case_insensitive [] (EnumStmt.mk (ascii "mood") [32] (ascii "'sad', 'ok'"))
    (ascii "Create Type ") (ascii " as Enum") (by decide) (by decide) (by decide)).1

/-! ## The values of a record -/

theorem splitComma_length (g : List Nat) : (splitComma g).length = g.count 44 + 1 := by
  induction g with
  | nil => rfl
  | cons c t ih =>
    unfold splitComma
    by_cases hc : c = 44
    · subst hc
      simp [ih]
    · rw [if_neg hc]
      have hcount : (c :: t).count 44 = t.count 44 := by
        rw [List.count_cons]
        simp [hc]
      rcases hs : splitComma t with _ | ⟨p, ps⟩
      · exact absurd hs (splitComma_ne_nil t)
      · rw [hs] at ih
        simp only [List.length_cons] at ih ⊢
        omega

theorem trimSpace_all_space (piece : List Nat) (h : ∀ c ∈ piece, isSpace c = true) :
    trimSpace piece = [] := by
  unfold trimSpace
  have : piece.dropWhile isSpace = [] := by
    rw [List.dropWhile_eq_nil_iff]
    exact h
  rw [this]
  rfl

theorem mainLoop_values_split (pkg : List Nat) (fuel : Nat) (buffer : List Nat) (count : Nat)
    (input : List Nat) (d : TemplateData)
    (hd : d ∈ (mainLoop pkg fuel buffer count input).emitted) :
    ∃ block name group, block ∈ (mainLoop pkg fuel buffer count input).blocks ∧
      findSubmatch block = some (name, group) ∧ d.TypeName = normalizeName name ∧
      d.Values = (splitComma group).map normalize := by
  induction fuel generalizing buffer count input with
  | zero => simp [mainLoop] at hd
  | succ n ih =>
    simp only [mainLoop] at hd ⊢
    rcases hr : readRune input with _ | ⟨c, rest⟩
    · simp [hr] at hd
    · simp only [hr] at hd ⊢
      split_ifs at hd ⊢
      · exact ih _ _ _ hd
      · exact ih _ _ _ hd
      · rcases hs : skipComment rest.length buffer rest with _ | rest1
        · simp [hs] at hd
        · simp only [hs] at hd ⊢
          exact ih _ _ _ hd
      · simp at hd
      · rcases hf : findSubmatch (readStatement rest.length (buffer ++ [c]) rest).1
          with _ | ⟨name, values⟩
        · simp only [hf, Outcome.block] at hd ⊢
          obtain ⟨b, nm, g, hb, h2⟩ := ih _ _ _ hd
          exact ⟨b, nm, g, List.mem_cons_of_mem _ hb, h2⟩
        · simp only [hf, Outcome.block, Outcome.emit, List.mem_cons] at hd ⊢
          rcases hd with rfl | hd
          · exact ⟨_, name, values, Or.inl rfl, hf, rfl, rfl⟩
          · obtain ⟨b, nm, g, hb, h2⟩ := ih _ _ _ hd
            exact ⟨b, nm, g, Or.inr hb, h2⟩
      · exact ih _ _ _ hd
      · exact ih _ _ _ hd

/-- C13: the Values of every record are the pieces of the captured value
group, split on commas and normalised, in order.  Their number is one more
than the number of commas of the group; a piece that is empty or white space
only is kept as the empty string, as after the trailing comma of
`ENUM ('a',)`, and duplicates are kept. -/
theorem values_split_and_normalised (pkg input : List Nat) (d : TemplateData)
    (hd : d ∈ (run pkg input).emitted) :
    (∃ block name group, block ∈ (run pkg input).blocks ∧
      findSubmatch block = some (name, group) ∧
      d.Values = (splitComma group).map normalize ∧
      d.Values.length = group.count 44 + 1) ∧
    (∀ piece : List Nat, (∀ c ∈ piece, isSpace c = true) → normalize piece = []) ∧
    (run pkg (ascii "CREATE TYPE t AS ENUM ('a',);")).emitted.map (fun r => r.Values)
      = [[ascii "A", ascii ""]] ∧
    (run pkg (ascii "CREATE TYPE t AS ENUM ('a', 'b' , 'a');")).emitted.map (fun r => r.Values)
      = [[ascii "A", ascii "B", ascii "A"]] := by
  refine ⟨?_, ?_, ?_, ?_⟩
  · obtain ⟨b, nm, g, hb, hf, -, hv⟩ := mainLoop_values_split pkg _ _ _ _ d hd
    exact ⟨b, nm, g, hb, hf, hv, by rw [hv, List.length_map, splitComma_length]⟩
  · intro piece hp
    unfold normalize
    rw [trimSpace_all_space piece hp]
    rfl
  · have e : ascii "CREATE TYPE t AS ENUM ('a',);"
        = (EnumStmt.mk (ascii "t") [32] (ascii "'a',")).text := by decide
    rw [e, run_statement pkg _ (by decide)]
    simp only [List.map_cons, List.map_nil, EnumStmt.decl]
    decide
  · have e : ascii "CREATE TYPE t AS ENUM ('a', 'b' , 'a');"
        = (EnumStmt.mk (ascii "t") [32] (ascii "'a', 'b' , 'a'")).text := by decide
    rw [e, run_statement pkg _ (by decide)]
    simp only [List.map_cons, List.map_nil, EnumStmt.decl]
    decide

set_option maxRecDepth 100000 in
/-- An instance of `values_split_and_normalised`: the record of
`CREATE TYPE t AS ENUM ('a', , 'a');`, whose middle piece is a space. -/
theorem values_split_and_normalised_witness :
    ∃ block name group,
      block ∈ (run [] (ascii "CREATE TYPE t AS ENUM ('a', , 'a');")).blocks ∧
      findSubmatch block = some (name, group) ∧
      (TemplateData.mk [] (ascii "T") [ascii "A", ascii "", ascii "A"] true).Values
        = (splitComma group).map normalize ∧
      (TemplateData.mk [] (ascii "T") [ascii "A", ascii "", ascii "A"] true).Values.length
        = group.count 44 + 1 :=
  (values_split_and_normalised [] (ascii "CREATE TYPE t AS ENUM ('a', , 'a');")
    (TemplateData.mk [] (ascii "T") [ascii "A", ascii "", ascii "A"] true) (by decide)).1

/-! ## A CREATE TYPE statement that the pattern does not match -/

/-- Lines 181-186: a statement that starts with `CREATE TYPE`, ends at its
first semicolon and is not matched by the pattern is one raw block, and the
loop goes on with the statement still in the buffer. -/
theorem scan_unmatched (pkg : List Nat) (count : Nat) (p mid rest : List Nat)
    (hp : p.map asciiUpper = ascii "CREATE TYPE") (hmid : ∀ b ∈ mid, b < 128 ∧ b ≠ 59)
    (hno : findSubmatch (p ++ mid ++ [59]) = none) :
    scan pkg [] count (p ++ mid ++ [59] ++ rest)
      = Outcome.block (p ++ mid ++ [59]) (scan pkg (p ++ mid ++ [59]) count rest) := by
  have e : p ++ mid ++ [59] ++ rest = p ++ (mid ++ 59 :: rest) := by simp
  rw [e, scan_create_type_any pkg count p _ hp, readStatement_upto mid p rest hmid]
  simp only
  rw [hno]

set_option maxRecDepth 100000 in
/-- C14 (the code at the failing input): after the composite type
`CREATE TYPE a AS (x int);`, which the pattern does not match, the buffer is
not reset.  The second raw block starts with the first statement and runs up
to the semicolon inside the comment line that follows, and the record `Z`
comes out of that comment; with an empty buffer the comment line would have
been skipped and `B` would have been the only record. -/
theorem buffer_kept_after_unmatched_statement :
    (run [] (ascii ("CREATE TYPE a AS (x int);\n-- CREATE TYPE z AS ENUM ('q');\n" ++
        "CREATE TYPE b AS ENUM ('y');"))).blocks
      = [ascii "CREATE TYPE a AS (x int);",
         ascii "CREATE TYPE a AS (x int);\n-- CREATE TYPE z AS ENUM ('q');",
         ascii "CREATE TYPE b AS ENUM ('y');"] ∧
    (run [] (ascii ("CREATE TYPE a AS (x int);\n-- CREATE TYPE z AS ENUM ('q');\n" ++
        "CREATE TYPE b AS ENUM ('y');"))).emitted
      = [{ PkgName := [], TypeName := ascii "Z", Values := [ascii "Q"], FirstType := true },
         { PkgName := [], TypeName := ascii "B", Values := [ascii "Y"], FirstType := false }] ∧
    (run [] (ascii ("-- CREATE TYPE z AS ENUM ('q');\n" ++
        "CREATE TYPE b AS ENUM ('y');"))).emitted
      = [{ PkgName := [], TypeName := ascii "B", Values := [ascii "Y"], FirstType := true }] := by
  decide

/-! ## The pattern reads no further than the first semicolon -/

theorem matchLit_semi (lit x y : List Nat) (hlit : ∀ l ∈ lit, foldMatches l 59 = false)
    (hx : 59 ∉ x) :
    (matchLit lit (x ++ 59 :: y) = none ∧ matchLit lit (x ++ [59]) = none) ∨
      ∃ x2, 59 ∉ x2 ∧ matchLit lit (x ++ 59 :: y) = some (x2 ++ 59 :: y) ∧
        matchLit lit (x ++ [59]) = some (x2 ++ [59]) := by
  induction lit generalizing x with
  | nil =>
    right
    refine ⟨x, hx, ?_, ?_⟩
    · cases x <;> rfl
    · cases x <;> rfl
  | cons l ls ih =>
    rcases x with _ | ⟨a, x⟩
    · left
      simp [matchLit, hlit l (by simp)]
    · have hx2 : 59 ∉ x := fun h => hx (by simp [h])
      simp only [List.cons_append, matchLit]
      by_cases hf : foldMatches l a = true
      · simp only [hf, if_true]
        exact ih x (fun q hq => hlit q (by simp [hq])) hx2
      · left
        simp [hf]

theorem while_semi (p : Nat → Bool) (x y : List Nat) (hp : p 59 = false) (hx : 59 ∉ x) :
    (x ++ 59 :: y).takeWhile p = (x ++ [59]).takeWhile p ∧
      ∃ x2, 59 ∉ x2 ∧ (x ++ 59 :: y).dropWhile p = x2 ++ 59 :: y ∧
        (x ++ [59]).dropWhile p = x2 ++ [59] := by
  induction x with
  | nil =>
    refine ⟨by simp [List.takeWhile_cons, hp], [], by simp, ?_, ?_⟩
    · simp [List.dropWhile_cons, hp]
    · simp [List.dropWhile_cons, hp]
  | cons a x ih =>
    have hx2 : 59 ∉ x := fun h => hx (by simp [h])
    obtain ⟨h1, x2, h2, h3, h4⟩ := ih hx2
    by_cases ha : p a = true
    · refine ⟨by simp [List.takeWhile_cons, ha, h1], x2, h2, ?_, ?_⟩
      · simp [List.dropWhile_cons, ha, h3]
      · simp [List.dropWhile_cons, ha, h4]
    · refine ⟨by simp [List.takeWhile_cons, ha], a :: x, hx, ?_, ?_⟩
      · simp [List.dropWhile_cons, ha]
      · simp [List.dropWhile_cons, ha]

theorem matchLit_close_semi (x y : List Nat) (hx : 59 ∉ x) :
    (matchLit [41, 59] (x ++ 59 :: y)).isSome = (matchLit [41, 59] (x ++ [59])).isSome := by
  rcases x with _ | ⟨a, _ | ⟨b, x⟩⟩
  · simp [matchLit, show foldMatches 41 59 = false by decide]
  · simp only [List.cons_append, List.nil_append, matchLit]
    by_cases hf : foldMatches 41 a = true
    · simp [hf, show foldMatches 59 59 = true by decide]
    · simp [hf]
  · have hb : b ≠ 59 := fun h => hx (by simp [h])
    have hfb : foldMatches 59 b = false := by
      unfold foldMatches
      simp only [Bool.or_eq_false_iff, decide_eq_false_iff_not, Bool.and_eq_false_imp,
        decide_eq_true_eq]
      unfold asciiUpper
      split_ifs <;> omega
    simp only [List.cons_append, matchLit]
    by_cases hf : foldMatches 41 a = true
    · simp [hf, hfb]
    · simp [hf]

/-- A match that starts at the first rune depends on the runes up to the
first semicolon only. -/
theorem matchHere_upto_semicolon (x y : List Nat) (hx : 59 ∉ x) :
    matchHere (x ++ 59 :: y) = matchHere (x ++ [59]) := by
  unfold matchHere
  rcases matchLit_semi (ascii "CREATE TYPE ") x y (by decide) hx with ⟨h1, h2⟩ | ⟨x1, hx1, h1, h2⟩
  · rw [h1, h2]
  rw [h1, h2]
  simp only
  obtain ⟨t1, x2, hx2, d1, d2⟩ := while_semi isWordRune x1 y (by decide) hx1
  rw [t1, d1, d2]
  split_ifs
  · rfl
  rcases matchLit_semi (ascii " AS ENUM") x2 y (by decide) hx2 with ⟨h3, h4⟩ | ⟨x3, hx3, h3, h4⟩
  · rw [h3, h4]
  rw [h3, h4]
  simp only
  obtain ⟨-, x4, hx4, d3, d4⟩ := while_semi isPatternSpace x3 y (by decide) hx3
  rw [d3, d4]
  rcases matchLit_semi (ascii "(") x4 y (by decide) hx4 with ⟨h5, h6⟩ | ⟨x5, hx5, h5, h6⟩
  · rw [h5, h6]
  rw [h5, h6]
  simp only
  obtain ⟨t2, x6, hx6, d5, d6⟩ := while_semi isValueRune x5 y (by decide) hx5
  rw [t2, d5, d6]
  split_ifs
  · rfl
  have hc := matchLit_close_semi x6 y hx6
  rw [ascii_close]
  rcases h7 : matchLit [41, 59] (x6 ++ 59 :: y) with _ | s7 <;>
    rcases h8 : matchLit [41, 59] (x6 ++ [59]) with _ | s8 <;>
    simp [h7, h8] at hc ⊢

theorem findSubmatch_cons_none (a : Nat) (t : List Nat) (h : findSubmatch (a :: t) = none) :
    matchHere (a :: t) = none ∧ findSubmatch t = none := by
  simp only [findSubmatch] at h
  rcases hm : matchHere (a :: t) with _ | m
  · rw [hm] at h
    exact ⟨rfl, h⟩
  · rw [hm] at h
    cases h

/-- After a statement that the pattern does not match, the leftmost match in
the buffer is the leftmost match in what follows the statement. -/
theorem findSubmatch_after_unmatched (o z : List Nat) (ho : 59 ∉ o)
    (hno : findSubmatch (o ++ [59]) = none) :
    findSubmatch (o ++ 59 :: z) = findSubmatch z := by
  induction o with
  | nil =>
    have h1 := (findSubmatch_cons_none 59 [] hno).1
    have h2 : matchHere (59 :: z) = matchHere [59] := matchHere_upto_semicolon [] z (by simp)
    show findSubmatch (59 :: z) = findSubmatch z
    rw [findSubmatch, h2, h1]
  | cons a o ih =>
    have ho2 : 59 ∉ o := fun h => ho (by simp [h])
    rw [List.cons_append] at hno
    obtain ⟨h1, h2⟩ := findSubmatch_cons_none a (o ++ [59]) hno
    have h3 : matchHere (a :: (o ++ 59 :: z)) = matchHere (a :: (o ++ [59])) :=
      matchHere_upto_semicolon (a :: o) z ho
    show findSubmatch (a :: (o ++ 59 :: z)) = findSubmatch z
    rw [findSubmatch, h3, h1]
    exact ih ho2 h2

theorem findSubmatch_spaces (ws z : List Nat) (hws : ∀ r ∈ ws, isSpace r = true) :
    findSubmatch (ws ++ z) = findSubmatch z := by
  induction ws with
  | nil => rfl
  | cons r ws ih =>
    have hr := hws r (by simp)
    have hm : matchHere (r :: (ws ++ z)) = none := by
      have hf : foldMatches 67 r = false := by
        unfold foldMatches
        simp only [isSpace, Bool.or_eq_true, decide_eq_true_eq, Bool.and_eq_true] at hr
        simp only [Bool.or_eq_false_iff, decide_eq_false_iff_not, Bool.and_eq_false_imp,
          decide_eq_true_eq]
        unfold asciiUpper
        split_ifs <;> omega
      simp [matchHere, ascii_create_type_sp, matchLit, hf]
    show findSubmatch (r :: (ws ++ z)) = findSubmatch z
    rw [findSubmatch, hm]
    exact ih (fun x hx => hws x (by simp [hx]))

/-- Lines 159-178 with the buffer still holding an unmatched statement: the
next rune read, unless it is a semicolon, starts the statement loop again. -/
theorem scan_resume (pkg : List Nat) (count : Nat) (p mid Y Y2 : List Nat) (c : Nat)
    (hp : p.map asciiUpper = ascii "CREATE TYPE")
    (hr : readRune Y = some (c, Y2)) (hc : c ≠ 59) :
    scan pkg (p ++ mid ++ [59]) count Y =
      match findSubmatch (readStatement Y.length (p ++ mid ++ [59]) Y).1 with
      | none =>
        Outcome.block (readStatement Y.length (p ++ mid ++ [59]) Y).1
          (scan pkg (readStatement Y.length (p ++ mid ++ [59]) Y).1 count
            (readStatement Y.length (p ++ mid ++ [59]) Y).2)
      | some (name, values) =>
        Outcome.block (readStatement Y.length (p ++ mid ++ [59]) Y).1
          (Outcome.emit
            { PkgName := pkg
              TypeName := normalizeName name
              Values := TransforEnums (splitComma values)
              FirstType := decide (count + 1 = 1) }
            (scan pkg [] (count + 1) (readStatement Y.length (p ++ mid ++ [59]) Y).2)) := by
  have hrs : readStatement Y.length (p ++ mid ++ [59]) Y
      = readStatement Y2.length (p ++ mid ++ [59] ++ [c]) Y2 := by
    rw [readStatement_eq, hr]
    simp only
    rw [if_neg hc]
  have hsp : startsCreateType p = true := by
    have hlen : p.length = 11 := by
      have := congrArg List.length hp
      simpa [ascii_create_type] using this
    simp only [startsCreateType, decide_eq_true_eq]
    rw [List.take_of_length_le (by omega)]
    exact hp
  rcases p with _ | ⟨a, p2⟩
  · simp [startsCreateType, ascii_create_type] at hsp
  have ha : asciiUpper a = 67 := by
    rw [ascii_create_type] at hp
    simp only [List.map_cons, List.cons.injEq] at hp
    exact hp.1
  have ha6 : isSpace a = false := (keyword_byte a 67 ha (Or.inr (by omega))).2.2.2.2.2.1 (by omega)
  have eB : (a :: p2) ++ mid ++ [59] = a :: ((p2 ++ mid) ++ [59]) := by simp
  have hlenB : 11 ≤ ((a :: p2) ++ mid ++ [59]).length := by
    have := (startsCreateType_facts _ hsp).1
    simp only [List.length_append, List.length_cons, List.length_nil] at this ⊢
    omega
  have h0 : ¬byteLen ((a :: p2) ++ mid ++ [59]) = 0 := by
    have := length_le_byteLen ((a :: p2) ++ mid ++ [59])
    omega
  have h47 : trimSpace ((a :: p2) ++ mid ++ [59]) ≠ [47] := by
    rw [eB, trimSpace_ends a 59 _ ha6 (by decide)]
    intro hcon
    have := congrArg List.length hcon
    rw [← eB] at this
    simp only [List.length_cons, List.length_nil] at this
    omega
  obtain ⟨q2, hq2⟩ := trimSpace_keeps_front a 59 (p2 ++ mid) [c] ha6 (by decide)
  rw [← eB] at hq2
  have hstart : startsCreateType ((a :: p2) ++ mid ++ [59] ++ q2) = true := by
    have : (a :: p2) ++ mid ++ [59] ++ q2 = (a :: p2) ++ (mid ++ [59] ++ q2) := by simp
    rw [this]
    exact startsCreateType_append _ _ hsp
  have hlen2 : ¬byteLen ((a :: p2) ++ mid ++ [59] ++ q2) < 11 := by
    have := length_le_byteLen ((a :: p2) ++ mid ++ [59] ++ q2)
    simp only [List.length_append] at this hlenB ⊢
    omega
  have hlen3 : 11 ≤ byteLen ((a :: p2) ++ mid ++ [59] ++ [c]) := by
    have := length_le_byteLen ((a :: p2) ++ mid ++ [59] ++ [c])
    simp only [List.length_append] at this hlenB ⊢
    omega
  rw [hrs, scan_eq, hr]
  simp only
  rw [if_neg (fun h => h0 h.1), if_neg (fun h => h0 h.1), if_neg (fun h => h47 h.1),
    if_pos hlen3, hq2, if_neg hlen2, if_pos hstart]

theorem readStatement_spaces (ws B X : List Nat) (hws : ∀ r ∈ ws, isSpace r = true) :
    readStatement (utf8 ws ++ X).length B (utf8 ws ++ X) = readStatement X.length (B ++ ws) X := by
  induction ws generalizing B with
  | nil => simp [utf8]
  | cons r ws ih =>
    have hr := hws r (by simp)
    have hrd := readRune_encode_space r (utf8 ws ++ X) hr
    have h59 : r ≠ 59 := by
      intro h; subst h; revert hr; decide
    have e : utf8 (r :: ws) ++ X = encodeRune r ++ (utf8 ws ++ X) := by simp [utf8]
    rw [e, readStatement_eq, hrd]
    simp only
    rw [if_neg h59, ih (B ++ [r]) (fun x hx => hws x (by simp [hx]))]
    simp

theorem text_ascii (s : EnumStmt) (h : s.wellFormed = true) :
    ∀ x ∈ [67, 82, 69, 65, 84, 69, 32, 84, 89, 80, 69] ++
      (32 :: (s.name ++ ([32, 65, 83, 32, 69, 78, 85, 77] ++ (s.gap ++ (40 :: (s.values ++ [41])))))),
      x < 128 ∧ x ≠ 59 := by
  intro x hx
  rw [List.mem_append] at hx
  rcases hx with hx | hx
  · revert x; decide
  · exact text_tail_ascii s h x hx

/-- A statement that starts with `CREATE TYPE`, ends at its first semicolon
and is not matched by the pattern, then white space, then a well-formed enum
statement: two raw blocks, the second from the start of the first statement,
and the record of the enum statement only. -/
theorem scan_unmatched_then_statement (pkg : List Nat) (count : Nat) (p mid ws : List Nat)
    (s : EnumStmt) (rest : List Nat)
    (hp : p.map asciiUpper = ascii "CREATE TYPE") (hmid : ∀ b ∈ mid, b < 128 ∧ b ≠ 59)
    (hno : findSubmatch (p ++ mid ++ [59]) = none)
    (hws : ∀ r ∈ ws, isSpace r = true) (hs : s.wellFormed = true) :
    scan pkg [] count (p ++ mid ++ [59] ++ (utf8 ws ++ (s.text ++ rest)))
      = Outcome.block (p ++ mid ++ [59])
          (Outcome.block (p ++ mid ++ [59] ++ ws ++ s.text)
            (Outcome.emit (s.decl pkg (decide (count + 1 = 1)))
              (scan pkg [] (count + 1) rest))) := by
  have hp59 : 59 ∉ p ++ mid := by
    intro hm
    rw [List.mem_append] at hm
    rcases hm with hm | hm
    · exact (keyword_bytes p _ hp create_type_letters 59 hm).2.2 rfl
    · exact (hmid 59 hm).2 rfl
  have hrs : readStatement (utf8 ws ++ (s.text ++ rest)).length (p ++ mid ++ [59])
      (utf8 ws ++ (s.text ++ rest)) = (p ++ mid ++ [59] ++ ws ++ s.text, rest) := by
    rw [readStatement_spaces ws _ _ hws]
    have e : s.text ++ rest = ([67, 82, 69, 65, 84, 69, 32, 84, 89, 80, 69] ++
        (32 :: (s.name ++ ([32, 65, 83, 32, 69, 78, 85, 77] ++
          (s.gap ++ (40 :: (s.values ++ [41]))))))) ++ 59 :: rest := by
      rw [text_split]; simp
    rw [e, readStatement_upto _ _ _ (text_ascii s hs), text_eq s]
    simp
  have hfind : findSubmatch (p ++ mid ++ [59] ++ ws ++ s.text) = some (s.name, s.values) := by
    have e : p ++ mid ++ [59] ++ ws ++ s.text = (p ++ mid) ++ 59 :: (ws ++ s.text) := by simp
    rw [e, findSubmatch_after_unmatched _ _ hp59 hno, findSubmatch_spaces ws _ hws]
    exact findSubmatch_of_matchHere _ _ (matchHere_text s hs)
  obtain ⟨c, Y2, hr, hc⟩ : ∃ c Y2, readRune (utf8 ws ++ (s.text ++ rest)) = some (c, Y2) ∧ c ≠ 59 := by
    rcases ws with _ | ⟨r, ws⟩
    · rw [text_split]
      exact ⟨67, _, readRune_ascii 67 _ (by norm_num), by norm_num⟩
    · have hr := hws r (by simp)
      refine ⟨r, utf8 ws ++ (s.text ++ rest), ?_, ?_⟩
      · have e : utf8 (r :: ws) ++ (s.text ++ rest) = encodeRune r ++ (utf8 ws ++ (s.text ++ rest)) := by
          simp [utf8]
        rw [e]
        exact readRune_encode_space r _ hr
      · intro h; subst h; revert hr; decide
  rw [scan_unmatched pkg count p mid _ hp hmid hno, scan_resume pkg count p mid _ Y2 c hp hr hc, hrs]
  simp only
  rw [hfind]
  simp only [EnumStmt.decl]

/-! ## A statement the pattern does not match, then an enum statement -/

theorem compositeText_eq (name body : List Nat) :
    compositeText name body
      = ascii "CREATE TYPE" ++ (32 :: (name ++ ([32, 65, 83, 32, 40] ++ (body ++ [41])))) ++ [59] := by
  have e1 : ascii " AS (" = [32, 65, 83, 32, 40] := by decide
  rw [compositeText, ascii_create_type_sp, ascii_create_type, e1, ascii_close]
  simp

/-! ## A lone dash with an empty buffer -/

/-- With an empty buffer, a lone `-` and a line of fewer than `readerSize`
bytes with its newline are discarded, whatever the line starts with (the part
of C16 that holds). -/
theorem lone_dash_skips_line (pkg : List Nat) (c rest : List Nat) (h10 : 10 ∉ c)
    (hlen : c.length < readerSize) :
    run pkg (45 :: (c ++ 10 :: rest)) = run pkg rest :=
  scan_line_comment pkg 0 c rest h10 hlen

/-- An instance of `lone_dash_skips_line`: the line
`-CREATE TYPE a AS ENUM ('x');` before a statement. -/
theorem lone_dash_skips_line_witness :
    run [] (45 :: (ascii "CREATE TYPE a AS ENUM ('x');" ++ 10 :: ascii "CREATE TYPE b AS ENUM ('y');"))
      = run [] (ascii "CREATE TYPE b AS ENUM ('y');") :=
  lone_dash_skips_line [] (ascii "CREATE TYPE a AS ENUM ('x');")
    (ascii "CREATE TYPE b AS ENUM ('y');") (by decide) (by decide)

set_option maxRecDepth 100000 in
/-- C16 (the code at the failing input): a lone `-`, 4096 letters `x` and the
text `CREATE TYPE b AS ENUM ('y');` on one line closed by a newline, with
nothing after it.  `ReadLine` consumes 4096 bytes of the line only; the rest
of the line is scanned and yields the record `B`, while the run on what
follows the line (nothing) yields no record.  The example of the claim holds:
`-CREATE TYPE a AS ENUM ('x');` yields no block and no record. -/
theorem lone_dash_long_line_is_scanned :
    (run [] (45 :: (List.replicate 4096 120
        ++ (ascii "CREATE TYPE b AS ENUM ('y');" ++ 10 :: [])))).emitted
      = [{ PkgName := [], TypeName := ascii "B", Values := [ascii "Y"], FirstType := true }] ∧
    (run [] []).emitted = [] ∧
    run [] (ascii "-CREATE TYPE a AS ENUM ('x');")
      = { blocks := [], emitted := [], status := Status.finished } := by
  refine ⟨?_, by decide, by decide⟩
  have hmem : ∀ x ∈ List.replicate 4096 120, x = 120 := by
    intro x hx
    exact (List.mem_replicate.1 hx).2
  rw [run, scan_dash, readLine_long _ _
    (by simp only [List.length_replicate, readerSize])
    (fun h => by have := hmem 10 h; omega) (fun h => by have := hmem 13 h; omega)]
  decide

/-! ## A block comment read with an empty buffer -/

theorem firstClose_body (c : List Nat) (h : firstClose (c ++ [42, 47]) = some c.length) :
    hasClose c = false := by
  induction c with
  | nil => rfl
  | cons a t ih =>
    rcases t with _ | ⟨b, t⟩
    · rfl
    · have e : firstClose ((a :: b :: t) ++ [42, 47])
          = if a = 42 ∧ b = 47 then some 0
            else (firstClose ((b :: t) ++ [42, 47])).map (fun i => i + 1) := rfl
      rw [e] at h
      by_cases hab : a = 42 ∧ b = 47
      · rw [if_pos hab] at h
        simp at h
      · rw [if_neg hab] at h
        rw [hasClose_cons_cons]
        refine ⟨hab, ih ?_⟩
        rcases hf : firstClose ((b :: t) ++ [42, 47]) with _ | i
        · rw [hf] at h; simp at h
        · rw [hf] at h
          simp only [Option.map_some', Option.some.injEq, List.length_cons] at h ⊢
          omega

/-- The comment loop at the end of the input: with no `*/` in the last rune of
the buffer followed by what is left of the input, the loop reads all of it. -/
theorem skipComment_eof (n : Nat) (c buffer : List Nat) (l : Nat)
    (hn : c.length ≤ n) (hl : buffer.getLast? = some l) (hc : hasClose (l :: c) = false) :
    skipComment c.length buffer c = some [] := by
  induction n generalizing c buffer l with
  | zero =>
    have : c = [] := List.length_eq_zero.mp (by omega)
    subst this
    rfl
  | succ n ih =>
    rcases c with _ | ⟨b, c⟩
    · rfl
    · obtain ⟨r, k, hr, hk, hlt, hge, htake⟩ := readRune_cons b c
      rw [skipComment_eq, hr, hl]
      simp only
      have hcc := (hasClose_cons_cons l b c).mp hc
      have hnot : ¬(l = 42 ∧ r = 47) := by
        rintro ⟨h1, h2⟩
        have hb : b < 128 := by by_contra hb; have := hge (by omega); omega
        have := (hlt hb).1
        exact hcc.1 ⟨h1, by omega⟩
      rw [if_neg hnot]
      apply ih (c.drop k) (buffer ++ [r]) r
      · simp only [List.length_drop, List.length_cons] at hn ⊢; omega
      · simp
      · by_cases hb : b < 128
        · obtain ⟨rfl, rfl⟩ := hlt hb
          simpa using hcc.2
        · have hr128 := hge (by omega)
          have hd := hasClose_drop k c (hasClose_tail b c hcc.2)
          rcases hdk : c.drop k with _ | ⟨x, t⟩
          · rfl
          · rw [hdk] at hd
            rw [hasClose_cons_cons]
            exact ⟨fun h => by omega, hd⟩

/-- Lines 139-156 at the end of the input: with an empty buffer, a block
comment that is not closed takes the rest of the input, and the loop ends. -/
theorem scan_block_comment_eof (pkg : List Nat) (count : Nat) (c : List Nat)
    (hc : hasClose c = false) :
    scan pkg [] count (47 :: 42 :: c)
      = { blocks := [], emitted := [], status := Status.finished } := by
  rw [scan_push pkg [] count _ 47 (by norm_num) (fun _ => by simp [isSpace])
    (by simp [trimSpace]) (by simp [byteLen, runeLen])]
  rw [scan_star pkg _ count _ (by simp [trimSpace, isSpace])]
  rw [skipComment_eof c.length c ([] ++ [47]) 47 (le_refl _) (by simp)]
  · simp only
    exact scan_nil pkg [] count
  · cases c with
    | nil => rfl
    | cons b t => rw [hasClose_cons_cons]; exact ⟨by norm_num, hc⟩

/-- C17: with an empty buffer (and any number of records emitted so far), a
block comment `/*c*/` in which the first `*/` of `c*/` is at position `|c|` is
skipped: the loop on `/*c*/rest` is the loop on `rest`, so the records are the
same; and the loop on `/*c` with nothing after it finishes with no block and
no record. -/
theorem block_comment_skipped_to_first_close (pkg : List Nat) (count : Nat) (c rest : List Nat)
    (hc : firstClose (c ++ [42, 47]) = some c.length) :
    scan pkg [] count (47 :: 42 :: (c ++ 42 :: 47 :: rest)) = scan pkg [] count rest ∧
    (run pkg (47 :: 42 :: (c ++ 42 :: 47 :: rest))).emitted = (run pkg rest).emitted ∧
    scan pkg [] count (47 :: 42 :: c)
      = { blocks := [], emitted := [], status := Status.finished } := by
  have h := firstClose_body c hc
  refine ⟨scan_block_comment pkg count c rest h, ?_, scan_block_comment_eof pkg count c h⟩
  rw [run, run, scan_block_comment pkg 0 c rest h]

set_option maxRecDepth 100000 in
/-- An instance of `block_comment_skipped_to_first_close`: the comment
`/*/ CREATE TYPE a AS ENUM ('x'); */`, which `/*/` does not close, before the
statement `CREATE TYPE b AS ENUM ('y');`. -/
theorem block_comment_skipped_to_first_close_witness :
    scan [] [] 0 (47 :: 42 :: (ascii "/ CREATE TYPE a AS ENUM ('x'); " ++ 42 :: 47 ::
        ascii "CREATE TYPE b AS ENUM ('y');"))
      = scan [] [] 0 (ascii "CREATE TYPE b AS ENUM ('y');") ∧
    (run [] (47 :: 42 :: (ascii "/ CREATE TYPE a AS ENUM ('x'); " ++ 42 :: 47 ::
        ascii "CREATE TYPE b AS ENUM ('y');"))).emitted
      = (run [] (ascii "CREATE TYPE b AS ENUM ('y');")).emitted ∧
    scan [] [] 0 (47 :: 42 :: ascii "/ CREATE TYPE a AS ENUM ('x'); ")
      = { blocks := [], emitted := [], status := Status.finished } :=
  block_comment_skipped_to_first_close [] 0 (ascii "/ CREATE TYPE a AS ENUM ('x'); ")
    (ascii "CREATE TYPE b AS ENUM ('y');") (by decide)

/-! ## The slices of lines 147 and 163 -/

theorem skipComment_none (fuel : Nat) (buffer input : List Nat)
    (h : skipComment fuel buffer input = none) : buffer = [] := by
  induction fuel generalizing buffer input with
  | zero => simp [skipComment] at h
  | succ n ih =>
    rw [skipComment] at h
    rcases hr : readRune input with _ | ⟨c, rest⟩
    · rw [hr] at h; simp at h
    · rw [hr] at h
      simp only at h
      rcases hg : buffer.getLast? with _ | l
      · exact List.getLast?_eq_none_iff.mp hg
      · rw [hg] at h
        simp only at h
        split_ifs at h
        have := ih _ _ h
        simp at this

/-- Line 147: the comment loop is entered with a buffer whose trimmed content
is `/`, so the last byte it inspects exists (the part of C18 that holds). -/
theorem comment_loop_buffer_nonempty (fuel : Nat) (buffer input : List Nat)
    (h : trimSpace buffer = [47]) : skipComment fuel buffer input ≠ none := by
  intro hn
  have := skipComment_none fuel buffer input hn
  subst this
  simp [trimSpace_nil] at h

/-- An instance of `comment_loop_buffer_nonempty`: the buffer `/` followed by a
space. -/
theorem comment_loop_buffer_nonempty_witness :
    skipComment 5 [47, 32] (ascii " a */") ≠ none :=
  comment_loop_buffer_nonempty 5 [47, 32] (ascii " a */") (by decide)

set_option maxRecDepth 100000 in
/-- C18 (the code at the failing input): on `DROP TABLE t;` the buffer holds
the 11 bytes `DROP TABLE ` when line 162 tests its length, its trimmed content
`DROP TABLE` has 10 bytes, and the slice of line 163 is out of range: the run
stops there.  The same after a statement that has been emitted. -/
theorem short_trimmed_buffer_is_sliced :
    byteLen (ascii "DROP TABLE ") = 11 ∧
    byteLen (trimSpace (ascii "DROP TABLE ")) = 10 ∧
    run [] (ascii "DROP TABLE t;")
      = { blocks := [], emitted := [], status := Status.panicked } ∧
    run [] (ascii "CREATE TYPE aa AS ENUM ('x');\nDROP TABLE t;")
      = { blocks := [ascii "CREATE TYPE aa AS ENUM ('x');"],
          emitted := [{ PkgName := [], TypeName := ascii "Aa", Values := [ascii "X"],
                        FirstType := true }],
          status := Status.panicked } := by
  decide

/-! ## A buffer that does not start with `CREATE TYPE` -/

/-- Lines 159-163 when the buffer, with the rune read, starts with 11 runes
that begin and end with no white space and are not `CREATE TYPE`: the rune is
written and nothing else happens. -/
theorem scan_absorb_step (pkg : List Nat) (count : Nat) (B input rest q m : List Nat)
    (a b c : Nat) (hB : B ++ [c] = a :: (m ++ [b]) ++ q) (hne : B ≠ [])
    (ha : isSpace a = false) (ha2 : a ≠ 47) (hb : isSpace b = false) (hm : m.length = 9)
    (hct : (a :: (m ++ [b])).map asciiUpper ≠ ascii "CREATE TYPE")
    (hr : readRune input = some (c, rest)) :
    scan pkg B count input = scan pkg (B ++ [c]) count rest := by
  have h0 : ¬byteLen B = 0 := fun h => hne ((byteLen_eq_zero B).mp h)
  have h47 : trimSpace B ≠ [47] := by
    rcases B with _ | ⟨x, l⟩
    · exact absurd rfl hne
    · have hx : x = a := by
        have := congrArg List.head? hB
        simpa using this
      subst hx
      obtain ⟨l2, hl2⟩ := trimSpace_cons_nonspace x l ha
      rw [hl2]
      intro hcon
      simp only [List.cons.injEq] at hcon
      exact ha2 hcon.1
  obtain ⟨q2, hq2⟩ := trimSpace_keeps_front a b m q ha hb
  have hlen : 11 ≤ byteLen (B ++ [c]) := by
    have := length_le_byteLen (B ++ [c])
    rw [hB] at this ⊢
    simp only [List.length_append, List.length_cons, List.length_nil] at this
    omega
  have hlen2 : ¬byteLen (trimSpace (B ++ [c])) < 11 := by
    rw [hB, hq2]
    have := length_le_byteLen (a :: (m ++ [b]) ++ q2)
    simp only [List.length_append, List.length_cons, List.length_nil] at this
    omega
  have hstart : ¬startsCreateType (trimSpace (B ++ [c])) = true := by
    rw [hB, hq2]
    simp only [startsCreateType, decide_eq_true_eq]
    rw [List.take_append_of_le_length (by simp [hm]),
      List.take_of_length_le (by simp [hm])]
    exact hct
  rw [scan_eq, hr]
  simp only
  rw [if_neg (fun h => h0 h.1), if_neg (fun h => h0 h.1), if_neg (fun h => h47 h.1),
    if_pos hlen, if_neg hlen2, if_neg hstart]

/-- Once the buffer starts with 11 runes that begin and end with no white
space and are not `CREATE TYPE`, the loop writes every rune to the buffer up
to the end of the input. -/
theorem scan_absorbing (pkg : List Nat) (count : Nat) (m : List Nat) (a b : Nat)
    (ha : isSpace a = false) (ha2 : a ≠ 47) (hb : isSpace b = false) (hm : m.length = 9)
    (hct : (a :: (m ++ [b])).map asciiUpper ≠ ascii "CREATE TYPE") (n : Nat) :
    ∀ q input : List Nat, input.length ≤ n →
      scan pkg (a :: (m ++ [b]) ++ q) count input
        = { blocks := [], emitted := [], status := Status.finished } := by
  induction n with
  | zero =>
    intro q input hn
    have : input = [] := List.length_eq_zero.mp (by omega)
    subst this
    exact scan_nil pkg _ count
  | succ n ih =>
    intro q input hn
    rcases hr : readRune input with _ | ⟨c, rest⟩
    · rw [scan_eq, hr]
    · have hlt := readRune_length hr
      rw [scan_absorb_step pkg count _ input rest (q ++ [c]) m a b c (by simp) (by simp)
        ha ha2 hb hm hct hr]
      have e : a :: (m ++ [b]) ++ q ++ [c] = a :: (m ++ [b]) ++ (q ++ [c]) := by simp
      rw [e]
      exact ih (q ++ [c]) rest (by omega)

/-- C19: an input whose first 11 bytes `a`, `m` (9 bytes), `b` are ASCII, with
`a` not white space, not `-` and not `/`, `b` not white space, and the 11
bytes not `CREATE TYPE` in any letter case: whatever follows, the run finishes
with no raw block and no record. -/
theorem leading_fragment_absorbs (pkg : List Nat) (a b : Nat) (m rest : List Nat)
    (hm : m.length = 9) (ha128 : a < 128) (hm128 : ∀ x ∈ m, x < 128) (hb128 : b < 128)
    (ha : isSpace a = false) (ha1 : a ≠ 45) (ha2 : a ≠ 47) (hb : isSpace b = false)
    (hct : (a :: (m ++ [b])).map asciiUpper ≠ ascii "CREATE TYPE") :
    run pkg (a :: (m ++ [b]) ++ rest)
      = { blocks := [], emitted := [], status := Status.finished } := by
  have e : a :: (m ++ [b]) ++ rest = a :: (m ++ (b :: rest)) := by simp
  have h10 : byteLen ([a] ++ m) = 10 := by
    rw [byteLen_ascii _ (by
      intro x hx
      simp only [List.singleton_append, List.mem_cons] at hx
      rcases hx with hx | hx
      · rw [hx]; exact ha128
      · exact hm128 x hx)]
    simp [hm]
  rw [run, e, scan_push pkg [] 0 _ a ha128 (fun _ => ⟨ha, ha1⟩) (by simp [trimSpace])
    (by simp [byteLen, runeLen, ha128]),
    List.nil_append, scan_pushes pkg a [] 0 m (b :: rest) ha ha2 hm128 (by omega),
    scan_absorb_step pkg 0 ([a] ++ m) (b :: rest) rest [] m a b b (by simp) (by simp)
      ha ha2 hb hm hct (readRune_ascii b rest hb128)]
  have e2 : [a] ++ m ++ [b] = a :: (m ++ [b]) ++ [] := by simp
  rw [e2]
  exact scan_absorbing pkg 0 m a b ha ha2 hb hm hct rest.length [] rest (le_refl _)

set_option maxRecDepth 100000 in
/-- An instance of `leading_fragment_absorbs`: the input
`ALTER TABLE t ADD c int;`, a newline, and `CREATE TYPE b AS ENUM ('y');`. -/
theorem leading_fragment_absorbs_witness :
    run [] (65 :: (ascii "LTER TABL" ++ [69])
        ++ ascii " t ADD c int;\nCREATE TYPE b AS ENUM ('y');")
      = { blocks := [], emitted := [], status := Status.finished } :=
  leading_fragment_absorbs [] 65 69 (ascii "LTER TABL")
    (ascii " t ADD c int;\nCREATE TYPE b AS ENUM ('y');")
    (by decide) (by decide) (by decide) (by decide) (by decide) (by decide) (by decide)
    (by decide) (by decide)

/-! ## The flag of the first record -/

/-- The flags of the records emitted by the loop entered with `count` records
emitted before: the record number `i` from there has the flag
`count + i + 1 = 1`. -/
theorem mainLoop_flags (pkg : List Nat) (fuel : Nat) (buffer : List Nat) (count : Nat)
    (input : List Nat) :
    (mainLoop pkg fuel buffer count input).emitted.map (fun d => d.FirstType)
      = (List.range (mainLoop pkg fuel buffer count input).emitted.length).map
          (fun i => decide (count + i + 1 = 1)) := by
  induction fuel generalizing buffer count input with
  | zero => simp [mainLoop]
  | succ n ih =>
    simp only [mainLoop]
    rcases hr : readRune input with _ | ⟨c, rest⟩
    · simp
    · simp only
      split_ifs
      · exact ih _ _ _
      · exact ih _ _ _
      · rcases hs : skipComment rest.length buffer rest with _ | rest1
        · simp
        · exact ih _ _ _
      · simp
      · rcases hf : findSubmatch (readStatement rest.length (buffer ++ [c]) rest).1
          with _ | ⟨name, values⟩
        · simp only [Outcome.block]
          exact ih _ _ _
        · simp only [Outcome.block, Outcome.emit, List.map_cons, List.length_cons]
          rw [List.range_succ_eq_map, List.map_cons, List.map_map, ih]
          congr 1
          apply List.map_congr_left
          intro i _
          simp only [Function.comp_apply, Nat.succ_eq_add_one]
          congr 1
          apply propext
          constructor <;> intro h <;> omega
      · exact ih _ _ _
      · exact ih _ _ _

/-- C20: for every input for which the run hands `k + 1` records to the
emitter, the FirstType flags of the records are `true` for the first and
`false` for the `k` later ones. -/
theorem first_type_flags (pkg input : List Nat) (k : Nat)
    (hk : (run pkg input).emitted.length = k + 1) :
    (run pkg input).emitted.map (fun d => d.FirstType) = true :: List.replicate k false := by
  have h := mainLoop_flags pkg (input.length + 1) [] 0 input
  rw [run, scan] at hk ⊢
  rw [h, hk, List.range_succ_eq_map, List.map_cons, List.map_map]
  congr 1
  rw [List.eq_replicate_iff]
  refine ⟨by simp, ?_⟩
  intro b hb
  simp only [List.mem_map, Function.comp_apply] at hb
  obtain ⟨i, -, rfl⟩ := hb
  simp

set_option maxRecDepth 100000 in
/-- An instance of `first_type_flags`: three statements on three lines. -/
theorem first_type_flags_witness :
    (run [] (ascii "CREATE TYPE a AS ENUM ('x');\nCREATE TYPE b AS ENUM ('y');\nCREATE TYPE c AS ENUM ('z');")).emitted.map
        (fun d => d.FirstType) = [true, false, false] :=
  first_type_flags []
    (ascii "CREATE TYPE a AS ENUM ('x');\nCREATE TYPE b AS ENUM ('y');\nCREATE TYPE c AS ENUM ('z');")
    2 (by decide)

/-! ## The shape of a text the pattern matches -/

theorem matchLit_snoc (lit : List Nat) (l : Nat) (s s2 : List Nat)
    (h : matchLit (lit ++ [l]) s = some s2) :
    ∃ k e, s = k ++ e :: s2 ∧ k.length = lit.length ∧ foldMatches l e = true := by
  induction lit generalizing s with
  | nil =>
    rcases s with _ | ⟨r, rs⟩
    · simp [matchLit] at h
    · simp only [List.nil_append, matchLit] at h
      split_ifs at h with hf
      rcases rs with _ | ⟨r2, rs2⟩ <;> simp only [matchLit, Option.some.injEq] at h <;>
        subst h <;> exact ⟨[], r, rfl, rfl, hf⟩
  | cons a lit ih =>
    rcases s with _ | ⟨r, rs⟩
    · simp [matchLit] at h
    · simp only [List.cons_append, matchLit] at h
      split_ifs at h
      obtain ⟨k, e, hk, hlen, he⟩ := ih rs h
      exact ⟨r :: k, e, by rw [hk]; rfl, by simp [hlen], he⟩

theorem foldMatches_paren (p : Nat) (h : foldMatches 40 p = true) : p = 40 := by
  unfold foldMatches at h
  simp only [Bool.or_eq_true, Bool.and_eq_true, decide_eq_true_eq] at h
  unfold asciiUpper at h
  split_ifs at h <;> omega

theorem foldMatches_punct (l p : Nat) (hl : l < 65) (h : foldMatches l p = true) : p = l := by
  unfold foldMatches at h
  simp only [Bool.or_eq_true, Bool.and_eq_true, decide_eq_true_eq] at h
  unfold asciiUpper at h
  split_ifs at h <;> omega

theorem matchLit_close_shape (x s2 : List Nat) (h : matchLit [41, 59] x = some s2) :
    x = 41 :: 59 :: s2 := by
  rcases x with _ | ⟨a, _ | ⟨b, t⟩⟩
  · simp [matchLit] at h
  · simp only [matchLit] at h
    split_ifs at h
  · simp only [matchLit] at h
    split_ifs at h with h1 h2
    have e1 := foldMatches_punct 41 a (by norm_num) h1
    have e2 := foldMatches_punct 59 b (by norm_num) h2
    have e3 : t = s2 := by
      cases t <;> simpa [matchLit] using h
    rw [e1, e2, e3]

/-- A text the pattern matches from its first rune ends its keyword `ENUM`
with a rune `e` that is `M` or `m`, followed by white space, `(`, runes of the
value class, and `);`. -/
theorem matchHere_shape (s : List Nat) (m : List Nat × List Nat) (h : matchHere s = some m) :
    ∃ pre e sp vals tail, s = pre ++ e :: (sp ++ 40 :: (vals ++ 41 :: 59 :: tail)) ∧
      foldMatches 77 e = true ∧ (∀ r ∈ sp, isPatternSpace r = true) ∧
      (∀ r ∈ vals, isValueRune r = true) := by
  unfold matchHere at h
  rcases h1 : matchLit (ascii "CREATE TYPE ") s with _ | s1
  · simp [h1] at h
  · simp only [h1] at h
    split_ifs at h
    rcases h2 : matchLit (ascii " AS ENUM") (s1.dropWhile isWordRune) with _ | s2
    · simp [h2] at h
    · simp only [h2] at h
      rcases h3 : matchLit (ascii "(") (s2.dropWhile isPatternSpace) with _ | s3
      · simp [h3] at h
      · simp only [h3] at h
        split_ifs at h
        rcases h4 : matchLit (ascii ");") (s3.dropWhile isValueRune) with _ | s4
        · simp [h4] at h
        · rw [ascii_close] at h4
          have e4 := matchLit_close_shape _ _ h4
          have a3 : ascii "(" = [] ++ [40] := by decide
          rw [a3] at h3
          obtain ⟨k3, p, hk3, hlen3, hp⟩ := matchLit_snoc [] 40 _ s3 h3
          have hk3nil : k3 = [] := List.length_eq_zero.mp hlen3
          subst hk3nil
          have hp40 := foldMatches_paren p hp
          subst hp40
          have a2 : ascii " AS ENUM" = [32, 65, 83, 32, 69, 78, 85] ++ [77] := by decide
          rw [a2] at h2
          obtain ⟨k2, e, hk2, -, he⟩ := matchLit_snoc _ 77 _ s2 h2
          obtain ⟨k1, hk1⟩ := matchLit_suffix _ _ _ h1
          refine ⟨k1 ++ (s1.takeWhile isWordRune ++ k2), e, s2.takeWhile isPatternSpace,
            s3.takeWhile isValueRune, s4, ?_, he, ?_, ?_⟩
          · have t1 := List.takeWhile_append_dropWhile isWordRune s1
            have t2 := List.takeWhile_append_dropWhile isPatternSpace s2
            have t3 := List.takeWhile_append_dropWhile isValueRune s3
            rw [e4] at t3
            rw [List.nil_append] at hk3
            rw [hk3] at t2
            rw [hk2] at t1
            generalize List.takeWhile isWordRune s1 = A at t1 ⊢
            generalize List.takeWhile isPatternSpace s2 = B at t2 ⊢
            generalize List.takeWhile isValueRune s3 = C at t3 ⊢
            rw [← hk1, ← t1, ← t2, ← t3]
            simp
          · intro r hr
            exact List.mem_takeWhile_imp hr
          · intro r hr
            exact List.mem_takeWhile_imp hr

theorem findSubmatch_shape (s : List Nat) (m : List Nat × List Nat)
    (h : findSubmatch s = some m) :
    ∃ pre e sp vals tail, s = pre ++ e :: (sp ++ 40 :: (vals ++ 41 :: 59 :: tail)) ∧
      foldMatches 77 e = true ∧ (∀ r ∈ sp, isPatternSpace r = true) ∧
      (∀ r ∈ vals, isValueRune r = true) := by
  induction s with
  | nil => exact matchHere_shape [] m h
  | cons r rs ih =>
    rw [findSubmatch] at h
    rcases hm : matchHere (r :: rs) with _ | m2
    · rw [hm] at h
      obtain ⟨pre, e, sp, vals, tail, hs, he, hsp, hv⟩ := ih h
      exact ⟨r :: pre, e, sp, vals, tail, by rw [hs]; rfl, he, hsp, hv⟩
    · exact matchHere_shape _ m2 hm

/-! ## A composite-type statement is not matched by the pattern -/

theorem parensClosed_spec (body : List Nat) (h : parensClosed body = true) :
    ∀ pre post, body = pre ++ 40 :: post → 41 ∈ post := by
  induction body with
  | nil =>
    intro pre post hb
    cases pre <;> simp at hb
  | cons c t ih =>
    intro pre post hb
    simp only [parensClosed, Bool.and_eq_true, Bool.or_eq_true, bne_iff_ne, ne_eq,
      List.contains_iff_exists_mem_beq, beq_iff_eq] at h
    rcases pre with _ | ⟨y, pre⟩
    · simp only [List.nil_append, List.cons.injEq] at hb
      obtain ⟨rfl, rfl⟩ := hb
      rcases h.1 with h1 | ⟨x, hx, hx2⟩
      · exact absurd rfl h1
      · rw [hx2]; exact hx
    · simp only [List.cons_append, List.cons.injEq] at hb
      exact ih h.2 pre post hb.2

/-- The end of the keyword ` AS ENUM` and the white space after it never sit
on the text ` AS `. -/
theorem enum_end_ne_as (x sp B : List Nat) (e : Nat) (he : foldMatches 77 e = true)
    (hsp : ∀ r ∈ sp, isPatternSpace r = true) : x ++ e :: sp ≠ B ++ [83, 32] := by
  intro h
  rcases List.eq_nil_or_concat sp with rfl | ⟨sp1, z, rfl⟩
  · have h2 : x ++ [e] = (B ++ [83]) ++ [32] := by simpa using h
    have := (List.append_inj' h2 rfl).2
    simp only [List.cons.injEq, and_true] at this
    subst this
    revert he
    decide
  · rw [List.concat_eq_append] at h hsp
    have h2 : (x ++ e :: sp1) ++ [z] = (B ++ [83]) ++ [32] := by simpa using h
    have h3 := (List.append_inj' h2 rfl).1
    rcases List.eq_nil_or_concat sp1 with rfl | ⟨sp2, z2, rfl⟩
    · have := (List.append_inj' h3 rfl).2
      simp only [List.cons.injEq, and_true] at this
      subst this
      revert he
      decide
    · rw [List.concat_eq_append] at h3 hsp
      have h4 : (x ++ e :: sp2) ++ [z2] = B ++ [83] := by simpa using h3
      have := (List.append_inj' h4 rfl).2
      simp only [List.cons.injEq, and_true] at this
      subst this
      have := hsp 83 (by simp)
      revert this
      decide

/-- The pattern does not match a composite-type statement whose name and body
hold no `;` and whose body closes every parenthesis it opens: a match would
end at the `);` of the statement, with its `(` either the one after ` AS ` or
one of the body that is not closed. -/
theorem compositeText_no_match (name body : List Nat) (hname : 59 ∉ name) (hbody : 59 ∉ body)
    (hclosed : parensClosed body = true) : findSubmatch (compositeText name body) = none := by
  by_contra hne
  obtain ⟨m, hm⟩ := Option.ne_none_iff_exists'.mp hne
  obtain ⟨pre, e, sp, vals, tail, hs, he, hsp, hv⟩ := findSubmatch_shape _ m hm
  have e1 : ascii " AS (" = [32, 65, 83, 32, 40] := by decide
  have hM : compositeText name body
      = ((ascii "CREATE TYPE " ++ name ++ [32, 65]) ++ [83, 32] ++ 40 :: body ++ [41]) ++ [59] := by
    rw [compositeText, e1, ascii_close]
    simp
  have hP : pre ++ e :: (sp ++ 40 :: (vals ++ 41 :: 59 :: tail))
      = ((pre ++ e :: sp) ++ 40 :: vals ++ [41]) ++ 59 :: tail := by simp
  have h59 : 59 ∉ (ascii "CREATE TYPE " ++ name ++ [32, 65]) ++ [83, 32] ++ 40 :: body ++ [41] := by
    simp only [List.mem_append, List.mem_cons, List.not_mem_nil, or_false, not_or]
    refine ⟨⟨⟨⟨⟨by decide, hname⟩, by decide⟩, by decide⟩, by decide, hbody⟩, by decide⟩
  have hv40 : 40 ∉ vals := fun hc => by
    have := hv 40 hc
    revert this
    decide
  have hv41 : 41 ∉ vals := fun hc => by
    have := hv 41 hc
    revert this
    decide
  rw [hM, hP] at hs
  have hmid : (ascii "CREATE TYPE " ++ name ++ [32, 65]) ++ [83, 32] ++ 40 :: body
      = (pre ++ e :: sp) ++ 40 :: vals := by
    rcases List.append_eq_append_iff.mp hs with ⟨a1, ha1, ha2⟩ | ⟨c1, hc1, hc2⟩
    · rcases a1 with _ | ⟨y, a1⟩
      · rw [List.append_nil] at ha1
        exact (List.append_inj' ha1.symm rfl).1
      · simp only [List.cons_append, List.cons.injEq] at ha2
        rcases a1 with _ | ⟨y2, a2⟩ <;> simp at ha2
    · rcases c1 with _ | ⟨y, c1⟩
      · rw [List.append_nil] at hc1
        exact (List.append_inj' hc1 rfl).1
      · exfalso
        apply h59
        rw [hc1]
        simp only [List.cons_append, List.nil_append, List.cons.injEq] at hc2
        rw [← hc2.1]
        simp
  rcases List.append_eq_append_iff.mp hmid with ⟨a1, ha1, ha2⟩ | ⟨c1, hc1, hc2⟩
  · rcases a1 with _ | ⟨y, a1⟩
    · rw [List.append_nil] at ha1
      exact enum_end_ne_as pre sp _ e he hsp ha1
    · simp only [List.cons_append, List.cons.injEq] at ha2
      exact hv41 (parensClosed_spec body hclosed a1 vals ha2.2)
  · rcases c1 with _ | ⟨y, c1⟩
    · rw [List.append_nil] at hc1
      exact enum_end_ne_as pre sp _ e he hsp hc1.symm
    · simp only [List.cons_append, List.cons.injEq] at hc2
      apply hv40
      rw [hc2.2]
      simp

/-! ## Normalising a normal form -/

theorem isAlnum_iff (r : Nat) :
    isAlnum r = true ↔ (48 ≤ r ∧ r ≤ 57) ∨ (65 ≤ r ∧ r ≤ 90) ∨ (97 ≤ r ∧ r ≤ 122) := by
  simp only [isAlnum, Bool.or_eq_true, Bool.and_eq_true, decide_eq_true_eq, or_assoc]

theorem toCamelLoop_upper (v : Nat) (t : List Nat) (cap p f : Bool) (h : 65 ≤ v ∧ v ≤ 90) :
    toCamelLoop (v :: t) cap p f
      = (if cap then v else if f then v + 32 else if p then v + 32 else v)
          :: toCamelLoop t false true false := by
  rw [toCamelLoop]
  have hc1 : (decide (65 ≤ v) && decide (v ≤ 90)) = true := by simp [h.1, h.2]
  have hc2 : (decide (97 ≤ v) && decide (v ≤ 122)) = false := by
    simp only [Bool.and_eq_false_imp, decide_eq_true_eq, decide_eq_false_iff_not]; omega
  simp only [hc1, hc2]
  cases cap <;> cases p <;> cases f <;> simp

theorem toCamelLoop_lower1 (v : Nat) (t : List Nat) (cap p f : Bool) (h : 97 ≤ v ∧ v ≤ 122) :
    toCamelLoop (v :: t) cap p f
      = (if cap then v - 32 else v) :: toCamelLoop t false false false := by
  rw [toCamelLoop]
  have hc1 : (decide (65 ≤ v) && decide (v ≤ 90)) = false := by
    simp only [Bool.and_eq_false_imp, decide_eq_true_eq, decide_eq_false_iff_not]; omega
  have hc2 : (decide (97 ≤ v) && decide (v ≤ 122)) = true := by simp [h.1, h.2]
  simp only [hc1, hc2]
  cases cap <;> cases p <;> cases f <;> simp

theorem toCamelLoop_digit (v : Nat) (t : List Nat) (cap p f : Bool) (h : 48 ≤ v ∧ v ≤ 57) :
    toCamelLoop (v :: t) cap p f = v :: toCamelLoop t true false false := by
  rw [toCamelLoop]
  have hc1 : (decide (65 ≤ v) && decide (v ≤ 90)) = false := by
    simp only [Bool.and_eq_false_imp, decide_eq_true_eq, decide_eq_false_iff_not]; omega
  have hc2 : (decide (97 ≤ v) && decide (v ≤ 122)) = false := by
    simp only [Bool.and_eq_false_imp, decide_eq_true_eq, decide_eq_false_iff_not]; omega
  have hc3 : (decide (48 ≤ v) && decide (v ≤ 57)) = true := by simp [h.1, h.2]
  simp only [hc1, hc2, hc3]
  cases cap <;> cases p <;> cases f <;> simp

theorem toCamelLoop_quote (t : List Nat) (cap p f : Bool) :
    toCamelLoop (39 :: t) cap p f = toCamelLoop t false false false := by
  simp [toCamelLoop]

/-- The camel-case loop writes ASCII letters and digits only. -/
theorem toCamelLoop_alnum (t : List Nat) (cap p f : Bool) :
    ∀ x ∈ toCamelLoop t cap p f, isAlnum x = true := by
  induction t generalizing cap p f with
  | nil => simp [toCamelLoop]
  | cons v t ih =>
    by_cases hu : 65 ≤ v ∧ v ≤ 90
    · rw [toCamelLoop_upper v t cap p f hu]
      intro x hx
      rcases List.mem_cons.mp hx with rfl | hx
      · rw [isAlnum_iff]
        split_ifs <;> omega
      · exact ih _ _ _ x hx
    · by_cases hl : 97 ≤ v ∧ v ≤ 122
      · rw [toCamelLoop_lower1 v t cap p f hl]
        intro x hx
        rcases List.mem_cons.mp hx with rfl | hx
        · rw [isAlnum_iff]
          split_ifs <;> omega
        · exact ih _ _ _ x hx
      · by_cases hd : 48 ≤ v ∧ v ≤ 57
        · rw [toCamelLoop_digit v t cap p f hd]
          intro x hx
          rcases List.mem_cons.mp hx with rfl | hx
          · rw [isAlnum_iff]
            omega
          · exact ih _ _ _ x hx
        · rw [toCamelLoop]
          have hc1 : (decide (65 ≤ v) && decide (v ≤ 90)) = false := by
            simp only [Bool.and_eq_false_imp, decide_eq_true_eq, decide_eq_false_iff_not]; omega
          have hc2 : (decide (97 ≤ v) && decide (v ≤ 122)) = false := by
            simp only [Bool.and_eq_false_imp, decide_eq_true_eq, decide_eq_false_iff_not]; omega
          have hc3 : (decide (48 ≤ v) && decide (v ≤ 57)) = false := by
            simp only [Bool.and_eq_false_imp, decide_eq_true_eq, decide_eq_false_iff_not]; omega
          simp only [hc1, hc2, hc3, Bool.or_self, Bool.false_eq_true, if_false]
          exact ih _ _ _

theorem titleLoop_letter (r : Nat) (rs : List Nat) (mw wm : Bool)
    (h : (65 ≤ r ∧ r ≤ 90) ∨ (97 ≤ r ∧ r ≤ 122)) :
    titleLoop (r :: rs) mw wm
      = (if mw then asciiLower r else asciiUpper r) :: titleLoop rs true false := by
  obtain ⟨h1, h2, h3, h4, -, -⟩ := letter_facts r h
  rw [titleLoop]
  simp only [h1, h2, h3, h4, Bool.and_false, Bool.false_eq_true, if_false, if_true]

theorem titleLoop_digit (r : Nat) (rs : List Nat) (mw wm : Bool) (h : 48 ≤ r ∧ r ≤ 57) :
    titleLoop (r :: rs) mw wm = r :: titleLoop rs mw false := by
  have h1 : isCased r = false := by
    simp only [isCased, Bool.or_eq_false_iff, Bool.and_eq_false_imp, decide_eq_true_eq,
      decide_eq_false_iff_not]
    omega
  have h2 : isMid r = false := by
    simp only [isMid, Bool.or_eq_false_iff, decide_eq_false_iff_not]; omega
  have h3 : isBreak r = false := by
    simp only [isBreak, h1, h2, Bool.false_or, Bool.or_false, Bool.not_eq_false',
      Bool.or_eq_true, Bool.and_eq_true, decide_eq_true_eq]
    omega
  rw [titleLoop]
  simp only [h1, h2, h3, Bool.and_false, Bool.false_eq_true, if_false]

theorem titleLoop_quote (rs : List Nat) (wm : Bool) :
    titleLoop (39 :: rs) false wm = 39 :: titleLoop rs false true := by
  rw [titleLoop]
  cases wm <;> simp [isCased, isMid, isBreak]

theorem titleLoop_quote_any (rs : List Nat) (mw wm : Bool) :
    ∃ mw2, titleLoop (39 :: rs) mw wm = 39 :: titleLoop rs mw2 true := by
  rw [titleLoop]
  cases wm <;> cases mw <;> simp [isCased, isMid, isBreak]
theorem toCamel_title_quotes (q : List Nat) (hq : ∀ r ∈ q, r = 39) (mw wm cap p f : Bool) :
    toCamelLoop (titleLoop q mw wm) cap p f = [] := by
  induction q generalizing mw wm cap p f with
  | nil => rfl
  | cons r q ih =>
    have hr := hq r (by simp)
    subst hr
    obtain ⟨mw2, h2⟩ := titleLoop_quote_any q mw wm
    rw [h2, toCamelLoop_quote]
    exact ih (fun x hx => hq x (by simp [hx])) _ _ _ _ _

/-- The title caser and then the camel-case loop on a word of ASCII letters
and digits followed by apostrophes: a letter after a letter comes out in lower
case and every other letter in upper case.  The word is met either after a
letter, or where the camel loop is to capitalise, or at the start of a word
of the caser after an apostrophe. -/
theorem toCamel_title_word (n q : List Nat) (hn : ∀ r ∈ n, isAlnum r = true)
    (hq : ∀ r ∈ q, r = 39) (mw wm cap p f al : Bool)
    (h1 : al = true → mw = true ∧ cap = false ∧ f = false)
    (h2 : al = false → cap = true ∨ (mw = false ∧ f = false ∧ p = false)) :
    toCamelLoop (titleLoop (n ++ q) mw wm) cap p f = camelWord n al := by
  induction n generalizing mw wm cap p f al with
  | nil => exact toCamel_title_quotes q hq mw wm cap p f
  | cons r n ih =>
    have hr := (isAlnum_iff r).mp (hn r (by simp))
    have hn2 : ∀ x ∈ n, isAlnum x = true := fun x hx => hn x (by simp [hx])
    by_cases hl : (65 ≤ r ∧ r ≤ 90) ∨ (97 ≤ r ∧ r ≤ 122)
    · rw [List.cons_append, titleLoop_letter r _ mw wm hl, camelWord, if_pos hl]
      cases al with
      | true =>
        obtain ⟨rfl, rfl, rfl⟩ := h1 rfl
        have hlow := (letter_facts r hl).2.2.2.2.1
        simp only [if_true]
        rw [toCamelLoop_lower1 _ _ _ _ _ hlow]
        simp only [Bool.false_eq_true, if_false]
        rw [ih hn2 true false false false false true (fun _ => ⟨rfl, rfl, rfl⟩)
          (fun h => by cases h)]
      | false =>
        simp only [Bool.false_eq_true, if_false]
        have hfix : ∀ x, ((65 ≤ x ∧ x ≤ 90) ∨ (97 ≤ x ∧ x ≤ 122)) →
            ∀ pp, asciiUpper x :: toCamelLoop (titleLoop (n ++ q) true false) false pp false
              = asciiUpper x :: camelWord n true := by
          intro x _ pp
          rw [ih hn2 true false false pp false true (fun _ => ⟨rfl, rfl, rfl⟩)
            (fun h => by cases h)]
        rcases h2 rfl with rfl | ⟨rfl, rfl, rfl⟩
        · cases mw with
          | true =>
            have hlow := (letter_facts r hl).2.2.2.2.1
            simp only [if_true]
            rw [toCamelLoop_lower1 _ _ _ _ _ hlow]
            simp only [if_true]
            have e : asciiLower r - 32 = asciiUpper r := by
              unfold asciiLower asciiUpper
              split_ifs <;> omega
            rw [e]
            exact hfix r hl false
          | false =>
            simp only [Bool.false_eq_true, if_false]
            have hup : 65 ≤ asciiUpper r ∧ asciiUpper r ≤ 90 := by
              unfold asciiUpper
              split_ifs <;> omega
            rw [toCamelLoop_upper _ _ _ _ _ hup]
            simp only [if_true]
            exact hfix r hl true
        · simp only [Bool.false_eq_true, if_false]
          have hup : 65 ≤ asciiUpper r ∧ asciiUpper r ≤ 90 := by
            unfold asciiUpper
            split_ifs <;> omega
          rw [toCamelLoop_upper _ _ _ _ _ hup]
          cases cap <;> simp only [if_true, Bool.false_eq_true, if_false] <;>
            exact hfix r hl true
    · have hd : 48 ≤ r ∧ r ≤ 57 := by omega
      rw [List.cons_append, titleLoop_digit r _ mw wm hd, toCamelLoop_digit r _ cap p f hd,
        camelWord, if_neg hl]
      rw [ih hn2 mw false true false false false (fun h => by cases h) (fun _ => Or.inl rfl)]

theorem toCamel_title_quoted (q1 n q2 : List Nat) (hq1 : ∀ r ∈ q1, r = 39)
    (hn : ∀ r ∈ n, isAlnum r = true) (hq2 : ∀ r ∈ q2, r = 39) (wm cap p f : Bool)
    (h : cap = true ∨ (f = false ∧ p = false)) :
    toCamelLoop (titleLoop (q1 ++ (n ++ q2)) false wm) cap p f = camelWord n false := by
  induction q1 generalizing wm cap p f with
  | nil =>
    rw [List.nil_append]
    apply toCamel_title_word n q2 hn hq2
    · intro h; cases h
    · intro _
      rcases h with h | ⟨h3, h4⟩
      · exact Or.inl h
      · exact Or.inr ⟨rfl, h3, h4⟩
  | cons r q1 ih =>
    have hr := hq1 r (by simp)
    subst hr
    rw [List.cons_append, titleLoop_quote, toCamelLoop_quote]
    exact ih (fun x hx => hq1 x (by simp [hx])) true false false false (Or.inr ⟨rfl, rfl⟩)

theorem titleLoop_mem (s : List Nat) (mw wm : Bool) (P : Nat → Prop)
    (h : ∀ r ∈ s, P r ∧ P (titleMap r) ∧ P (lowerMap r)) :
    ∀ x ∈ titleLoop s mw wm, P x := by
  induction s generalizing mw wm with
  | nil => simp [titleLoop]
  | cons r s ih =>
    have hr := h r (by simp)
    have hs : ∀ x ∈ s, P x ∧ P (titleMap x) ∧ P (lowerMap x) := fun x hx => h x (by simp [hx])
    rw [titleLoop]
    intro x hx
    split_ifs at hx <;> rcases List.mem_cons.mp hx with rfl | hx2
    all_goals first
      | exact hr.1
      | exact hr.2.1
      | exact hr.2.2
      | exact ih _ _ hs x hx2

theorem quoted_word_no_space (r : Nat) (h : r = 39 ∨ isAlnum r = true) :
    isSpace r = false ∧ isSpace (titleMap r) = false ∧ isSpace (lowerMap r) = false := by
  have hr : r = 39 ∨ (48 ≤ r ∧ r ≤ 57) ∨ (65 ≤ r ∧ r ≤ 90) ∨ (97 ≤ r ∧ r ≤ 122) := by
    rcases h with h | h
    · exact Or.inl h
    · exact Or.inr ((isAlnum_iff r).mp h)
  have key : ∀ x, 33 ≤ x ∧ x ≤ 122 → isSpace x = false := by
    intro x hx
    simp only [isSpace, Bool.or_eq_false_iff, decide_eq_false_iff_not, Bool.and_eq_false_imp,
      decide_eq_true_eq]
    omega
  refine ⟨key r (by omega), key _ ?_, key _ ?_⟩
  · unfold titleMap; split_ifs <;> omega
  · unfold lowerMap; split_ifs <;> omega
theorem trimSpace_pad (sp1 m sp2 : List Nat) (h1 : ∀ r ∈ sp1, isSpace r = true)
    (hm : ∀ r ∈ m, isSpace r = false) (h2 : ∀ r ∈ sp2, isSpace r = true) :
    trimSpace (sp1 ++ m ++ sp2) = m := by
  induction sp1 with
  | nil =>
    rw [List.nil_append]
    rcases m with _ | ⟨a, m⟩
    · rw [List.nil_append]
      exact trimSpace_all_space sp2 h2
    · have e : trimSpace (a :: m ++ sp2) = (a :: m ++ sp2).rdropWhile isSpace := by
        unfold trimSpace
        rw [List.cons_append, List.dropWhile_cons_of_neg (by simp [hm a (by simp)])]
        rfl
      rw [e]
      have aux : ∀ sp : List Nat, (∀ r ∈ sp, isSpace r = true) →
          (a :: m ++ sp).rdropWhile isSpace = a :: m := by
        intro sp
        induction sp using List.reverseRecOn with
        | nil =>
          intro _
          rw [List.append_nil, List.rdropWhile_eq_self_iff]
          intro hne
          have := hm _ (List.getLast_mem hne)
          simp [this]
        | append_singleton sp x ih =>
          intro hsp
          rw [← List.append_assoc, List.rdropWhile_concat_pos _ _ _ (hsp x (by simp))]
          exact ih (fun r hr => hsp r (by simp [hr]))
      exact aux sp2 h2
  | cons s sp1 ih =>
    rw [List.cons_append, List.cons_append, trimSpace_cons_space _ _ (h1 s (by simp))]
    exact ih (fun r hr => h1 r (by simp [hr]))

/-- The normal form of a word of ASCII letters and digits, bare or between
apostrophes and white space. -/
theorem normalize_quoted_alnum (sp1 q1 w q2 sp2 : List Nat)
    (hsp1 : ∀ r ∈ sp1, isSpace r = true) (hq1 : ∀ r ∈ q1, r = 39)
    (hw : ∀ r ∈ w, isAlnum r = true) (hq2 : ∀ r ∈ q2, r = 39)
    (hsp2 : ∀ r ∈ sp2, isSpace r = true) :
    normalize (sp1 ++ (q1 ++ (w ++ q2)) ++ sp2) = camelWord w false := by
  have hmem : ∀ r ∈ q1 ++ (w ++ q2), r = 39 ∨ isAlnum r = true := by
    intro r hr
    simp only [List.mem_append] at hr
    rcases hr with hr | hr | hr
    · exact Or.inl (hq1 r hr)
    · exact Or.inr (hw r hr)
    · exact Or.inl (hq2 r hr)
  have e1 : trimSpace (sp1 ++ (q1 ++ (w ++ q2)) ++ sp2) = q1 ++ (w ++ q2) :=
    trimSpace_pad sp1 _ sp2 hsp1 (fun r hr => (quoted_word_no_space r (hmem r hr)).1) hsp2
  have e2 : trimSpace (titleLoop (q1 ++ (w ++ q2)) false false)
      = titleLoop (q1 ++ (w ++ q2)) false false := by
    apply trimSpace_of_no_space
    exact titleLoop_mem _ _ _ (fun x => isSpace x = false)
      (fun r hr => quoted_word_no_space r (hmem r hr))
  unfold normalize ToCamel enCaser
  rw [e1, e2]
  exact toCamel_title_quoted q1 w q2 hq1 hw hq2 false true false true (Or.inl rfl)

theorem normalizeName_alnum (w : List Nat) (hw : ∀ r ∈ w, isAlnum r = true) :
    normalizeName w = camelWord w false := by
  have e2 : trimSpace (titleLoop w false false) = titleLoop w false false := by
    apply trimSpace_of_no_space
    exact titleLoop_mem _ _ _ (fun x => isSpace x = false)
      (fun r hr => quoted_word_no_space r (Or.inr (hw r hr)))
  unfold normalizeName ToCamel enCaser
  rw [e2]
  have := toCamel_title_quoted [] w [] (by simp) hw (by simp) false true false true (Or.inl rfl)
  simpa using this

theorem normalize_alnum (w : List Nat) (hw : ∀ r ∈ w, isAlnum r = true) :
    normalize w = camelWord w false := by
  have := normalize_quoted_alnum [] [] w [] [] (by simp) (by simp) hw (by simp) (by simp)
  simpa using this

theorem camelWord_twice (w : List Nat) (al : Bool) :
    camelWord (camelWord w al) al = camelWord w al := by
  induction w generalizing al with
  | nil => rfl
  | cons r w ih =>
    by_cases hl : (65 ≤ r ∧ r ≤ 90) ∨ (97 ≤ r ∧ r ≤ 122)
    · rw [camelWord, if_pos hl]
      cases al with
      | true =>
        simp only [if_true]
        have h2 : (65 ≤ asciiLower r ∧ asciiLower r ≤ 90) ∨
            (97 ≤ asciiLower r ∧ asciiLower r ≤ 122) := by
          unfold asciiLower; split_ifs <;> omega
        have h3 : asciiLower (asciiLower r) = asciiLower r := by
          unfold asciiLower; split_ifs <;> omega
        rw [camelWord, if_pos h2, ih true]
        simp only [if_true, h3]
      | false =>
        simp only [Bool.false_eq_true, if_false]
        have h2 : (65 ≤ asciiUpper r ∧ asciiUpper r ≤ 90) ∨
            (97 ≤ asciiUpper r ∧ asciiUpper r ≤ 122) := by
          unfold asciiUpper; split_ifs <;> omega
        have h3 : asciiUpper (asciiUpper r) = asciiUpper r := by
          unfold asciiUpper; split_ifs <;> omega
        rw [camelWord, if_pos h2, ih true]
        simp only [Bool.false_eq_true, if_false, h3]
    · rw [camelWord, if_neg hl, camelWord, if_neg hl, ih false]
/-- C5 (as amended): normalising a normal form puts every letter that follows
a letter in lower case and every other letter in upper case, for every string
s of runes that the pattern can capture, for a value and for a type name; so
normalisation is idempotent at s exactly when the normal form of s has that
letter case already.  It has for every single word of ASCII letters and
digits in any letter case, bare or between apostrophes and white space, such
as `'active'`, `'PENDING'`, `a1b` and `x2`: the normal form is the word in that letter
case, and normalising it again gives the same.  A multi-word result is not
kept: `OrderStatus` normalises to `Orderstatus` and `OnHold` to `Onhold`. -/
theorem normalize_idempotent_on_single_words (s sp1 q1 w q2 sp2 : List Nat)
    (_hs : ∀ r ∈ s, isValueRune r = true)
    (hsp1 : ∀ r ∈ sp1, isSpace r = true) (hq1 : ∀ r ∈ q1, r = 39)
    (hw : ∀ r ∈ w, isAlnum r = true) (hq2 : ∀ r ∈ q2, r = 39)
    (hsp2 : ∀ r ∈ sp2, isSpace r = true) :
    normalize (normalize s) = camelWord (normalize s) false ∧
    normalizeName (normalizeName s) = camelWord (normalizeName s) false ∧
    (normalize (normalize s) = normalize s ↔ camelWord (normalize s) false = normalize s) ∧
    (normalizeName (normalizeName s) = normalizeName s ↔
      camelWord (normalizeName s) false = normalizeName s) ∧
    normalize (sp1 ++ (q1 ++ (w ++ q2)) ++ sp2) = camelWord w false ∧
    normalize (normalize (sp1 ++ (q1 ++ (w ++ q2)) ++ sp2))
      = normalize (sp1 ++ (q1 ++ (w ++ q2)) ++ sp2) ∧
    normalizeName w = camelWord w false ∧
    normalizeName (normalizeName w) = normalizeName w ∧
    normalize (ascii "'active'") = ascii "Active" ∧
    normalize (ascii "'PENDING'") = ascii "Pending" ∧
    normalize (ascii "a1b") = ascii "A1B" ∧
    normalize (ascii "x2") = ascii "X2" ∧
    normalize (ascii "OrderStatus") = ascii "Orderstatus" ∧
    normalize (ascii "OnHold") = ascii "Onhold" := by
  have g1 : normalize (normalize s) = camelWord (normalize s) false :=
    normalize_alnum _ (toCamelLoop_alnum _ _ _ _)
  have g2 : normalizeName (normalizeName s) = camelWord (normalizeName s) false :=
    normalizeName_alnum _ (toCamelLoop_alnum _ _ _ _)
  have e1 := normalize_quoted_alnum sp1 q1 w q2 sp2 hsp1 hq1 hw hq2 hsp2
  have e2 := normalizeName_alnum w hw
  have hcw : ∀ x ∈ camelWord w false, isAlnum x = true := by
    rw [← e2]
    exact toCamelLoop_alnum _ _ _ _
  refine ⟨g1, g2, by rw [g1], by rw [g2], e1, ?_, e2, ?_, by decide, by decide, by decide,
    by decide, by decide, by decide⟩
  · rw [e1, normalize_alnum _ hcw, camelWord_twice]
  · rw [e2, normalizeName_alnum _ hcw, camelWord_twice]

/-- An instance of `normalize_idempotent_on_single_words`: the value `'a1b'`
after a space and before a newline, and the string `'on hold'`. -/
theorem normalize_idempotent_on_single_words_witness :
    normalize (normalize ([32] ++ ([39] ++ (ascii "a1b" ++ [39])) ++ [10]))
      = normalize ([32] ++ ([39] ++ (ascii "a1b" ++ [39])) ++ [10]) ∧
    normalize (normalize (ascii "'on hold'")) = camelWord (normalize (ascii "'on hold'")) false :=
  ⟨(normalize_idempotent_on_single_words (ascii "'on hold'") [32] [39] (ascii "a1b") [39] [10]
      (by decide) (by decide) (by decide) (by decide) (by decide) (by decide)).2.2.2.2.2.1,
   (normalize_idempotent_on_single_words (ascii "'on hold'") [32] [39] (ascii "a1b") [39] [10]
      (by decide) (by decide) (by decide) (by decide) (by decide) (by decide)).1⟩

/-! ## Reading back the runes of a text -/

theorem decodeRune_two (a b : Nat) (rest : List Nat) (ha : 0xC2 ≤ a ∧ a ≤ 0xDF)
    (hb : 0x80 ≤ b ∧ b ≤ 0xBF) :
    decodeRune (a :: b :: rest) = ((a % 32) * 64 + b % 64, 2) := by
  have hl : leadInfo a = some (2, 0x80, 0xBF) := by
    unfold leadInfo
    rw [if_pos ha]
  unfold decodeRune
  simp only [hl, List.length_cons]
  rw [if_neg (by omega), if_neg (by omega), if_neg (by omega), if_pos (by omega)]

theorem decodeRune_three (a b c lo hi : Nat) (rest : List Nat)
    (hl : leadInfo a = some (3, lo, hi)) (ha : 0x80 ≤ a) (hb : lo ≤ b ∧ b ≤ hi)
    (hc : 0x80 ≤ c ∧ c ≤ 0xBF) :
    decodeRune (a :: b :: c :: rest) = ((a % 16) * 4096 + (b % 64) * 64 + c % 64, 3) := by
  unfold decodeRune
  simp only [hl, List.length_cons]
  rw [if_neg (by omega), if_neg (by omega), if_neg (by omega), if_neg (by omega),
    if_neg (by omega), if_pos (by omega)]

theorem decodeRune_four (a b c d lo hi : Nat) (rest : List Nat)
    (hl : leadInfo a = some (4, lo, hi)) (ha : 0x80 ≤ a) (hb : lo ≤ b ∧ b ≤ hi)
    (hc : 0x80 ≤ c ∧ c ≤ 0xBF) (hd : 0x80 ≤ d ∧ d ≤ 0xBF) :
    decodeRune (a :: b :: c :: d :: rest)
      = ((a % 8) * 262144 + (b % 64) * 4096 + (c % 64) * 64 + d % 64, 4) := by
  unfold decodeRune
  simp only [hl, List.length_cons]
  rw [if_neg (by omega), if_neg (by omega), if_neg (by omega), if_neg (by omega),
    if_neg (by omega), if_neg (by omega), if_neg (by omega)]

theorem isValidRune_iff (r : Nat) :
    isValidRune r = true ↔ r < 0x110000 ∧ ¬(0xD800 ≤ r ∧ r ≤ 0xDFFF) := by
  simp only [isValidRune, Bool.and_eq_true, decide_eq_true_eq, Bool.not_eq_true',
    Bool.and_eq_false_imp, decide_eq_false_iff_not]
  constructor
  · rintro ⟨h1, h2⟩
    exact ⟨h1, fun h => h2 h.1 h.2⟩
  · rintro ⟨h1, h2⟩
    exact ⟨h1, fun h3 h4 => h2 ⟨h3, h4⟩⟩

/-- `ReadRune` reads back what `WriteRune` writes for a Unicode scalar value. -/
theorem readRune_encode (r : Nat) (rest : List Nat) (h : isValidRune r = true) :
    readRune (encodeRune r ++ rest) = some (r, rest) := by
  obtain ⟨hmax, hsur⟩ := (isValidRune_iff r).mp h
  unfold encodeRune
  by_cases h1 : r < 0x80
  · rw [if_pos h1]
    exact readRune_ascii r rest h1
  rw [if_neg h1]
  by_cases h2 : r < 0x800
  · rw [if_pos h2]
    simp only [List.cons_append, List.nil_append, readRune]
    rw [decodeRune_two _ _ _ (by omega) (by omega)]
    simp only [List.drop_succ_cons, List.drop_zero, Option.some.injEq, Prod.mk.injEq, and_true]
    omega
  rw [if_neg h2, if_neg (by omega)]
  by_cases h3 : r < 0x10000
  · rw [if_pos h3]
    simp only [List.cons_append, List.nil_append, readRune]
    have hl : ∃ lo hi, leadInfo (0xE0 + r / 4096) = some (3, lo, hi) ∧
        lo ≤ 0x80 + (r / 64) % 64 ∧ 0x80 + (r / 64) % 64 ≤ hi := by
      unfold leadInfo
      rw [if_neg (by omega)]
      by_cases c0 : 0xE0 + r / 4096 = 0xE0
      · rw [if_pos c0]
        exact ⟨_, _, rfl, by omega, by omega⟩
      rw [if_neg c0]
      by_cases c1 : 0xE1 ≤ 0xE0 + r / 4096 ∧ 0xE0 + r / 4096 ≤ 0xEC
      · rw [if_pos c1]
        exact ⟨_, _, rfl, by omega, by omega⟩
      rw [if_neg c1]
      by_cases c2 : 0xE0 + r / 4096 = 0xED
      · rw [if_pos c2]
        exact ⟨_, _, rfl, by omega, by omega⟩
      rw [if_neg c2, if_pos (by omega)]
      exact ⟨_, _, rfl, by omega, by omega⟩
    obtain ⟨lo, hi, hl1, hl2, hl3⟩ := hl
    rw [decodeRune_three _ _ _ lo hi _ hl1 (by omega) ⟨hl2, hl3⟩ (by omega)]
    simp only [List.drop_succ_cons, List.drop_zero, Option.some.injEq, Prod.mk.injEq, and_true]
    omega
  · rw [if_neg h3]
    simp only [List.cons_append, List.nil_append, readRune]
    have hl : ∃ lo hi, leadInfo (0xF0 + r / 262144) = some (4, lo, hi) ∧
        lo ≤ 0x80 + (r / 4096) % 64 ∧ 0x80 + (r / 4096) % 64 ≤ hi := by
      unfold leadInfo
      rw [if_neg (by omega), if_neg (by omega), if_neg (by omega), if_neg (by omega),
        if_neg (by omega)]
      by_cases c0 : 0xF0 + r / 262144 = 0xF0
      · rw [if_pos c0]
        exact ⟨_, _, rfl, by omega, by omega⟩
      rw [if_neg c0]
      by_cases c1 : 0xF1 ≤ 0xF0 + r / 262144 ∧ 0xF0 + r / 262144 ≤ 0xF3
      · rw [if_pos c1]
        exact ⟨_, _, rfl, by omega, by omega⟩
      rw [if_neg c1, if_pos (by omega)]
      exact ⟨_, _, rfl, by omega, by omega⟩
    obtain ⟨lo, hi, hl1, hl2, hl3⟩ := hl
    rw [decodeRune_four _ _ _ _ lo hi _ hl1 (by omega) ⟨hl2, hl3⟩ (by omega) (by omega)]
    simp only [List.drop_succ_cons, List.drop_zero, Option.some.injEq, Prod.mk.injEq, and_true]
    omega

theorem utf8_ascii (l : List Nat) (h : ∀ x ∈ l, x < 128) : utf8 l = l := by
  induction l with
  | nil => rfl
  | cons a t ih =>
    have ha := h a (by simp)
    have e : encodeRune a = [a] := by
      unfold encodeRune
      rw [if_pos ha]
    simp only [utf8, List.flatMap_cons] at ih ⊢
    rw [e, ih (fun x hx => h x (by simp [hx]))]
    rfl

theorem utf8_append (a b : List Nat) : utf8 (a ++ b) = utf8 a ++ utf8 b := by
  simp [utf8, List.flatMap_append]

theorem utf8_cons (r : Nat) (t : List Nat) : utf8 (r :: t) = encodeRune r ++ utf8 t := by
  simp [utf8]

/-- The statement loop on the bytes of a text of Unicode scalar values: the
runes up to the first semicolon are written to the buffer. -/
theorem readStatement_runes (x buffer rest : List Nat)
    (h : ∀ r ∈ x, isValidRune r = true ∧ r ≠ 59) :
    readStatement (utf8 x ++ 59 :: rest).length buffer (utf8 x ++ 59 :: rest)
      = (buffer ++ x ++ [59], rest) := by
  induction x generalizing buffer with
  | nil =>
    rw [show utf8 [] = [] from rfl, List.nil_append, readStatement_eq,
      readRune_ascii 59 _ (by norm_num)]
    simp
  | cons r x ih =>
    have hr := h r (by simp)
    rw [utf8_cons, List.append_assoc, readStatement_eq, readRune_encode r _ hr.1]
    simp only
    rw [if_neg hr.2, ih (buffer ++ [r]) (fun y hy => h y (by simp [hy]))]
    simp

/-- A list that holds a semicolon, cut at its first semicolon. -/
theorem first_semicolon (l : List Nat) (h : 59 ∈ l) :
    ∃ x y, l = x ++ 59 :: y ∧ 59 ∉ x := by
  induction l with
  | nil => simp at h
  | cons a t ih =>
    by_cases ha : a = 59
    · exact ⟨[], t, by rw [ha]; rfl, by simp⟩
    · have ht : 59 ∈ t := by
        rcases List.mem_cons.mp h with h | h
        · exact absurd h.symm ha
        · exact h
      obtain ⟨x, y, hxy, hx⟩ := ih ht
      refine ⟨a :: x, y, by rw [hxy]; rfl, ?_⟩
      simp only [List.mem_cons, not_or]
      exact ⟨fun h => ha h.symm, hx⟩

/-- A match of the pattern from the first rune of a text that holds a
semicolon does not depend on what follows the text. -/
theorem matchHere_append (X z : List Nat) (h : 59 ∈ X) : matchHere (X ++ z) = matchHere X := by
  obtain ⟨x, y, hxy, hx⟩ := first_semicolon X h
  rw [hxy, List.append_assoc, List.cons_append, matchHere_upto_semicolon x (y ++ z) hx,
    matchHere_upto_semicolon x y hx]

theorem matchHere_nil : matchHere [] = none := by decide

/-- The pattern matches nowhere in a text that ends with a semicolon and is
the start of a text where it matches nowhere. -/
theorem findSubmatch_prefix_none (P Q : List Nat) (hP : P.getLast? = some 59)
    (h : findSubmatch (P ++ Q) = none) : findSubmatch P = none := by
  induction P with
  | nil => simp at hP
  | cons a P ih =>
    have hmem : 59 ∈ a :: P := List.mem_of_getLast?_eq_some hP
    rw [List.cons_append] at h
    obtain ⟨h1, h2⟩ := findSubmatch_cons_none a (P ++ Q) h
    have h3 : matchHere (a :: P) = none := by
      rw [← matchHere_append (a :: P) Q hmem]
      exact h1
    rw [findSubmatch, h3]
    rcases P with _ | ⟨b, P⟩
    · show findSubmatch [] = none
      rw [findSubmatch]
      exact matchHere_nil
    · exact ih (by simpa using hP) h2

/-- After a text that ends with a semicolon and where the pattern matches
nowhere, the leftmost match is the leftmost match in what follows. -/
theorem findSubmatch_append_unmatched (B z : List Nat) (hB : B.getLast? = some 59)
    (hno : findSubmatch B = none) : findSubmatch (B ++ z) = findSubmatch z := by
  induction B with
  | nil => simp at hB
  | cons a B ih =>
    have hmem : 59 ∈ a :: B := List.mem_of_getLast?_eq_some hB
    obtain ⟨h1, h2⟩ := findSubmatch_cons_none a B hno
    have h3 : matchHere (a :: B ++ z) = none := by
      rw [matchHere_append (a :: B) z hmem]
      exact h1
    show findSubmatch (a :: (B ++ z)) = findSubmatch z
    rw [findSubmatch]
    rw [List.cons_append] at h3
    rw [h3]
    rcases B with _ | ⟨b, B⟩
    · rfl
    · exact ih (by simpa using hB) h2

/-- Lines 159-178 with the buffer still holding an unmatched statement, for
any rune read next: the rune is written and the statement loop runs again. -/
theorem scan_resume_rune (pkg : List Nat) (count : Nat) (p mid Y Y2 : List Nat) (c : Nat)
    (hp : p.map asciiUpper = ascii "CREATE TYPE")
    (hr : readRune Y = some (c, Y2)) :
    scan pkg (p ++ mid ++ [59]) count Y =
      match findSubmatch (readStatement Y2.length (p ++ mid ++ [59] ++ [c]) Y2).1 with
      | none =>
        Outcome.block (readStatement Y2.length (p ++ mid ++ [59] ++ [c]) Y2).1
          (scan pkg (readStatement Y2.length (p ++ mid ++ [59] ++ [c]) Y2).1 count
            (readStatement Y2.length (p ++ mid ++ [59] ++ [c]) Y2).2)
      | some (name, values) =>
        Outcome.block (readStatement Y2.length (p ++ mid ++ [59] ++ [c]) Y2).1
          (Outcome.emit
            { PkgName := pkg
              TypeName := normalizeName name
              Values := TransforEnums (splitComma values)
              FirstType := decide (count + 1 = 1) }
            (scan pkg [] (count + 1)
              (readStatement Y2.length (p ++ mid ++ [59] ++ [c]) Y2).2)) := by
  have hsp : startsCreateType p = true := by
    have hlen : p.length = 11 := by
      have := congrArg List.length hp
      simpa [ascii_create_type] using this
    simp only [startsCreateType, decide_eq_true_eq]
    rw [List.take_of_length_le (by omega)]
    exact hp
  rcases p with _ | ⟨a, p2⟩
  · simp [startsCreateType, ascii_create_type] at hsp
  have ha : asciiUpper a = 67 := by
    rw [ascii_create_type] at hp
    simp only [List.map_cons, List.cons.injEq] at hp
    exact hp.1
  have ha6 : isSpace a = false := (keyword_byte a 67 ha (Or.inr (by omega))).2.2.2.2.2.1 (by omega)
  have eB : (a :: p2) ++ mid ++ [59] = a :: ((p2 ++ mid) ++ [59]) := by simp
  have hlenB : 11 ≤ ((a :: p2) ++ mid ++ [59]).length := by
    have := (startsCreateType_facts _ hsp).1
    simp only [List.length_append, List.length_cons, List.length_nil] at this ⊢
    omega
  have h0 : ¬byteLen ((a :: p2) ++ mid ++ [59]) = 0 := by
    have := length_le_byteLen ((a :: p2) ++ mid ++ [59])
    omega
  have h47 : trimSpace ((a :: p2) ++ mid ++ [59]) ≠ [47] := by
    rw [eB, trimSpace_ends a 59 _ ha6 (by decide)]
    intro hcon
    have := congrArg List.length hcon
    rw [← eB] at this
    simp only [List.length_cons, List.length_nil] at this
    omega
  obtain ⟨q2, hq2⟩ := trimSpace_keeps_front a 59 (p2 ++ mid) [c] ha6 (by decide)
  rw [← eB] at hq2
  have hstart : startsCreateType ((a :: p2) ++ mid ++ [59] ++ q2) = true := by
    have : (a :: p2) ++ mid ++ [59] ++ q2 = (a :: p2) ++ (mid ++ [59] ++ q2) := by simp
    rw [this]
    exact startsCreateType_append _ _ hsp
  have hlen2 : ¬byteLen ((a :: p2) ++ mid ++ [59] ++ q2) < 11 := by
    have := length_le_byteLen ((a :: p2) ++ mid ++ [59] ++ q2)
    simp only [List.length_append] at this hlenB ⊢
    omega
  have hlen3 : 11 ≤ byteLen ((a :: p2) ++ mid ++ [59] ++ [c]) := by
    have := length_le_byteLen ((a :: p2) ++ mid ++ [59] ++ [c])
    simp only [List.length_append] at this hlenB ⊢
    omega
  rw [scan_eq, hr]
  simp only
  rw [if_neg (fun h => h0 h.1), if_neg (fun h => h0 h.1), if_neg (fun h => h47 h.1),
    if_pos hlen3, hq2, if_neg hlen2, if_pos hstart]

/-- The statement loop on white space and a well-formed statement: all of it
is written to the buffer. -/
theorem readStatement_statement (B ws : List Nat) (s : EnumStmt) (rest : List Nat)
    (hws : ∀ r ∈ ws, isSpace r = true) (hs : s.wellFormed = true) :
    readStatement (utf8 ws ++ (s.text ++ rest)).length B (utf8 ws ++ (s.text ++ rest))
      = (B ++ ws ++ s.text, rest) := by
  rw [readStatement_spaces ws _ _ hws]
  have e : s.text ++ rest = ([67, 82, 69, 65, 84, 69, 32, 84, 89, 80, 69] ++
      (32 :: (s.name ++ ([32, 65, 83, 32, 69, 78, 85, 77] ++
        (s.gap ++ (40 :: (s.values ++ [41]))))))) ++ 59 :: rest := by
    rw [text_split]; simp
  rw [e, readStatement_upto _ _ _ (text_ascii s hs), text_eq s]
  simp

theorem findSubmatch_statement (B ws : List Nat) (s : EnumStmt)
    (hB : B.getLast? = some 59) (hno : findSubmatch B = none)
    (hws : ∀ r ∈ ws, isSpace r = true) (hs : s.wellFormed = true) :
    findSubmatch (B ++ ws ++ s.text) = some (s.name, s.values) := by
  rw [List.append_assoc, findSubmatch_append_unmatched B _ hB hno, findSubmatch_spaces ws _ hws]
  exact findSubmatch_of_matchHere _ _ (matchHere_text s hs)

theorem first_rune_statement (ws : List Nat) (s : EnumStmt) (rest : List Nat)
    (hws : ∀ r ∈ ws, isSpace r = true) :
    ∃ c Y2, readRune (utf8 ws ++ (s.text ++ rest)) = some (c, Y2) ∧ c ≠ 59 := by
  rcases ws with _ | ⟨r, ws⟩
  · rw [text_split]
    exact ⟨67, _, readRune_ascii 67 _ (by norm_num), by norm_num⟩
  · have hr := hws r (by simp)
    refine ⟨r, utf8 ws ++ (s.text ++ rest), ?_, ?_⟩
    · rw [utf8_cons, List.append_assoc]
      exact readRune_encode_space r _ hr
    · intro h; subst h; revert hr; decide

/-- With the buffer holding statements that the pattern does not match, white
space and a well-formed statement are read into the buffer, and the record of
the statement is emitted. -/
theorem scan_resume_statement (pkg : List Nat) (count : Nat) (p mid ws : List Nat)
    (s : EnumStmt) (rest : List Nat)
    (hp : p.map asciiUpper = ascii "CREATE TYPE")
    (hno : findSubmatch (p ++ mid ++ [59]) = none)
    (hws : ∀ r ∈ ws, isSpace r = true) (hs : s.wellFormed = true) :
    scan pkg (p ++ mid ++ [59]) count (utf8 ws ++ (s.text ++ rest))
      = Outcome.block (p ++ mid ++ [59] ++ ws ++ s.text)
          (Outcome.emit (s.decl pkg (decide (count + 1 = 1)))
            (scan pkg [] (count + 1) rest)) := by
  obtain ⟨c, Y2, hr, hc⟩ := first_rune_statement ws s rest hws
  rw [scan_resume pkg count p mid _ Y2 c hp hr hc,
    readStatement_statement _ ws s rest hws hs]
  simp only
  rw [findSubmatch_statement _ ws s (by simp) hno hws hs]
  simp only [EnumStmt.decl]

theorem utf8_semicolon (x y : List Nat) : utf8 (x ++ 59 :: y) = utf8 x ++ 59 :: utf8 y := by
  rw [utf8_append, utf8_cons]
  rfl

theorem getLast_snoc (l : List Nat) (a : Nat) : (l ++ [a]).getLast? = some a := by
  rw [List.getLast?_append_of_ne_nil _ (by simp)]
  rfl

theorem block_prepend (b : List Nat) (L : List (List Nat)) (o : Outcome) :
    Outcome.block b (Outcome.prepend L [] o) = Outcome.prepend (b :: L) [] o := by
  simp [Outcome.block, Outcome.prepend]

theorem prepend_no_block (o : Outcome) : Outcome.prepend [] [] o = o := by
  cases o
  simp [Outcome.prepend]

/-- With the buffer holding a statement that the pattern does not match, the
rest `u` of a text where the pattern matches nowhere is read into the buffer
one semicolon at a time, each time as a raw block that is not matched; then
white space and a well-formed statement are read into the buffer, and the
record of the statement is emitted. -/
theorem scan_unmatched_rest (pkg : List Nat) (count : Nat) (p ws : List Nat) (s : EnumStmt)
    (rest : List Nat) (hp : p.map asciiUpper = ascii "CREATE TYPE")
    (hws : ∀ r ∈ ws, isSpace r = true) (hs : s.wellFormed = true) (n : Nat) :
    ∀ mid u : List Nat, u.length ≤ n → (u = [] ∨ u.getLast? = some 59) →
      (∀ r ∈ u, isValidRune r = true) → findSubmatch (p ++ mid ++ [59] ++ u) = none →
      ∃ L : List (List Nat), (∀ b ∈ L, findSubmatch b = none) ∧
        scan pkg (p ++ mid ++ [59]) count (utf8 u ++ (utf8 ws ++ (s.text ++ rest)))
          = Outcome.prepend L []
              (Outcome.block (p ++ mid ++ [59] ++ u ++ ws ++ s.text)
                (Outcome.emit (s.decl pkg (decide (count + 1 = 1)))
                  (scan pkg [] (count + 1) rest))) := by
  induction n with
  | zero =>
    intro mid u hn _ _ hno
    have : u = [] := List.length_eq_zero.mp (by omega)
    subst this
    refine ⟨[], by simp, ?_⟩
    rw [List.append_nil] at hno ⊢
    rw [prepend_no_block, show utf8 [] = [] from rfl, List.nil_append]
    exact scan_resume_statement pkg count p mid ws s rest hp hno hws hs
  | succ n ih =>
    intro mid u hn hlast hvalid hno
    rcases u with _ | ⟨c, u1⟩
    · refine ⟨[], by simp, ?_⟩
      rw [List.append_nil] at hno ⊢
      rw [prepend_no_block, show utf8 [] = [] from rfl, List.nil_append]
      exact scan_resume_statement pkg count p mid ws s rest hp hno hws hs
    · have hlast2 : (c :: u1).getLast? = some 59 := by
        rcases hlast with h | h
        · cases h
        · exact h
      have hr : readRune (utf8 (c :: u1) ++ (utf8 ws ++ (s.text ++ rest)))
          = some (c, utf8 u1 ++ (utf8 ws ++ (s.text ++ rest))) := by
        rw [utf8_cons, List.append_assoc]
        exact readRune_encode c _ (hvalid c (by simp))
      rw [scan_resume_rune pkg count p mid _ _ c hp hr]
      by_cases h59 : 59 ∈ u1
      · obtain ⟨x, y, hxy, hx⟩ := first_semicolon u1 h59
        subst hxy
        have hxv : ∀ r ∈ x, isValidRune r = true ∧ r ≠ 59 := by
          intro r hr
          refine ⟨hvalid r (by simp [hr]), ?_⟩
          intro h
          rw [h] at hr
          exact hx hr
        have eP : p ++ mid ++ [59] ++ [c] ++ x ++ [59] = p ++ (mid ++ 59 :: c :: x) ++ [59] := by
          simp
        have hnoP : findSubmatch (p ++ (mid ++ 59 :: c :: x) ++ [59]) = none := by
          apply findSubmatch_prefix_none _ y (getLast_snoc _ _)
          have : p ++ (mid ++ 59 :: c :: x) ++ [59] ++ y = p ++ mid ++ [59] ++ c :: (x ++ 59 :: y) := by
            simp
          rw [this]
          exact hno
        rw [utf8_semicolon, List.append_assoc, List.cons_append,
          readStatement_runes x _ _ hxv, eP]
        simp only
        rw [hnoP]
        simp only
        have hy : y = [] ∨ y.getLast? = some 59 := by
          rcases y with _ | ⟨b, y⟩
          · exact Or.inl rfl
          · right
            have e : c :: (x ++ 59 :: b :: y) = (c :: (x ++ [59])) ++ (b :: y) := by simp
            rw [e, List.getLast?_append_of_ne_nil _ (by simp)] at hlast2
            exact hlast2
        obtain ⟨L, hL, hscan⟩ := ih (mid ++ 59 :: c :: x) y
          (by simp only [List.length_cons, List.length_append] at hn ⊢; omega) hy
          (fun r hr => hvalid r (by simp [hr]))
          (by
            have : p ++ (mid ++ 59 :: c :: x) ++ [59] ++ y = p ++ mid ++ [59] ++ c :: (x ++ 59 :: y) := by
              simp
            rw [this]
            exact hno)
        refine ⟨(p ++ (mid ++ 59 :: c :: x) ++ [59]) :: L, ?_, ?_⟩
        · intro b hb
          rcases List.mem_cons.mp hb with rfl | hb
          · exact hnoP
          · exact hL b hb
        · rw [hscan, block_prepend]
          have : p ++ (mid ++ 59 :: c :: x) ++ [59] ++ y ++ ws ++ s.text
              = p ++ mid ++ [59] ++ c :: (x ++ 59 :: y) ++ ws ++ s.text := by simp
          rw [this]
      · have hu1 : u1 = [] := by
          rcases u1 with _ | ⟨b, u1⟩
          · rfl
          · exfalso
            apply h59
            have : (c :: b :: u1).getLast? = (b :: u1).getLast? := by simp
            rw [this] at hlast2
            exact List.mem_of_getLast?_eq_some hlast2
        subst hu1
        have hc : c = 59 := by simpa using hlast2
        subst hc
        refine ⟨[], by simp, ?_⟩
        rw [prepend_no_block, show utf8 [] = [] from rfl, List.nil_append,
          readStatement_statement _ ws s rest hws hs]
        simp only
        rw [findSubmatch_statement _ ws s (getLast_snoc _ _) hno hws hs]
        simp only [EnumStmt.decl]

/-- A text that starts with `CREATE TYPE`, ends with a semicolon and holds no
match of the pattern, then white space and a well-formed statement, read with
an empty buffer: the text is read one semicolon at a time, each time as a raw
block that is not matched, and stays in the buffer; the last raw block is the
text, the white space and the statement, and the record of the statement is
emitted. -/
theorem scan_unmatched_text (pkg : List Nat) (count : Nat) (p u ws : List Nat) (s : EnumStmt)
    (rest : List Nat) (hp : p.map asciiUpper = ascii "CREATE TYPE")
    (hu : u.getLast? = some 59) (hvalid : ∀ r ∈ u, isValidRune r = true)
    (hno : findSubmatch (p ++ u) = none)
    (hws : ∀ r ∈ ws, isSpace r = true) (hs : s.wellFormed = true) :
    ∃ L : List (List Nat), (∀ b ∈ L, findSubmatch b = none) ∧
      scan pkg [] count (utf8 (p ++ u) ++ (utf8 ws ++ (s.text ++ rest)))
        = Outcome.prepend L []
            (Outcome.block (p ++ u ++ ws ++ s.text)
              (Outcome.emit (s.decl pkg (decide (count + 1 = 1)))
                (scan pkg [] (count + 1) rest))) := by
  obtain ⟨x, y, hxy, hx⟩ := first_semicolon u (List.mem_of_getLast?_eq_some hu)
  subst hxy
  have hxv : ∀ r ∈ x, isValidRune r = true ∧ r ≠ 59 := by
    intro r hr
    refine ⟨hvalid r (by simp [hr]), ?_⟩
    intro h
    rw [h] at hr
    exact hx hr
  have hpa : utf8 p = p :=
    utf8_ascii p (fun b hb => (keyword_bytes p _ hp create_type_letters b hb).1)
  have hnoP : findSubmatch (p ++ x ++ [59]) = none := by
    apply findSubmatch_prefix_none _ y (getLast_snoc _ _)
    have : p ++ x ++ [59] ++ y = p ++ (x ++ 59 :: y) := by simp
    rw [this]
    exact hno
  have hy : y = [] ∨ y.getLast? = some 59 := by
    rcases y with _ | ⟨b, y⟩
    · exact Or.inl rfl
    · right
      have e : x ++ 59 :: b :: y = (x ++ [59]) ++ (b :: y) := by simp
      rw [e, List.getLast?_append_of_ne_nil _ (by simp)] at hu
      exact hu
  obtain ⟨L, hL, hscan⟩ := scan_unmatched_rest pkg count p ws s rest hp hws hs y.length x y
    (le_refl _) hy (fun r hr => hvalid r (by simp [hr]))
    (by
      have : p ++ x ++ [59] ++ y = p ++ (x ++ 59 :: y) := by simp
      rw [this]
      exact hno)
  refine ⟨(p ++ x ++ [59]) :: L, ?_, ?_⟩
  · intro b hb
    rcases List.mem_cons.mp hb with rfl | hb
    · exact hnoP
    · exact hL b hb
  · rw [utf8_append, hpa, utf8_semicolon, List.append_assoc, List.append_assoc, List.cons_append,
      scan_create_type_any pkg count p _ hp, readStatement_runes x p _ hxv]
    simp only
    rw [hnoP]
    simp only
    rw [hscan, block_prepend]
    have : p ++ x ++ [59] ++ y ++ ws ++ s.text = p ++ (x ++ 59 :: y) ++ ws ++ s.text := by simp
    rw [this]

/-! ## A statement the pattern does not match, read with an empty buffer -/

/-- Lines 159-186 on a text of Unicode scalar values that starts with
`CREATE TYPE` and holds one semicolon, at its end, read with an empty buffer:
the text is the raw block the pattern is tried on, whatever it holds; when the
pattern matches, the record is emitted and the buffer reset, and when it does
not, the text stays in the buffer. -/
theorem scan_first_statement (pkg : List Nat) (count : Nat) (p mid rest : List Nat)
    (hp : p.map asciiUpper = ascii "CREATE TYPE")
    (hmid : ∀ r ∈ mid, isValidRune r = true ∧ r ≠ 59) :
    scan pkg [] count (utf8 (p ++ mid ++ [59]) ++ rest) =
      match findSubmatch (p ++ mid ++ [59]) with
      | none =>
        Outcome.block (p ++ mid ++ [59]) (scan pkg (p ++ mid ++ [59]) count rest)
      | some (name, values) =>
        Outcome.block (p ++ mid ++ [59])
          (Outcome.emit
            { PkgName := pkg
              TypeName := normalizeName name
              Values := TransforEnums (splitComma values)
              FirstType := decide (count + 1 = 1) }
            (scan pkg [] (count + 1) rest)) := by
  have hpa : utf8 p = p :=
    utf8_ascii p (fun b hb => (keyword_bytes p _ hp create_type_letters b hb).1)
  have e : utf8 (p ++ mid ++ [59]) ++ rest = p ++ (utf8 mid ++ 59 :: rest) := by
    rw [utf8_append, utf8_append, hpa]
    simp [utf8, encodeRune]
  rw [e, scan_create_type_any pkg count p _ hp, readStatement_runes mid p rest hmid]

theorem compositeText_split (name body : List Nat) :
    compositeText name body
      = ascii "CREATE TYPE" ++ (32 :: (name ++ ([32, 65, 83, 32, 40] ++ (body ++ [41, 59])))) := by
  rw [compositeText_eq]
  simp

/-- C15 (as amended): a composite-type statement
`CREATE TYPE <name> AS (<body>);`, of Unicode scalar values, in which the
pattern matches nowhere, followed by white space and a well-formed enum
statement: the run finishes and emits the record of the enum statement and no
other.  The pattern matches nowhere in the composite statement when its name
and body hold no `;` and the body closes every parenthesis it opens.  The
composite statement is read one semicolon at a time, as raw blocks that are
not matched, and stays in the buffer; the last raw block is the composite
statement, the white space and the enum statement.  With no `;` in the name
and body the raw blocks are two. -/
theorem composite_statement_skipped (pkg name body ws : List Nat) (s : EnumStmt)
    (hname : ∀ r ∈ name, isValidRune r = true) (hbody : ∀ r ∈ body, isValidRune r = true)
    (hno : (59 ∉ name ∧ 59 ∉ body ∧ parensClosed body = true) ∨
      findSubmatch (compositeText name body) = none)
    (hws : ∀ r ∈ ws, isSpace r = true) (hs : s.wellFormed = true) :
    findSubmatch (compositeText name body) = none ∧
    (run pkg (utf8 (compositeText name body) ++ (utf8 ws ++ s.text))).emitted
      = [s.decl pkg true] ∧
    (run pkg (utf8 (compositeText name body) ++ (utf8 ws ++ s.text))).status
      = Status.finished ∧
    (∃ L : List (List Nat), (∀ b ∈ L, findSubmatch b = none) ∧
      (run pkg (utf8 (compositeText name body) ++ (utf8 ws ++ s.text))).blocks
        = L ++ [compositeText name body ++ ws ++ s.text]) ∧
    (59 ∉ name → 59 ∉ body →
      (run pkg (utf8 (compositeText name body) ++ (utf8 ws ++ s.text))).blocks
        = [compositeText name body, compositeText name body ++ ws ++ s.text]) := by
  have hno2 : findSubmatch (compositeText name body) = none := by
    rcases hno with ⟨h1, h2, h3⟩ | h
    · exact compositeText_no_match name body h1 h2 h3
    · exact h
  have hp : (ascii "CREATE TYPE").map asciiUpper = ascii "CREATE TYPE" := by decide
  have hu : ∀ r ∈ 32 :: (name ++ ([32, 65, 83, 32, 40] ++ (body ++ [41, 59]))),
      isValidRune r = true := by
    intro r hr
    simp only [List.mem_cons, List.mem_append, List.not_mem_nil, or_false] at hr
    rcases hr with hr | hr | hr | hr
    · subst hr; decide
    · exact hname r hr
    · rcases hr with hr | hr | hr | hr | hr <;> subst hr <;> decide
    · rcases hr with hr | hr | hr
      · exact hbody r hr
      · subst hr; decide
      · subst hr; decide
  have hlast : (32 :: (name ++ ([32, 65, 83, 32, 40] ++ (body ++ [41, 59])))).getLast?
      = some 59 := by
    have e : 32 :: (name ++ ([32, 65, 83, 32, 40] ++ (body ++ [41, 59])))
        = (32 :: (name ++ ([32, 65, 83, 32, 40] ++ (body ++ [41])))) ++ [59] := by simp
    rw [e]
    exact getLast_snoc _ _
  obtain ⟨L, hL, hscan⟩ := scan_unmatched_text pkg 0 (ascii "CREATE TYPE") _ ws s [] hp hlast hu
    (by rw [← compositeText_split]; exact hno2) hws hs
  rw [← compositeText_split, List.append_nil, scan_nil] at hscan
  refine ⟨hno2, ?_, ?_, ⟨L, hL, ?_⟩, ?_⟩
  · rw [run, hscan]
    rfl
  · rw [run, hscan]
    rfl
  · rw [run, hscan]
    rfl
  · intro h1 h2
    have hmid : ∀ r ∈ 32 :: (name ++ ([32, 65, 83, 32, 40] ++ (body ++ [41]))),
        isValidRune r = true ∧ r ≠ 59 := by
      intro r hr
      simp only [List.mem_cons, List.mem_append, List.not_mem_nil, or_false] at hr
      rcases hr with hr | hr | hr | hr
      · subst hr; decide
      · exact ⟨hname r hr, fun h => h1 (h ▸ hr)⟩
      · rcases hr with hr | hr | hr | hr | hr <;> subst hr <;> decide
      · rcases hr with hr | hr
        · exact ⟨hbody r hr, fun h => h2 (h ▸ hr)⟩
        · subst hr; decide
    have h3 := scan_first_statement pkg 0 (ascii "CREATE TYPE") _ (utf8 ws ++ (s.text ++ []))
      hp hmid
    rw [← compositeText_eq] at h3
    rw [hno2] at h3
    simp only at h3
    have hno3 := hno2
    rw [compositeText_eq] at hno3
    have h4 := scan_resume_statement pkg 0 (ascii "CREATE TYPE") _ ws s [] hp hno3 hws hs
    rw [← compositeText_eq] at h4
    rw [h4, scan_nil, List.append_nil] at h3
    rw [run, h3]
    rfl

set_option maxRecDepth 100000 in
/-- C15 (counterexample): a composite-type statement with a comment that holds
an enum statement, then a newline and a well-formed enum statement.  The
statement loop stops at the `;` inside the comment, the pattern matches the
enum statement of the comment, and the record `Q` is emitted; the rest of the
composite statement then stays in the buffer to the end of the input, and the
record `B` of the second statement is not emitted. -/
theorem composite_statement_with_enum_in_comment :
    ascii "CREATE TYPE a AS (x int /* CREATE TYPE q AS ENUM ('z'); */);\nCREATE TYPE b AS ENUM ('y');"
      = utf8 (compositeText (ascii "a") (ascii "x int /* CREATE TYPE q AS ENUM ('z'); */"))
          ++ (utf8 [10] ++ (EnumStmt.mk (ascii "b") [32] (ascii "'y'")).text) ∧
    (EnumStmt.mk (ascii "b") [32] (ascii "'y'")).wellFormed = true ∧
    run [] (ascii "CREATE TYPE a AS (x int /* CREATE TYPE q AS ENUM ('z'); */);\nCREATE TYPE b AS ENUM ('y');")
      = { blocks := [ascii "CREATE TYPE a AS (x int /* CREATE TYPE q AS ENUM ('z');"],
          emitted := [{ PkgName := [], TypeName := ascii "Q", Values := [ascii "Z"],
                        FirstType := true }],
          status := Status.finished } ∧
    (run [] (ascii "CREATE TYPE a AS (x int /* CREATE TYPE q AS ENUM ('z'); */);\nCREATE TYPE b AS ENUM ('y');")).emitted
      ≠ [(EnumStmt.mk (ascii "b") [32] (ascii "'y'")).decl [] true] := by
  decide

set_option maxRecDepth 100000 in
/-- An instance of `composite_statement_skipped`: the input
`CREATE TYPE a AS (x text /* ; */);`, a newline, and
`CREATE TYPE b AS ENUM ('y');`, where the composite statement holds a `;`;
and the input `CREATE TYPE a AS (x numeric(10,2), y text);`, a newline, and
`CREATE TYPE b AS ENUM ('y');`, with its two raw blocks. -/
theorem composite_statement_skipped_witness :
    (run [] (utf8 (compositeText (ascii "a") (ascii "x text /* ; */"))
        ++ (utf8 [10] ++ (EnumStmt.mk (ascii "b") [32] (ascii "'y'")).text))).emitted
      = [(EnumStmt.mk (ascii "b") [32] (ascii "'y'")).decl [] true] ∧
    (run [] (utf8 (compositeText (ascii "a") (ascii "x text /* ; */"))
        ++ (utf8 [10] ++ (EnumStmt.mk (ascii "b") [32] (ascii "'y'")).text))).status
      = Status.finished ∧
    (run [] (utf8 (compositeText (ascii "a") (ascii "x numeric(10,2), y text"))
        ++ (utf8 [10] ++ (EnumStmt.mk (ascii "b") [32] (ascii "'y'")).text))).blocks
      = [compositeText (ascii "a") (ascii "x numeric(10,2), y text"),
         compositeText (ascii "a") (ascii "x numeric(10,2), y text") ++ [10]
           ++ (EnumStmt.mk (ascii "b") [32] (ascii "'y'")).text] :=
  ⟨(composite_statement_skipped [] (ascii "a") (ascii "x text /* ; */") [10]
      (EnumStmt.mk (ascii "b") [32] (ascii "'y'")) (by decide) (by decide)
      (Or.inr (by decide)) (by decide) (by decide)).2.1,
   (composite_statement_skipped [] (ascii "a") (ascii "x text /* ; */") [10]
      (EnumStmt.mk (ascii "b") [32] (ascii "'y'")) (by decide) (by decide)
      (Or.inr (by decide)) (by decide) (by decide)).2.2.1,
   (composite_statement_skipped [] (ascii "a") (ascii "x numeric(10,2), y text") [10]
      (EnumStmt.mk (ascii "b") [32] (ascii "'y'")) (by decide) (by decide)
      (Or.inl ⟨by decide, by decide, by decide⟩) (by decide) (by decide)).2.2.2.2
      (by decide) (by decide)⟩

/-! ## A block comment, with an empty buffer and inside a statement -/

set_option maxRecDepth 100000 in
/-- C8 (as amended): a block comment that starts where the buffer is empty,
that is at the start of the input or after any sequence of white space,
comments and well-formed enum statements, is fully elided up to its first
`*/`, whatever its body holds, semicolons and parentheses included: the run on
the input with the comment is the run on the input without it.  A block
comment inside a statement is not elided: a text of Unicode scalar values that
starts with `CREATE TYPE`, holds `/*` and has its first semicolon after it,
read with an empty buffer, is read up to that semicolon, whether the comment
is closed before it or not, and is the raw block the pattern is tried on.  So
`CREATE TYPE a AS ENUM ('x' /* c */);` yields no record, and
`CREATE TYPE a AS ENUM ('x' /* CREATE TYPE q AS ENUM ('z'); */);` yields the
record `Q`. -/
theorem block_comment_elided_only_when_idle (pkg : List Nat) (items : List Item)
    (c rest : List Nat) (count : Nat) (p x c2 rest2 : List Nat)
    (hitems : ∀ it ∈ items, it.wellFormed = true) (hc : hasClose c = false)
    (hp : p.map asciiUpper = ascii "CREATE TYPE")
    (hx : ∀ r ∈ x ++ 47 :: 42 :: c2, isValidRune r = true ∧ r ≠ 59) :
    run pkg (itemsText items ++ (47 :: 42 :: (c ++ 42 :: 47 :: rest)))
      = run pkg (itemsText items ++ rest) ∧
    scan pkg [] count (utf8 (p ++ (x ++ 47 :: 42 :: c2) ++ [59]) ++ rest2) =
      (match findSubmatch (p ++ (x ++ 47 :: 42 :: c2) ++ [59]) with
      | none =>
        Outcome.block (p ++ (x ++ 47 :: 42 :: c2) ++ [59])
          (scan pkg (p ++ (x ++ 47 :: 42 :: c2) ++ [59]) count rest2)
      | some (name, values) =>
        Outcome.block (p ++ (x ++ 47 :: 42 :: c2) ++ [59])
          (Outcome.emit
            { PkgName := pkg
              TypeName := normalizeName name
              Values := TransforEnums (splitComma values)
              FirstType := decide (count + 1 = 1) }
            (scan pkg [] (count + 1) rest2))) ∧
    (scan pkg [] count (utf8 (p ++ (x ++ 47 :: 42 :: c2) ++ [59]) ++ rest2)).blocks.head?
      = some (p ++ (x ++ 47 :: 42 :: c2) ++ [59]) ∧
    run [] (ascii "CREATE TYPE a AS ENUM ('x' /* c */);")
      = { blocks := [ascii "CREATE TYPE a AS ENUM ('x' /* c */);"], emitted := [],
          status := Status.finished } ∧
    run [] (ascii "CREATE TYPE a AS ENUM ('x' /* CREATE TYPE q AS ENUM ('z'); */);")
      = { blocks := [ascii "CREATE TYPE a AS ENUM ('x' /* CREATE TYPE q AS ENUM ('z');"],
          emitted := [{ PkgName := [], TypeName := ascii "Q", Values := [ascii "Z"],
                        FirstType := true }],
          status := Status.finished } := by
  have h2 := scan_first_statement pkg count p (x ++ 47 :: 42 :: c2) rest2 hp hx
  refine ⟨?_, h2, ?_, by decide, by decide⟩
  · unfold run
    rw [scan_items pkg 0 items _ hitems, scan_items pkg 0 items rest hitems,
      scan_block_comment pkg _ c rest hc]
  · rw [h2]
    rcases findSubmatch (p ++ (x ++ 47 :: 42 :: c2) ++ [59]) with _ | ⟨name, values⟩ <;> rfl

set_option maxRecDepth 100000 in
/-- An instance of `block_comment_elided_only_when_idle`: a comment that holds
a whole statement and parentheses, after a statement and a newline, is
elided; the statement `CREATE TYPE t AS ENUM ('x' /* é ; */);` is read up to
the semicolon of its comment. -/
theorem block_comment_elided_only_when_idle_witness :
    run [] (itemsText [Item.statement (EnumStmt.mk (ascii "a") [32] (ascii "'x'")), Item.space 10]
        ++ (47 :: 42 :: (ascii " CREATE TYPE b AS ENUM ('y'); (old) " ++ 42 :: 47 ::
          ascii "CREATE TYPE c AS ENUM ('z');")))
      = run [] (itemsText [Item.statement (EnumStmt.mk (ascii "a") [32] (ascii "'x'")), Item.space 10]
        ++ ascii "CREATE TYPE c AS ENUM ('z');") ∧
    (scan [] [] 0 (utf8 (ascii "CREATE TYPE" ++ (ascii " t AS ENUM ('x' " ++ 47 :: 42 :: [32, 233, 32])
        ++ [59]) ++ ascii " */);")).blocks.head?
      = some (ascii "CREATE TYPE" ++ (ascii " t AS ENUM ('x' " ++ 47 :: 42 :: [32, 233, 32])
        ++ [59]) :=
  ⟨(block_comment_elided_only_when_idle []
      [Item.statement (EnumStmt.mk (ascii "a") [32] (ascii "'x'")), Item.space 10]
      (ascii " CREATE TYPE b AS ENUM ('y'); (old) ") (ascii "CREATE TYPE c AS ENUM ('z');")
      0 (ascii "CREATE TYPE") (ascii " t AS ENUM ('x' ") [32, 233, 32] (ascii " */);")
      (by decide) (by decide) (by decide) (by decide)).1,
   (block_comment_elided_only_when_idle []
      [Item.statement (EnumStmt.mk (ascii "a") [32] (ascii "'x'")), Item.space 10]
      (ascii " CREATE TYPE b AS ENUM ('y'); (old) ") (ascii "CREATE TYPE c AS ENUM ('z');")
      0 (ascii "CREATE TYPE") (ascii " t AS ENUM ('x' ") [32, 233, 32] (ascii " */);")
      (by decide) (by decide) (by decide) (by decide)).2.2.1⟩

end GoEnums
